import Mathlib

/-!
Verification of the duck-script parser (`src/src/duckparser.cpp`).

Shallow embedding.  A `char` is a natural number (its byte value); a C pointer
`const char*` is the list of bytes stored from that address on, and a read
`p[i]` is `p.getD i 0`: a NUL-terminated literal is followed by its
terminator.  A pointer into a buffer at offset `o` is `buf.drop o`.
-/

namespace duckparser

/-! ## Constants -/

def COMPARE_UNEQUAL : Nat := 0
def COMPARE_EQUAL : Nat := 1
def COMPARE_CASE_INSENSETIVE : Nat := 0
def COMPARE_CASE_SENSETIVE : Nat := 1

/-- Byte values of a string literal. -/
def bytes (s : String) : List Nat := s.toList.map Char.toNat

/-- The C library `strlen`: number of bytes before the first NUL. -/
def strlen (s : List Nat) : Nat := (s.takeWhile (fun c => c != 0)).length

/-! ## Pattern matcher -/

/-- Source `to_lower` (duckparser.cpp:86-91). -/
def to_lower (c : Nat) : Nat :=
  if 65 ≤ c ∧ c ≤ 90 then c + 32 else c

/-- The character test used at both comparison sites of `compare`:
`user != templ` when case sensitive, `to_lower(user) != to_lower(templ)` otherwise. -/
def charDiffers (case_sensetive : Nat) (u t : Nat) : Bool :=
  if case_sensetive = COMPARE_CASE_SENSETIVE then u != t
  else to_lower u != to_lower t

/-- Local variables `a`, `b`, `res` of `compare` (`res_i` is only ever written). -/
structure CmpState where
  a : Nat
  b : Nat
  res : Nat
deriving DecidableEq, Repr

/-- Inner loop `while (b < key_len && templ_str[b] != ',') b++;` (line 147).
Each round increases `b`, so `key_len - b` rounds always suffice. -/
def fastForward (templ_str : List Nat) (key_len : Nat) : Nat → Nat → Nat
  | 0, b => b
  | n + 1, b =>
    if b < key_len ∧ templ_str.getD b 0 ≠ 44 then fastForward templ_str key_len n (b + 1) else b

/-- First statement of the loop body (lines 124-132): skip a slash in the
template; on a comma step over it and restart the word. -/
def compareSkip (templ_str : List Nat) (s : CmpState) : CmpState :=
  if templ_str.getD s.b 0 = 47 then { s with b := s.b + 1 }
  else if templ_str.getD s.b 0 = 44 then { s with b := s.b + 1, a := 0 }
  else s

/-- One round of the body of the main `while` loop (lines 124-153). -/
def compareBody (user_str : List Nat) (str_len : Nat) (templ_str : List Nat) (key_len : Nat)
    (case_sensetive : Nat) (s : CmpState) : CmpState :=
  let s1 := compareSkip templ_str s
  -- compare character
  let res : Nat :=
    if charDiffers case_sensetive (user_str.getD s1.a 0) (templ_str.getD s1.b 0) then 0 else s1.res
  if res = 0 ∨ (s1.a = str_len - 1 ∧
        templ_str.getD (s1.b + 1) 0 ≠ 44 ∧
        templ_str.getD (s1.b + 1) 0 ≠ 47 ∧
        templ_str.getD (s1.b + 1) 0 ≠ 0) then
    { a := s1.a, b := fastForward templ_str key_len (key_len - s1.b) s1.b, res := 1 }
  else
    { a := s1.a + 1, b := s1.b + 1, res := res }

/-- Main loop `while (a < str_len && b < key_len)` (line 123), run for at most
`fuel` rounds.  Every round increases `b` (`compareBody_b_lt`), so `key_len - b`
rounds reach the exit (`compareLoop_exits`). -/
def compareLoop (user_str : List Nat) (str_len : Nat) (templ_str : List Nat) (key_len : Nat)
    (case_sensetive : Nat) : Nat → CmpState → CmpState
  | 0, s => s
  | n + 1, s =>
    if s.a < str_len ∧ s.b < key_len then
      compareLoop user_str str_len templ_str key_len case_sensetive n
        (compareBody user_str str_len templ_str key_len case_sensetive s)
    else s

/-- Source `compare` (duckparser.cpp:93-163).  The pointer-identity shortcut
and the null checks of lines 94-97 do not arise: the word is a view into the
script buffer and the template a literal. -/
def compare (user_str : List Nat) (user_str_len : Nat) (templ_str : List Nat)
    (case_sensetive : Nat) : Nat :=
  let str_len := user_str_len
  let key_len := strlen templ_str
  if str_len = key_len then
    if (List.range key_len).all
        (fun i => !charDiffers case_sensetive (user_str.getD i 0) (templ_str.getD i 0))
    then COMPARE_EQUAL else COMPARE_UNEQUAL
  else if str_len > key_len then COMPARE_UNEQUAL
  else
    let s := compareLoop user_str str_len templ_str key_len case_sensetive key_len
      { a := 0, b := 0, res := 1 }
    if s.res ≠ 0 ∧ s.a = str_len ∧
        (templ_str.getD s.b 0 = 44 ∨ templ_str.getD s.b 0 = 47 ∨ templ_str.getD s.b 0 = 0)
    then COMPARE_EQUAL else COMPARE_UNEQUAL

/-! ## Tokenizer -/

/-- Source `word_node`: `str` is the offset of the word from the pointer the
tokenizer was given, `len` its length (`next` is the list structure). -/
structure word_node where
  str : Nat
  len : Nat
deriving DecidableEq, Repr

/-- Source `line_node`, the word offsets counted from the start of the buffer. -/
structure line_node where
  str : Nat
  len : Nat
  words : List word_node
deriving DecidableEq, Repr

/-- Text of a span of `len` bytes at offset `off` of the memory `str`.  The
text ends where the modelled memory ends: it has the full `len` bytes only for
a span that lies inside the memory. -/
def spanText (str : List Nat) (off len : Nat) : List Nat := (str.drop off).take len

/-- Text of a word. -/
def wordText (str : List Nat) (w : word_node) : List Nat := spanText str w.str w.len

/-- Text of a line. -/
def lineText (str : List Nat) (n : line_node) : List Nat := spanText str n.str n.len

/-- Locals of `parse_words`: start index `j` of the current word, the flags
`escaped` and `ignore_space` (an `int` holding 0 or 1 in the source) and the
list `l` built so far. -/
structure WordsState where
  j : Nat
  escaped : Bool
  ignore_space : Bool
  l : List word_node
deriving DecidableEq, Repr

/-- Body of the `for` loop of `parse_words` (duckparser.cpp:323-339) at index `i`. -/
def parse_words_step (str : List Nat) (len : Nat) (s : WordsState) (i : Nat) : WordsState :=
  if str.getD i 0 = 92 ∧ s.escaped = false then
    { s with escaped := true }
  else if str.getD i 0 = 34 ∧ s.escaped = false then
    { s with ignore_space := !s.ignore_space }
  else if i = len ∨ (str.getD i 0 = 32 ∧ s.ignore_space = false ∧ s.escaped = false) then
    let k := i - s.j
    { s with l := if k > 0 then s.l ++ [{ str := s.j, len := k }] else s.l, j := i + 1 }
  else if s.escaped = true then
    { s with escaped := false }
  else s

/-- Source `parse_words` (duckparser.cpp:308-343): `for (i = 0; i <= len; ++i)`. -/
def parse_words (str : List Nat) (len : Nat) : List word_node :=
  if len = 0 then []
  else ((List.range (len + 1)).foldl (parse_words_step str len)
    { j := 0, escaped := false, ignore_space := false, l := [] }).l

/-- Locals of `parse_lines`: start index `ls` of the current line and the list `l`. -/
structure LinesState where
  ls : Nat
  l : List line_node
deriving DecidableEq, Repr

/-- Body of the `for` loop of `parse_lines` (duckparser.cpp:363-390) at index
`stri`.  `in_quotes` and `delimiter` are never set in the source (the code that
would set them is commented out), so `stri` is not advanced inside the body;
`prev`, `next` and `escaped` are computed there and never used. -/
def parse_lines_step (str : List Nat) (len : Nat) (s : LinesState) (stri : Nat) : LinesState :=
  let curr := str.getD stri 0
  let in_quotes := false
  let delimiter := false
  let linebreak := !in_quotes && (curr == 13 || curr == 10)
  let endofline := stri == len || curr == 0
  if linebreak || endofline || delimiter then
    let llen := stri - s.ls
    { l := if llen > 0 then
        s.l ++ [{ str := s.ls, len := llen,
                  words := (parse_words (str.drop s.ls) llen).map
                    (fun w => { w with str := s.ls + w.str }) }]
        else s.l,
      ls := stri + 1 }
  else s

/-- Source `parse_lines` (duckparser.cpp:345-394). -/
def parse_lines (str : List Nat) (len : Nat) : List line_node :=
  if len = 0 then []
  else ((List.range (len + 1)).foldl (parse_lines_step str len) { ls := 0, l := [] }).l

/-- The loop of `parse_words` read off the characters of the line: `nxt` is the
byte after the line, `cur` the text of the word being collected. -/
def wordsAux (nxt : Nat) : Bool → Bool → List Nat → List Nat → List (List Nat)
  | escaped, _, cur, [] =>
    if (nxt = 92 ∨ nxt = 34) ∧ escaped = false then []
    else if cur = [] then [] else [cur]
  | escaped, ignore_space, cur, c :: r =>
    if c = 92 ∧ escaped = false then wordsAux nxt true ignore_space (cur ++ [c]) r
    else if c = 34 ∧ escaped = false then wordsAux nxt false (!ignore_space) (cur ++ [c]) r
    else if c = 32 ∧ ignore_space = false ∧ escaped = false then
      (if cur = [] then [] else [cur]) ++ wordsAux nxt false ignore_space [] r
    else wordsAux nxt false ignore_space (cur ++ [c]) r

/-! ### The tokenizer as the specification words it -/

/-- A split point: an unescaped, unquoted space. -/
def specSplit (c : Nat) (escaped quoted : Bool) : Bool :=
  c == 32 && !escaped && !quoted

/-- `escaped` is true for the single character following an unescaped backslash. -/
def specEscaped (c : Nat) (escaped : Bool) : Bool :=
  c == 92 && !escaped

/-- `quoted` is toggled by each unescaped double-quote character. -/
def specQuoted (c : Nat) (escaped quoted : Bool) : Bool :=
  if c == 34 && !escaped then !quoted else quoted

/-- Every character of a line together with the mark "is a split-point space". -/
def markSplit : Bool → Bool → List Nat → List (Nat × Bool)
  | _, _, [] => []
  | escaped, quoted, c :: r =>
    (c, specSplit c escaped quoted) ::
      markSplit (specEscaped c escaped) (specQuoted c escaped quoted) r

/-- Collapse every maximal run of marked characters to one space and drop the
runs at the start and at the end: `started` says that an unmarked character was
already output, `pending` that a run of marked ones has been passed since. -/
def collapseGo : Bool → Bool → List (Nat × Bool) → List Nat
  | _, _, [] => []
  | started, _, (_, true) :: r => collapseGo started started r
  | _, pending, (c, false) :: r =>
    (if pending then [32] else []) ++ c :: collapseGo true false r

/-- The line with the runs of split-point spaces collapsed. -/
def collapseSplit (line : List Nat) : List Nat :=
  collapseGo false false (markSplit false false line)

/-- The line with exactly the split-point spaces removed. -/
def removeSplit (line : List Nat) : List Nat :=
  ((markSplit false false line).filter (fun x => !x.2)).map (fun x => x.1)

/-- The maximal non-empty runs of unmarked characters, `cur` being the run
under construction. -/
def runsAcc : List Nat → List (Nat × Bool) → List (List Nat)
  | cur, [] => if cur = [] then [] else [cur]
  | cur, (_, true) :: r => (if cur = [] then [] else [cur]) ++ runsAcc [] r
  | cur, (c, false) :: r => runsAcc (cur ++ [c]) r

/-- What the loop of `parse_words` keeps true before index `i`: the current
word starts at or before `i`, and the words found so far are non-empty, end
before the current word starts, and lie one after the other. -/
def WordsInv (s : WordsState) (i : Nat) : Prop :=
  s.j ≤ i ∧ (∀ w ∈ s.l, 1 ≤ w.len ∧ w.str + w.len < s.j) ∧
    s.l.Pairwise (fun a b => a.str + a.len < b.str)

/-- A line-break character: carriage return or line feed. -/
def isBreak (c : Nat) : Bool := c == 13 || c == 10

/-- Every character of a buffer together with the mark "is a line break". -/
def markBreak (buf : List Nat) : List (Nat × Bool) := buf.map (fun c => (c, isBreak c))

/-! ## Numeric tokens -/

/-- The nibble source of the hexadecimal branch of `toInt` (lines 472-476):
`uint8_t b = str[i]` followed by the three range tests. -/
def hexNibble (c : Nat) : Nat :=
  let b := c % 256
  if 48 ≤ b ∧ b ≤ 57 then b - 48
  else if 97 ≤ b ∧ b ≤ 102 then b - 97 + 10
  else if 65 ≤ b ∧ b ≤ 70 then b - 65 + 10
  else b

/-- Body of the hexadecimal loop (line 478), on a 32-bit `unsigned int`. -/
def hexStep (val c : Nat) : Nat :=
  ((val <<< 4) % 2 ^ 32) ||| (hexNibble c &&& 15)

/-- Body of the decimal loop (lines 484-486), on a 32-bit `unsigned int`. -/
def decStep (val c : Nat) : Nat :=
  if 48 ≤ c ∧ c ≤ 57 then (val * 10 + (c - 48)) % 2 ^ 32 else val

/-- Source `toInt` (duckparser.cpp:464-491); the pointer is never null here. -/
def toInt (str : List Nat) (len : Nat) : Nat :=
  if len = 0 then 0
  else if len > 2 ∧ str.getD 0 0 = 48 ∧ str.getD 1 0 = 120 then
    (List.range' 2 (len - 2)).foldl (fun val i => hexStep val (str.getD i 0)) 0
  else
    (List.range len).foldl (fun val i => decStep val (str.getD i 0)) 0

/-- A decimal digit `0`-`9`. -/
def isDigit (c : Nat) : Bool := decide (48 ≤ c ∧ c ≤ 57)

/-- The decimal digits of a token, in order, as numbers 0-9. -/
def decimalDigits (tok : List Nat) : List Nat := (tok.filter isDigit).map (fun c => c - 48)

/-- A hexadecimal digit `0`-`9`, `a`-`f`, `A`-`F`. -/
def isHexDigit (c : Nat) : Bool :=
  decide ((48 ≤ c ∧ c ≤ 57) ∨ (97 ≤ c ∧ c ≤ 102) ∨ (65 ≤ c ∧ c ≤ 70))

/-- The value 0-15 of a hexadecimal digit. -/
def hexDigitValue (c : Nat) : Nat :=
  if c ≤ 57 then c - 48 else if 97 ≤ c then c - 87 else c - 55

/-- The main loop with exactly the fuel it needs. -/
def compareRun (u : List Nat) (sl : Nat) (t : List Nat) (kl cs : Nat) (s : CmpState) : CmpState :=
  compareLoop u sl t kl cs (kl - s.b) s

/-- Post-loop test of `compare` (lines 157-162). -/
def cmpFinish (t : List Nat) (sl : Nat) (s : CmpState) : Nat :=
  if s.res ≠ 0 ∧ s.a = sl ∧ (t.getD s.b 0 = 44 ∨ t.getD s.b 0 = 47 ∨ t.getD s.b 0 = 0)
  then COMPARE_EQUAL else COMPARE_UNEQUAL

/-- Character-wise agreement of two byte strings under the comparison mode. -/
def matchFrom (cs : Nat) : List Nat → List Nat → Bool
  | [], [] => true
  | u :: us, v :: vs => !charDiffers cs u v && matchFrom cs us vs
  | _, _ => false

/-- Equality of a word and a spelling as the specification words it: exact
when the mode is case sensitive, after ASCII lower-casing otherwise. -/
def wordEq (cs : Nat) (w alt : List Nat) : Prop :=
  if cs = COMPARE_CASE_SENSETIVE then w = alt else w.map to_lower = alt.map to_lower

instance (cs : Nat) (w alt : List Nat) : Decidable (wordEq cs w alt) := by
  unfold wordEq; infer_instance

/-! ## Command interpreter -/

/-- Source `CASE_SENSETIVE` (config.h:43, `#define CASE_SENSETIVE false`). -/
def CASE_SENSETIVE : Nat := 0

/-- The key constants named in `press` (their numeric values are declared
outside the translated sources and play no role). -/
inductive Key
  | KEY_ENTER | KEY_PROPS | KEY_BACKSPACE | KEY_HOME | KEY_INSERT | KEY_PAGEUP | KEY_PAGEDOWN
  | KEY_UP | KEY_DOWN | KEY_LEFT | KEY_RIGHT | KEY_TAB | KEY_END | KEY_ESC
  | KEY_F1 | KEY_F2 | KEY_F3 | KEY_F4 | KEY_F5 | KEY_F6
  | KEY_F7 | KEY_F8 | KEY_F9 | KEY_F10 | KEY_F11 | KEY_F12
  | KEY_SPACE | KEY_PAUSE | KEY_CAPSLOCK | KEY_NUMLOCK | KEY_SYSRQ | KEY_SCROLLLOCK
deriving DecidableEq, Repr

/-- The modifier constants named in `press`. -/
inductive Modifier
  | KEY_MOD_LCTRL | KEY_MOD_LSHIFT | KEY_MOD_LALT | KEY_MOD_LMETA
deriving DecidableEq, Repr

/-- The keyboard layouts named in the `LOCALE` branch of `parse`. -/
inductive Locale
  | locale_us | locale_de | locale_ru | locale_gb | locale_es | locale_fr | locale_dk
deriving DecidableEq, Repr

/-- A call made by the interpreter to a collaborator (`keyboard::`, `led::`)
or to `sleep`, with its arguments.  A pointer argument is the memory seen from
it; `write` carries the `len` bytes it is asked to type. -/
inductive Event
  | write (text : List Nat)
  | press (strPtr : List Nat)
  | pressKey (key : Key)
  | pressModifier (key : Modifier)
  | send (modifiers reserved : Nat) (keys : List Nat)
  | release
  | setLocale (locale : Locale)
  | setColor (r g b : Int)
  | sleep (time : Nat)
deriving DecidableEq, Repr

/-- Conversion of a 32-bit `unsigned int` to `int`. -/
def asInt (v : Nat) : Int :=
  if v % 2 ^ 32 < 2 ^ 31 then (v % 2 ^ 32 : Nat) else ((v % 2 ^ 32 : Nat) : Int) - 2 ^ 32

/-- Conversion of an `int` to a 32-bit `unsigned long`. -/
def asUnsigned (v : Int) : Nat := (v % 2 ^ 32).toNat

/-- The run state read and written by `parse` (duckparser.cpp:397-402) and the
calls made so far.  `interpretTime` is written by `parse` and read only by
`sleep`; it lives in `Timer`. -/
structure RunState where
  processing : Bool
  inString : Bool
  inComment : Bool
  defaultDelay : Int
  repeatNum : Int
  events : List Event
deriving DecidableEq, Repr

/-- The initial values of the run state. -/
def RunState.init : RunState :=
  { processing := false, inString := false, inComment := false,
    defaultDelay := 5, repeatNum := 0, events := [] }

/-- The test `compare(str, len, "...", CASE_SENSETIVE)` used as a condition. -/
def cmp (str : List Nat) (len : Nat) (templ : String) : Bool :=
  compare str len (bytes templ) CASE_SENSETIVE != 0

/-- Source `press` (duckparser.cpp:412-458): the one keyboard call it makes. -/
def press (str : List Nat) (len : Nat) : Event :=
  if len = 1 then Event.press str
  else if cmp str len "ENTER" then Event.pressKey Key.KEY_ENTER
  else if cmp str len "MENU" || cmp str len "APP" then Event.pressKey Key.KEY_PROPS
  else if cmp str len "DELETE" then Event.pressKey Key.KEY_BACKSPACE
  else if cmp str len "HOME" then Event.pressKey Key.KEY_HOME
  else if cmp str len "INSERT" then Event.pressKey Key.KEY_INSERT
  else if cmp str len "PAGEUP" then Event.pressKey Key.KEY_PAGEUP
  else if cmp str len "PAGEDOWN" then Event.pressKey Key.KEY_PAGEDOWN
  else if cmp str len "UPARROW" || cmp str len "UP" then Event.pressKey Key.KEY_UP
  else if cmp str len "DOWNARROW" || cmp str len "DOWN" then Event.pressKey Key.KEY_DOWN
  else if cmp str len "LEFTARROW" || cmp str len "LEFT" then Event.pressKey Key.KEY_LEFT
  else if cmp str len "RIGHTARROW" || cmp str len "RIGHT" then Event.pressKey Key.KEY_RIGHT
  else if cmp str len "TAB" then Event.pressKey Key.KEY_TAB
  else if cmp str len "END" then Event.pressKey Key.KEY_END
  else if cmp str len "ESC" || cmp str len "ESCAPE" then Event.pressKey Key.KEY_ESC
  else if cmp str len "F1" then Event.pressKey Key.KEY_F1
  else if cmp str len "F2" then Event.pressKey Key.KEY_F2
  else if cmp str len "F3" then Event.pressKey Key.KEY_F3
  else if cmp str len "F4" then Event.pressKey Key.KEY_F4
  else if cmp str len "F5" then Event.pressKey Key.KEY_F5
  else if cmp str len "F6" then Event.pressKey Key.KEY_F6
  else if cmp str len "F7" then Event.pressKey Key.KEY_F7
  else if cmp str len "F8" then Event.pressKey Key.KEY_F8
  else if cmp str len "F9" then Event.pressKey Key.KEY_F9
  else if cmp str len "F10" then Event.pressKey Key.KEY_F10
  else if cmp str len "F11" then Event.pressKey Key.KEY_F11
  else if cmp str len "F12" then Event.pressKey Key.KEY_F12
  else if cmp str len "SPACE" then Event.pressKey Key.KEY_SPACE
  else if cmp str len "PAUSE" || cmp str len "BREAK" then Event.pressKey Key.KEY_PAUSE
  else if cmp str len "CAPSLOCK" then Event.pressKey Key.KEY_CAPSLOCK
  else if cmp str len "NUMLOCK" then Event.pressKey Key.KEY_NUMLOCK
  else if cmp str len "PRINTSCREEN" then Event.pressKey Key.KEY_SYSRQ
  else if cmp str len "SCROLLLOCK" then Event.pressKey Key.KEY_SCROLLLOCK
  else if cmp str len "CTRL" || cmp str len "CONTROL" then Event.pressModifier Modifier.KEY_MOD_LCTRL
  else if cmp str len "SHIFT" then Event.pressModifier Modifier.KEY_MOD_LSHIFT
  else if cmp str len "ALT" then Event.pressModifier Modifier.KEY_MOD_LALT
  else if cmp str len "WINDOWS" || cmp str len "GUI" then Event.pressModifier Modifier.KEY_MOD_LMETA
  else Event.press str

/-- The branches of the `if`/`else if` chain of `parse` (duckparser.cpp:536-645). -/
inductive Branch
  | REM | LOCALE | DELAY | DEFAULTDELAY | REPEAT | STRING | LED | KEYCODE | KEYS
deriving DecidableEq, Repr

/-- The conditions of the chain of `parse`, in source order, for the first
word `cmd` (pointer and length). -/
def dispatch (inComment inString : Bool) (cmd_str : List Nat) (cmd_len : Nat) : Branch :=
  if inComment || cmp cmd_str cmd_len "REM" then Branch.REM
  else if cmp cmd_str cmd_len "LOCALE" then Branch.LOCALE
  else if cmp cmd_str cmd_len "DELAY" then Branch.DELAY
  else if cmp cmd_str cmd_len "DEFAULTDELAY" || cmp cmd_str cmd_len "DEFAULT_DELAY" then
    Branch.DEFAULTDELAY
  else if cmp cmd_str cmd_len "REPEAT" || cmp cmd_str cmd_len "REPLAY" then Branch.REPEAT
  else if inString || cmp cmd_str cmd_len "STRING" then Branch.STRING
  else if cmp cmd_str cmd_len "LED" then Branch.LED
  else if cmp cmd_str cmd_len "KEYCODE" then Branch.KEYCODE
  else Branch.KEYS

/-- The chain of the `LOCALE` branch (lines 546-560) for the word `w`. -/
def localeEvents (w_str : List Nat) (w_len : Nat) : List Event :=
  if cmp w_str w_len "US" then [Event.setLocale Locale.locale_us]
  else if cmp w_str w_len "DE" then [Event.setLocale Locale.locale_de]
  else if cmp w_str w_len "RU" then [Event.setLocale Locale.locale_ru]
  else if cmp w_str w_len "GB" then [Event.setLocale Locale.locale_gb]
  else if cmp w_str w_len "ES" then [Event.setLocale Locale.locale_es]
  else if cmp w_str w_len "FR" then [Event.setLocale Locale.locale_fr]
  else if cmp w_str w_len "DK" then [Event.setLocale Locale.locale_dk]
  else []

/-- The numeric value of the `i`-th word of `ws`, 0 when the list has run out
(the loops of lines 599-606 and 621-628 walk `w = w->next`). -/
def argValue (str : List Nat) (ws : List word_node) (i : Nat) : Nat :=
  match ws[i]? with
  | some w => toInt (str.drop w.str) w.len
  | none => 0

/-- The statements after the chain (lines 649-651): the default delay unless
suppressed, and the decrement of a pending repeat count after a terminated
line.  (`interpretTime = millis()` follows; see `Timer`.) -/
def finishLine (s : RunState) (ignore_delay line_end : Bool) : RunState :=
  let s1 : RunState :=
    if !s.inString && !s.inComment && !ignore_delay then
      { s with events := s.events ++ [Event.sleep (asUnsigned s.defaultDelay)] }
    else s
  if line_end && decide (s1.repeatNum > 0) then { s1 with repeatNum := s1.repeatNum - 1 } else s1

/-- Body of the `while (n)` loop of `parse` (duckparser.cpp:525-653) for the
line `n`, whose spans are offsets into the buffer `str`.  The result is `none`
when the body dereferences a null pointer: `cmd = wl->first` of a line without
words (line 530), or `w = cmd->next` of a `LOCALE` line without a second word
(line 546).  A read past the end of the modelled memory yields 0 and is no
fault here: on a line made of a command word alone, where `line_str_len` wraps
to 2^32 - 1, the `DELAY`, `DEFAULTDELAY`, `REPEAT` and `STRING` branches still
yield a state, whatever the machine does with such a span. -/
def parse_line (str : List Nat) (n : line_node) (s : RunState) : Option RunState :=
  match n.words with
  | [] => none
  | cmd :: args =>
    let line_str := cmd.str + cmd.len + 1
    let line_str_len := (n.len + 2 ^ 32 - cmd.len - 1) % 2 ^ 32
    let last_char := str.getD (n.str + n.len) 0
    let line_end := last_char == 13 || last_char == 10
    match dispatch s.inComment s.inString (str.drop cmd.str) cmd.len with
    | Branch.REM =>
      some (finishLine { s with inComment := !line_end } true line_end)
    | Branch.LOCALE =>
      match args with
      | [] => none
      | w :: _ =>
        some (finishLine { s with events := s.events ++ localeEvents (str.drop w.str) w.len }
          true line_end)
    | Branch.DELAY =>
      some (finishLine
        { s with events := s.events ++ [Event.sleep (toInt (str.drop line_str) line_str_len)] }
        true line_end)
    | Branch.DEFAULTDELAY =>
      some (finishLine
        { s with defaultDelay := asInt (toInt (str.drop line_str) line_str_len) } true line_end)
    | Branch.REPEAT =>
      some (finishLine
        { s with repeatNum := asInt ((toInt (str.drop line_str) line_str_len + 1) % 2 ^ 32) }
        true line_end)
    | Branch.STRING =>
      some (finishLine
        { s with
          events := s.events ++
            [Event.write (if s.inString then spanText str n.str n.len
                          else spanText str line_str line_str_len)],
          inString := !line_end }
        false line_end)
    | Branch.LED =>
      some (finishLine
        { s with events := s.events ++
            [Event.setColor (asInt (argValue str args 0)) (asInt (argValue str args 1))
              (asInt (argValue str args 2))] }
        false line_end)
    | Branch.KEYCODE =>
      match args with
      | [] => some (finishLine s false line_end)
      | _ :: _ =>
        some (finishLine
          { s with events := s.events ++
              [Event.send (argValue str args 0 % 256) 0
                ((List.range 6).map (fun i => argValue str args (i + 1) % 256)),
               Event.release] }
          false line_end)
    | Branch.KEYS =>
      some (finishLine
        { s with events := s.events ++
            (cmd :: args).map (fun w => press (str.drop w.str) w.len) ++
            (if line_end then [Event.release] else []) }
        false line_end)

/-- The loop `while (n)` of `parse` over the list of lines. -/
def parseLoop (str : List Nat) : List line_node → RunState → Option RunState
  | [], s => some s
  | n :: rest, s =>
    match parse_line str n s with
    | none => none
    | some s1 => parseLoop str rest s1

/-- Source `parse` (duckparser.cpp:511-658).  Every call to a collaborator is
appended to `events`; a call `sleep(t)` is recorded as `Event.sleep t`, and what
that call does with the clock is the function `sleep` below, which reads and
writes only the `Timer` fields, none of which `parse` reads. -/
def parse (str : List Nat) (len : Nat) (s : RunState) : Option RunState :=
  match parseLoop str (parse_lines str len) { s with processing := true } with
  | none => none
  | some s1 => some { s1 with processing := false }

/-- Source `getRepeats` (duckparser.cpp:660-662). -/
def getRepeats (s : RunState) : Int := s.repeatNum

/-! ## Sleep scheduler -/

/-- The timestamps of the run state (duckparser.cpp:404-406), 32-bit
`unsigned long`, and the number of `webserver::update()` calls made. -/
structure Timer where
  interpretTime : Nat
  sleepStartTime : Nat
  sleepTime : Nat
  polls : Nat
deriving DecidableEq, Repr

/-- The loop `while (millis() < sleepTime) webserver::update();` (lines
502-505): `clock k` is the value of the `k`-th reading of `millis()` since
`sleep` was entered.  The result is the number of polls, `none` when the clock
has not reached the deadline within `fuel` readings. -/
def sleepWait (clock : Nat → Nat) (sleepTime : Nat) : Nat → Nat → Nat → Option Nat
  | 0, _, _ => none
  | fuel + 1, k, polls =>
    if clock k % 2 ^ 32 < sleepTime then sleepWait clock sleepTime fuel (k + 1) (polls + 1)
    else some polls

/-- Source `sleep` (duckparser.cpp:493-507). -/
def sleep (clock : Nat → Nat) (fuel : Nat) (time : Nat) (tm : Timer) : Option Timer :=
  let offset := (clock 0 % 2 ^ 32 + 2 ^ 32 - tm.interpretTime) % 2 ^ 32
  if time > offset then
    let sleepStartTime := clock 1 % 2 ^ 32
    let sleepTime := (time - offset + sleepStartTime) % 2 ^ 32
    match sleepWait clock sleepTime fuel 2 0 with
    | none => none
    | some polls =>
      some { tm with sleepStartTime := sleepStartTime, sleepTime := sleepTime,
                     polls := tm.polls + polls }
  else some tm

/-- Source `getDelayTime` (duckparser.cpp:664-674), `now` being the value
`millis()` returns. -/
def getDelayTime (tm : Timer) (now : Nat) : Nat :=
  let finishTime := (tm.sleepStartTime + tm.sleepTime) % 2 ^ 32
  let currentTime := now % 2 ^ 32
  if currentTime > finishTime then 0
  else finishTime - currentTime

/-- The command keywords of the script grammar with the branch of `parse`
each one selects. -/
def keywordTable : List (String × Branch) :=
  [("REM", Branch.REM), ("LOCALE", Branch.LOCALE), ("DELAY", Branch.DELAY),
   ("DEFAULTDELAY", Branch.DEFAULTDELAY), ("DEFAULT_DELAY", Branch.DEFAULTDELAY),
   ("REPEAT", Branch.REPEAT), ("REPLAY", Branch.REPEAT), ("STRING", Branch.STRING),
   ("LED", Branch.LED), ("KEYCODE", Branch.KEYCODE)]

/-! ## Example lines -/

/-- The buffer `LED 10 0x1F 5` with its line feed. -/
def ledBuffer : List Nat := bytes "LED 10 0x1F 5\n"

/-- The one line of `ledBuffer` as `parse_lines` returns it. -/
def ledLine : line_node :=
  { str := 0, len := 13,
    words := [{ str := 0, len := 3 }, { str := 4, len := 2 }, { str := 7, len := 4 },
              { str := 12, len := 1 }] }

/-- The buffer `KEYCODE 0x102 10 300` with its line feed. -/
def keycodeBuffer : List Nat := bytes "KEYCODE 0x102 10 300\n"

/-- The one line of `keycodeBuffer` as `parse_lines` returns it. -/
def keycodeLine : line_node :=
  { str := 0, len := 20,
    words := [{ str := 0, len := 7 }, { str := 8, len := 5 }, { str := 14, len := 2 },
              { str := 17, len := 3 }] }

/-- The buffer `REPEAT 3` with its line feed. -/
def repeatBuffer : List Nat := bytes "REPEAT 3\n"

/-- The one line of `repeatBuffer` as `parse_lines` returns it. -/
def repeatLine : line_node :=
  { str := 0, len := 8, words := [{ str := 0, len := 6 }, { str := 7, len := 1 }] }

/-- Character-wise agreement of a word with `P`, or with `P` followed by `S`:
the reading of a template `P/S` by the alias loop. -/
def matchOpt (cs : Nat) : List Nat → List Nat → List Nat → Bool
  | [], [], _ => true
  | u :: us, [], S => matchFrom cs (u :: us) S
  | [], _ :: _, _ => false
  | u :: us, p :: ps, S => !charDiffers cs u p && matchOpt cs us ps S

/-- The local `line_str` of `parse` (duckparser.cpp:530), as an offset into
the buffer: `cmd->str + cmd->len + 1`. -/
def line_str (cmd : word_node) : Nat := cmd.str + cmd.len + 1

/-- The local `line_str_len` of `parse` (duckparser.cpp:531), a 32-bit
`size_t`: `n->len - cmd->len - 1`. -/
def line_str_len (n : line_node) (cmd : word_node) : Nat :=
  (n.len + 2 ^ 32 - cmd.len - 1) % 2 ^ 32

/-! # Theorems -/

/-! ## Termination of the matcher loops -/

theorem fastForward_ge (t : List Nat) (kl : Nat) :
    ∀ (fuel b : Nat), b ≤ fastForward t kl fuel b := by
  intro fuel
  induction fuel with
  | zero => intro b; simp [fastForward]
  | succ n ih =>
    intro b
    simp only [fastForward]
    split
    · exact Nat.le_trans (Nat.le_succ b) (ih (b + 1))
    · exact Nat.le_refl b

theorem fastForward_gt (t : List Nat) (kl : Nat) (fuel b : Nat) (hf : 0 < fuel)
    (hb : b < kl) (hc : t.getD b 0 ≠ 44) : b < fastForward t kl fuel b := by
  cases fuel with
  | zero => omega
  | succ n =>
    simp only [fastForward, hb, hc, ne_eq, not_false_eq_true, and_self, if_true]
    exact fastForward_ge t kl n (b + 1)

/-- The inner loop stops at the first comma at or after `b`, or at `key_len`. -/
theorem fastForward_eq (t : List Nat) (kl : Nat) :
    ∀ (fuel b r : Nat), b ≤ r → r ≤ kl → r - b ≤ fuel →
      (∀ k, b ≤ k → k < r → t.getD k 0 ≠ 44) → (r = kl ∨ t.getD r 0 = 44) →
      fastForward t kl fuel b = r := by
  intro fuel
  induction fuel with
  | zero => intro b r h1 _ h3 _ _; simp only [fastForward]; omega
  | succ n ih =>
    intro b r h1 h2 h3 h4 h5
    simp only [fastForward]
    by_cases hbr : b = r
    · subst hbr
      have : ¬ (b < kl ∧ t.getD b 0 ≠ 44) := by
        rcases h5 with h | h
        · omega
        · intro hh; exact hh.2 h
      rw [if_neg this]
    · have hlt : b < r := by omega
      have : b < kl ∧ t.getD b 0 ≠ 44 := ⟨by omega, h4 b (Nat.le_refl b) hlt⟩
      rw [if_pos this]
      exact ih (b + 1) r (by omega) h2 (by omega)
        (fun k hk1 hk2 => h4 k (by omega) hk2) h5

theorem compareSkip_b (t : List Nat) (s : CmpState) :
    (t.getD s.b 0 ≠ 44 ∧ t.getD s.b 0 ≠ 47 ∧ compareSkip t s = s) ∨
      (compareSkip t s).b = s.b + 1 := by
  unfold compareSkip
  by_cases h47 : t.getD s.b 0 = 47
  · right; rw [if_pos h47]
  · by_cases h44 : t.getD s.b 0 = 44
    · right; rw [if_neg h47, if_pos h44]
    · left; rw [if_neg h47, if_neg h44]; exact ⟨h44, h47, rfl⟩

/-- Every round of the main loop moves the template cursor forward. -/
theorem compareBody_b_lt (u : List Nat) (sl : Nat) (t : List Nat) (kl cs : Nat) (s : CmpState)
    (hb : s.b < kl) : s.b < (compareBody u sl t kl cs s).b := by
  unfold compareBody
  rcases compareSkip_b t s with ⟨h44, _, he⟩ | h
  · rw [he]
    have hgt := fastForward_gt t kl (kl - s.b) s.b (by omega) hb h44
    dsimp only
    split_ifs <;> dsimp only <;> omega
  · have hge := fastForward_ge t kl (kl - (compareSkip t s).b) (compareSkip t s).b
    dsimp only
    split_ifs <;> dsimp only <;> omega

/-- The fuel given to the main loop is never the reason it stops: any two
fuels of at least `key_len - b` give the same final state. -/
theorem compareLoop_fuel (u : List Nat) (sl : Nat) (t : List Nat) (kl cs : Nat) :
    ∀ (f1 f2 : Nat) (s : CmpState), kl - s.b ≤ f1 → kl - s.b ≤ f2 →
      compareLoop u sl t kl cs f1 s = compareLoop u sl t kl cs f2 s := by
  intro f1
  induction f1 with
  | zero =>
    intro f2 s h1 _
    have hb : ¬ (s.a < sl ∧ s.b < kl) := by omega
    cases f2 with
    | zero => rfl
    | succ m => simp only [compareLoop, if_neg hb]
  | succ n ih =>
    intro f2 s h1 h2
    by_cases hc : s.a < sl ∧ s.b < kl
    · have hlt := compareBody_b_lt u sl t kl cs s hc.2
      cases f2 with
      | zero => omega
      | succ m =>
        simp only [compareLoop, if_pos hc]
        exact ih m _ (by omega) (by omega)
    · cases f2 with
      | zero => simp only [compareLoop, if_neg hc]
      | succ m => simp only [compareLoop, if_neg hc]

/-- With `key_len - b` rounds of fuel the main loop ends because its
condition `a < str_len && b < key_len` is false. -/
theorem compareLoop_exits (u : List Nat) (sl : Nat) (t : List Nat) (kl cs : Nat) :
    ∀ (fuel : Nat) (s : CmpState), kl - s.b ≤ fuel →
      ¬ ((compareLoop u sl t kl cs fuel s).a < sl ∧ (compareLoop u sl t kl cs fuel s).b < kl) := by
  intro fuel
  induction fuel with
  | zero => intro s h; simp only [compareLoop]; omega
  | succ n ih =>
    intro s h
    by_cases hc : s.a < sl ∧ s.b < kl
    · simp only [compareLoop, if_pos hc]
      have hlt := compareBody_b_lt u sl t kl cs s hc.2
      exact ih _ (by omega)
    · simp only [compareLoop, if_neg hc]
      exact hc

theorem compareRun_step (u : List Nat) (sl : Nat) (t : List Nat) (kl cs : Nat) (s : CmpState)
    (hc : s.a < sl ∧ s.b < kl) :
    compareRun u sl t kl cs s = compareRun u sl t kl cs (compareBody u sl t kl cs s) := by
  unfold compareRun
  have hlt := compareBody_b_lt u sl t kl cs s hc.2
  obtain ⟨m, hm⟩ : ∃ m, kl - s.b = m + 1 := ⟨kl - s.b - 1, by omega⟩
  rw [hm]
  simp only [compareLoop, if_pos hc]
  exact compareLoop_fuel u sl t kl cs _ _ _ (by omega) (Nat.le_refl _)

theorem compareRun_stop (u : List Nat) (sl : Nat) (t : List Nat) (kl cs : Nat) (s : CmpState)
    (hc : ¬ (s.a < sl ∧ s.b < kl)) : compareRun u sl t kl cs s = s := by
  unfold compareRun
  cases kl - s.b with
  | zero => rfl
  | succ m => simp only [compareLoop, if_neg hc]

/-! ## The matcher on comma-separated templates -/

theorem getD_at (P : List Nat) (c : Nat) (R : List Nat) :
    (P ++ c :: R).getD P.length 0 = c := by
  induction P with
  | nil => rfl
  | cons x xs ih => simpa using ih

theorem getD_at_succ (P : List Nat) (c : Nat) (R : List Nat) :
    (P ++ c :: R).getD (P.length + 1) 0 = R.headD 0 := by
  induction P with
  | nil => cases R <;> rfl
  | cons x xs ih => simpa using ih

theorem getD_at_end (P : List Nat) : P.getD P.length 0 = 0 := by
  induction P with
  | nil => rfl
  | cons x xs ih => simp

theorem getD_mid (P M R : List Nat) (k : Nat) (hk : k < M.length) :
    (P ++ (M ++ R)).getD (P.length + k) 0 = M.getD k 0 := by
  induction P with
  | nil =>
    simp only [List.nil_append, List.length_nil, Nat.zero_add]
    induction M generalizing k with
    | nil => simp at hk
    | cons m ms ih =>
      cases k with
      | zero => rfl
      | succ j =>
        simp only [List.length_cons, Nat.add_lt_add_iff_right] at hk
        simpa using ih j hk
  | cons x xs ih =>
    have : (x :: xs).length + k = (xs.length + k) + 1 := by simp; omega
    rw [this]
    simpa using ih

theorem getD_mem (M : List Nat) (k : Nat) (hk : k < M.length) : M.getD k 0 ∈ M := by
  induction M generalizing k with
  | nil => simp at hk
  | cons m ms ih =>
    cases k with
    | zero => simp
    | succ j =>
      simp only [List.length_cons, Nat.add_lt_add_iff_right] at hk
      have := ih j hk
      simp only [List.getD_cons_succ, List.mem_cons]
      right
      exact this

theorem compareBody_congr (u : List Nat) (sl : Nat) (t : List Nat) (kl cs : Nat)
    (s s2 : CmpState) (h : compareSkip t s = compareSkip t s2) :
    compareBody u sl t kl cs s = compareBody u sl t kl cs s2 := by
  unfold compareBody
  rw [h]

theorem compareSkip_plain (t : List Nat) (s : CmpState)
    (h44 : t.getD s.b 0 ≠ 44) (h47 : t.getD s.b 0 ≠ 47) : compareSkip t s = s := by
  unfold compareSkip
  rw [if_neg h47, if_neg h44]

theorem compareSkip_comma (t : List Nat) (s : CmpState)
    (h44 : t.getD s.b 0 = 44) : compareSkip t s = { a := 0, b := s.b + 1, res := s.res } := by
  unfold compareSkip
  have h47 : t.getD s.b 0 ≠ 47 := by rw [h44]; decide
  rw [if_neg h47, if_pos h44]

/-- A differing character abandons the current alternative. -/
theorem compareBody_mismatch (u : List Nat) (sl : Nat) (t : List Nat) (kl cs : Nat)
    (s : CmpState) (h44 : t.getD s.b 0 ≠ 44) (h47 : t.getD s.b 0 ≠ 47)
    (hd : charDiffers cs (u.getD s.a 0) (t.getD s.b 0) = true) :
    compareBody u sl t kl cs s = { a := s.a, b := fastForward t kl (kl - s.b) s.b, res := 1 } := by
  unfold compareBody
  rw [compareSkip_plain t s h44 h47]
  dsimp only
  rw [if_pos hd, if_pos (Or.inl rfl)]

/-- The word ends while the alternative goes on: it is abandoned as well. -/
theorem compareBody_short (u : List Nat) (sl : Nat) (t : List Nat) (kl cs : Nat)
    (s : CmpState) (h44 : t.getD s.b 0 ≠ 44) (h47 : t.getD s.b 0 ≠ 47)
    (ha : s.a = sl - 1)
    (hn : t.getD (s.b + 1) 0 ≠ 44 ∧ t.getD (s.b + 1) 0 ≠ 47 ∧ t.getD (s.b + 1) 0 ≠ 0) :
    compareBody u sl t kl cs s = { a := s.a, b := fastForward t kl (kl - s.b) s.b, res := 1 } := by
  unfold compareBody
  rw [compareSkip_plain t s h44 h47]
  dsimp only
  rw [if_pos (Or.inr ⟨ha, hn⟩)]

/-- Otherwise both cursors advance. -/
theorem compareBody_advance (u : List Nat) (sl : Nat) (t : List Nat) (kl cs : Nat)
    (s : CmpState) (h44 : t.getD s.b 0 ≠ 44) (h47 : t.getD s.b 0 ≠ 47)
    (hd : charDiffers cs (u.getD s.a 0) (t.getD s.b 0) = false) (hr : s.res = 1)
    (hn : s.a ≠ sl - 1 ∨
      (t.getD (s.b + 1) 0 = 44 ∨ t.getD (s.b + 1) 0 = 47 ∨ t.getD (s.b + 1) 0 = 0)) :
    compareBody u sl t kl cs s = { a := s.a + 1, b := s.b + 1, res := 1 } := by
  unfold compareBody
  rw [compareSkip_plain t s h44 h47]
  dsimp only
  have hres : (if charDiffers cs (u.getD s.a 0) (t.getD s.b 0) = true then 0 else s.res) = 1 := by
    rw [hd, hr]; rfl
  rw [hres]
  have hc : ¬ ((1 : Nat) = 0 ∨ (s.a = sl - 1 ∧
        t.getD (s.b + 1) 0 ≠ 44 ∧ t.getD (s.b + 1) 0 ≠ 47 ∧ t.getD (s.b + 1) 0 ≠ 0)) := by
    rintro (h | ⟨h1, h2, h3, h4⟩)
    · omega
    · rcases hn with h | h | h | h
      · exact h h1
      · exact h2 h
      · exact h3 h
      · exact h4 h
  rw [if_neg hc]

/-- At the end of an alternative with the word not yet consumed, the loop
either is over (end of template, result UNEQUAL) or restarts the word. -/
theorem compare_boundary (u : List Nat) (sl : Nat) (t : List Nat) (cs : Nat)
    (P tail : List Nat) (ht : t = P ++ tail) (htail : tail = [] ∨ ∃ r, tail = 44 :: r)
    (a : Nat) (ha : a < sl) :
    cmpFinish t sl (compareRun u sl t t.length cs { a := a, b := P.length, res := 1 }) =
      if tail = [] then 0
      else cmpFinish t sl (compareRun u sl t t.length cs { a := 0, b := P.length, res := 1 }) := by
  rcases htail with h | ⟨r, h⟩
  · subst h
    simp only [List.append_nil] at ht
    subst ht
    rw [if_pos rfl, compareRun_stop _ _ _ _ _ _ (by simp)]
    unfold cmpFinish
    rw [if_neg]
    · rfl
    · intro hh
      have := hh.2.1
      simp only at this
      omega
  · subst h
    have hne : ¬ (44 :: r = ([] : List Nat)) := by simp
    rw [if_neg hne]
    have hlen : P.length < t.length := by rw [ht]; simp
    have h44 : t.getD P.length 0 = 44 := by rw [ht]; exact getD_at P 44 r
    rw [compareRun_step u sl t t.length cs _ ⟨ha, hlen⟩,
      compareRun_step u sl t t.length cs { a := 0, b := P.length, res := 1 }
        ⟨Nat.lt_of_le_of_lt (Nat.zero_le a) ha, hlen⟩]
    rw [compareBody_congr u sl t t.length cs { a := a, b := P.length, res := 1 }
      { a := 0, b := P.length, res := 1 }]
    rw [compareSkip_comma t _ h44, compareSkip_comma t _ h44]

/-- Inside an alternative the inner loop runs to the end of that alternative. -/
theorem fastForward_alt (t P more tail : List Nat) (c : Nat)
    (hc : c ≠ 44) (hmore : ∀ x ∈ more, x ≠ 44 ∧ x ≠ 47 ∧ x ≠ 0)
    (htail : tail = [] ∨ ∃ r, tail = 44 :: r) (ht : t = P ++ c :: (more ++ tail)) :
    fastForward t t.length (t.length - P.length) P.length = P.length + 1 + more.length := by
  have hlen : t.length = P.length + 1 + more.length + tail.length := by
    rw [ht]; simp; omega
  apply fastForward_eq
  · omega
  · omega
  · omega
  · intro k hk1 hk2
    obtain ⟨j, rfl⟩ : ∃ j, k = P.length + j := ⟨k - P.length, by omega⟩
    have hj : j < (c :: more).length := by simp; omega
    have hmid := getD_mid P (c :: more) tail j hj
    have hmem := getD_mem (c :: more) j hj
    rw [ht, show c :: (more ++ tail) = (c :: more) ++ tail from rfl, hmid]
    rcases List.mem_cons.mp hmem with h | h
    · rw [h]; exact hc
    · exact (hmore _ h).1
  · rcases htail with h | ⟨r, h⟩
    · left; rw [hlen, h]; simp
    · right
      have : t = (P ++ c :: more) ++ 44 :: r := by rw [ht, h]; simp
      have hl : (P ++ c :: more).length = P.length + 1 + more.length := by simp; omega
      rw [← hl, this]
      exact getD_at _ _ _

/-- Abandoning an alternative leads to its end, where `compare_boundary` applies. -/
theorem compare_abandon (user : List Nat) (sl : Nat) (t : List Nat) (cs : Nat)
    (P more tail : List Nat) (c : Nat)
    (hc : c ≠ 44) (hmore : ∀ x ∈ more, x ≠ 44 ∧ x ≠ 47 ∧ x ≠ 0)
    (htail : tail = [] ∨ ∃ r, tail = 44 :: r) (ht : t = P ++ c :: (more ++ tail))
    (a : Nat) (ha : a < sl)
    (hbody : compareBody user sl t t.length cs { a := a, b := P.length, res := 1 } =
      { a := a, b := fastForward t t.length (t.length - P.length) P.length, res := 1 }) :
    cmpFinish t sl (compareRun user sl t t.length cs { a := a, b := P.length, res := 1 }) =
      if tail = [] then 0
      else cmpFinish t sl
        (compareRun user sl t t.length cs { a := 0, b := P.length + 1 + more.length, res := 1 }) := by
  have hlen : P.length < t.length := by rw [ht]; simp
  rw [compareRun_step user sl t t.length cs _ ⟨ha, hlen⟩, hbody,
    fastForward_alt t P more tail c hc hmore htail ht]
  have hl : (P ++ c :: more).length = P.length + 1 + more.length := by simp; omega
  rw [← hl]
  exact compare_boundary user sl t cs (P ++ c :: more) tail (by rw [ht]; simp) htail a ha

/-- Running the loop from inside an alternative: EQUAL exactly when the rest
of the word agrees with the rest of the alternative, otherwise on to the next
alternative (or UNEQUAL at the end of the template). -/
theorem compare_alternative (cs : Nat) (rest tail : List Nat)
    (htail : tail = [] ∨ ∃ r, tail = 44 :: r) :
    ∀ (more P W : List Nat) (u c : Nat) (wmore user t : List Nat) (sl : Nat),
      (c ≠ 44 ∧ c ≠ 47 ∧ c ≠ 0) → (∀ x ∈ more, x ≠ 44 ∧ x ≠ 47 ∧ x ≠ 0) →
      t = P ++ c :: (more ++ tail) → user = W ++ u :: (wmore ++ rest) →
      sl = W.length + 1 + wmore.length →
      cmpFinish t sl (compareRun user sl t t.length cs { a := W.length, b := P.length, res := 1 }) =
        if matchFrom cs (u :: wmore) (c :: more) = true then 1
        else if tail = [] then 0
        else cmpFinish t sl (compareRun user sl t t.length cs
          { a := 0, b := P.length + 1 + more.length, res := 1 }) := by
  intro more
  induction more with
  | nil =>
    intro P W u c wmore user t sl hc hmore ht hu hsl
    have htb : t.getD P.length 0 = c := by rw [ht]; exact getD_at _ _ _
    have hua : user.getD W.length 0 = u := by rw [hu]; exact getD_at _ _ _
    have hlen : P.length < t.length := by rw [ht]; simp
    have ha : W.length < sl := by omega
    have h44 : t.getD P.length 0 ≠ 44 := by rw [htb]; exact hc.1
    have h47 : t.getD P.length 0 ≠ 47 := by rw [htb]; exact hc.2.1
    by_cases hd : charDiffers cs u c = true
    · have hm : matchFrom cs (u :: wmore) [c] = false := by simp [matchFrom, hd]
      rw [hm, if_neg (by simp)]
      apply compare_abandon user sl t cs P [] tail c hc.1 hmore htail ht _ ha
      apply compareBody_mismatch _ _ _ _ _ _ h44 h47
      show charDiffers cs (user.getD W.length 0) (t.getD P.length 0) = true
      rw [hua, htb]; exact hd
    · have hd2 : charDiffers cs u c = false := by simpa using hd
      have hadv : compareBody user sl t t.length cs { a := W.length, b := P.length, res := 1 } =
          { a := W.length + 1, b := P.length + 1, res := 1 } := by
        apply compareBody_advance _ _ _ _ _ _ h44 h47 _ rfl
        · right
          show t.getD (P.length + 1) 0 = 44 ∨ t.getD (P.length + 1) 0 = 47 ∨
            t.getD (P.length + 1) 0 = 0
          rw [ht, getD_at_succ]
          rcases htail with h | ⟨r, h⟩
          · right; right; rw [h]; rfl
          · left; rw [h]; rfl
        · show charDiffers cs (user.getD W.length 0) (t.getD P.length 0) = false
          rw [hua, htb]; exact hd2
      rw [compareRun_step user sl t t.length cs _ ⟨ha, hlen⟩, hadv]
      have hl : (P ++ [c]).length = P.length + 1 := by simp
      cases wmore with
      | nil =>
        have hm : matchFrom cs [u] [c] = true := by simp [matchFrom, hd2]
        rw [hm, if_pos rfl]
        have hsl2 : sl = W.length + 1 := by simpa using hsl
        rw [compareRun_stop _ _ _ _ _ _ (by simp [hsl2])]
        unfold cmpFinish
        rw [if_pos]
        · rfl
        · refine ⟨by simp, by simp [hsl2], ?_⟩
          show t.getD (P.length + 1) 0 = 44 ∨ t.getD (P.length + 1) 0 = 47 ∨
            t.getD (P.length + 1) 0 = 0
          rw [ht, getD_at_succ]
          rcases htail with h | ⟨r, h⟩
          · right; right; rw [h]; rfl
          · left; rw [h]; rfl
      | cons u2 wm =>
        have hm : matchFrom cs (u :: u2 :: wm) [c] = false := by simp [matchFrom]
        rw [hm, if_neg (by simp)]
        have hb := compare_boundary user sl t cs (P ++ [c]) tail (by rw [ht]; simp) htail
          (W.length + 1) (by simp at hsl; omega)
        rw [hl] at hb
        simpa using hb
  | cons c2 more2 ih =>
    intro P W u c wmore user t sl hc hmore ht hu hsl
    have htb : t.getD P.length 0 = c := by rw [ht]; exact getD_at _ _ _
    have hua : user.getD W.length 0 = u := by rw [hu]; exact getD_at _ _ _
    have hlen : P.length < t.length := by rw [ht]; simp
    have ha : W.length < sl := by omega
    have h44 : t.getD P.length 0 ≠ 44 := by rw [htb]; exact hc.1
    have h47 : t.getD P.length 0 ≠ 47 := by rw [htb]; exact hc.2.1
    have hc2 : c2 ≠ 44 ∧ c2 ≠ 47 ∧ c2 ≠ 0 := hmore c2 (by simp)
    have htb1 : t.getD (P.length + 1) 0 = c2 := by rw [ht, getD_at_succ]; rfl
    by_cases hd : charDiffers cs u c = true
    · have hm : matchFrom cs (u :: wmore) (c :: c2 :: more2) = false := by simp [matchFrom, hd]
      rw [hm, if_neg (by simp)]
      apply compare_abandon user sl t cs P (c2 :: more2) tail c hc.1 hmore htail ht _ ha
      apply compareBody_mismatch _ _ _ _ _ _ h44 h47
      show charDiffers cs (user.getD W.length 0) (t.getD P.length 0) = true
      rw [hua, htb]; exact hd
    · have hd2 : charDiffers cs u c = false := by simpa using hd
      cases wmore with
      | nil =>
        have hm : matchFrom cs [u] (c :: c2 :: more2) = false := by simp [matchFrom]
        rw [hm, if_neg (by simp)]
        apply compare_abandon user sl t cs P (c2 :: more2) tail c hc.1 hmore htail ht _ ha
        apply compareBody_short _ _ _ _ _ _ h44 h47
        · show W.length = sl - 1
          simp at hsl; omega
        · show t.getD (P.length + 1) 0 ≠ 44 ∧ t.getD (P.length + 1) 0 ≠ 47 ∧
            t.getD (P.length + 1) 0 ≠ 0
          rw [htb1]; exact hc2
      | cons u2 wm =>
        have hadv : compareBody user sl t t.length cs { a := W.length, b := P.length, res := 1 } =
            { a := W.length + 1, b := P.length + 1, res := 1 } := by
          apply compareBody_advance _ _ _ _ _ _ h44 h47 _ rfl
          · left
            show W.length ≠ sl - 1
            simp at hsl; omega
          · show charDiffers cs (user.getD W.length 0) (t.getD P.length 0) = false
            rw [hua, htb]; exact hd2
        rw [compareRun_step user sl t t.length cs _ ⟨ha, hlen⟩, hadv]
        have hm : matchFrom cs (u :: u2 :: wm) (c :: c2 :: more2) =
            matchFrom cs (u2 :: wm) (c2 :: more2) := by
          simp [matchFrom, hd2]
        rw [hm]
        have key := ih (P ++ [c]) (W ++ [u]) u2 c2 wm user t sl hc2
          (fun x hx => hmore x (List.mem_cons_of_mem _ hx))
          (by rw [ht]; simp) (by rw [hu]; simp) (by simp at hsl ⊢; omega)
        have e1 : (P ++ [c]).length + 1 + more2.length = P.length + 1 + (c2 :: more2).length := by
          simp; omega
        have e2 : (P ++ [c]).length = P.length + 1 := by simp
        have e3 : (W ++ [u]).length = W.length + 1 := by simp
        rw [e1, e2, e3] at key
        exact key

theorem intercalate_single (a : List Nat) : List.intercalate [44] [a] = a := by
  simp [List.intercalate, List.intersperse]

theorem intercalate_cons_cons (a b : List Nat) (r : List (List Nat)) :
    List.intercalate [44] (a :: b :: r) = a ++ 44 :: List.intercalate [44] (b :: r) := by
  simp [List.intercalate, List.intersperse]

theorem matchFrom_iff_wordEq (cs : Nat) :
    ∀ (w alt : List Nat), matchFrom cs w alt = true ↔ wordEq cs w alt := by
  intro w
  induction w with
  | nil =>
    intro alt
    cases alt with
    | nil => simp [matchFrom, wordEq]
    | cons v vs => simp [matchFrom, wordEq]
  | cons u us ih =>
    intro alt
    cases alt with
    | nil => simp [matchFrom, wordEq]
    | cons v vs =>
      have := ih vs
      simp only [matchFrom, Bool.and_eq_true, this]
      unfold wordEq charDiffers
      by_cases hcs : cs = COMPARE_CASE_SENSETIVE
      · simp [hcs]
      · simp [hcs]

theorem matchFrom_length (cs : Nat) :
    ∀ (w alt : List Nat), matchFrom cs w alt = true → w.length = alt.length := by
  intro w
  induction w with
  | nil =>
    intro alt h
    cases alt with
    | nil => rfl
    | cons v vs => simp [matchFrom] at h
  | cons u us ih =>
    intro alt h
    cases alt with
    | nil => simp [matchFrom] at h
    | cons v vs =>
      simp only [matchFrom, Bool.and_eq_true] at h
      simp [ih vs h.2]

/-- The loop of the identical-length path is a character-wise comparison. -/
theorem range_all_matchFrom (cs : Nat) (rest : List Nat) :
    ∀ (w t : List Nat), w.length ≤ t.length →
      (List.range w.length).all
        (fun i => !charDiffers cs ((w ++ rest).getD i 0) (t.getD i 0)) =
        matchFrom cs w (t.take w.length) := by
  intro w
  induction w with
  | nil => intro t _; simp [matchFrom]
  | cons u us ih =>
    intro t ht
    cases t with
    | nil => simp at ht
    | cons v vs =>
      have hle : us.length ≤ vs.length := by simpa using ht
      have := ih vs hle
      simp only [List.length_cons, List.range_succ_eq_map, List.all_cons, List.all_map,
        List.take_succ_cons, matchFrom]
      rw [← this]
      rfl

theorem strlen_le (t : List Nat) : strlen t ≤ t.length := by
  unfold strlen
  exact (List.takeWhile_sublist _).length_le

theorem strlen_eq_length (t : List Nat) (h : ∀ c ∈ t, c ≠ 0) : strlen t = t.length := by
  unfold strlen
  rw [List.takeWhile_eq_self_iff.mpr]
  intro x hx
  simpa using h x hx

theorem compare_lt (user : List Nat) (sl : Nat) (t : List Nat) (cs : Nat) (h : sl < strlen t) :
    compare user sl t cs =
      cmpFinish t sl (compareRun user sl t (strlen t) cs { a := 0, b := 0, res := 1 }) := by
  unfold compare cmpFinish compareRun
  dsimp only
  rw [if_neg (by omega), if_neg (by omega)]
  rfl

theorem compare_eq_len (w rest t : List Nat) (cs : Nat) (h : w.length = strlen t) :
    compare (w ++ rest) w.length t cs =
      if matchFrom cs w (t.take (strlen t)) = true then COMPARE_EQUAL else COMPARE_UNEQUAL := by
  unfold compare
  dsimp only
  rw [if_pos h, ← h, range_all_matchFrom cs rest w t (by rw [h]; exact strlen_le t)]

theorem compare_gt (user : List Nat) (sl : Nat) (t : List Nat) (cs : Nat) (h : strlen t < sl) :
    compare user sl t cs = COMPARE_UNEQUAL := by
  unfold compare
  dsimp only
  rw [if_neg (by omega), if_pos h]

theorem mem_intercalate (alts : List (List Nat)) :
    ∀ c ∈ List.intercalate [44] alts, c = 44 ∨ ∃ alt ∈ alts, c ∈ alt := by
  induction alts with
  | nil => intro c hc; simp [List.intercalate, List.intersperse] at hc
  | cons a r ih =>
    cases r with
    | nil =>
      intro c hc
      rw [intercalate_single] at hc
      exact Or.inr ⟨a, by simp, hc⟩
    | cons b r2 =>
      intro c hc
      rw [intercalate_cons_cons] at hc
      rcases List.mem_append.mp hc with h | h
      · exact Or.inr ⟨a, by simp, h⟩
      · rcases List.mem_cons.mp h with h | h
        · exact Or.inl h
        · rcases ih c h with h2 | ⟨alt, h2, h3⟩
          · exact Or.inl h2
          · exact Or.inr ⟨alt, List.mem_cons_of_mem _ h2, h3⟩

theorem length_le_intercalate (alts : List (List Nat)) :
    ∀ alt ∈ alts, alt.length ≤ (List.intercalate [44] alts).length := by
  induction alts with
  | nil => intro alt h; simp at h
  | cons a r ih =>
    cases r with
    | nil =>
      intro alt h
      rw [intercalate_single]
      simp only [List.mem_singleton] at h
      rw [h]
    | cons b r2 =>
      intro alt h
      rw [intercalate_cons_cons]
      simp only [List.length_append, List.length_cons]
      rcases List.mem_cons.mp h with h | h
      · rw [h]; omega
      · have := ih alt h
        omega

theorem length_lt_intercalate (a b : List Nat) (r : List (List Nat)) :
    ∀ alt ∈ a :: b :: r, alt.length < (List.intercalate [44] (a :: b :: r)).length := by
  intro alt h
  rw [intercalate_cons_cons]
  simp only [List.length_append, List.length_cons]
  rcases List.mem_cons.mp h with h | h
  · rw [h]; omega
  · have := length_le_intercalate (b :: r) alt h
    omega

theorem charDiffers_comma (cs u : Nat) (h : charDiffers cs u 44 = false) : u = 44 := by
  unfold charDiffers to_lower at h
  split_ifs at h <;> simp at h <;> omega

theorem matchFrom_comma (cs : Nat) :
    ∀ (w t : List Nat), matchFrom cs w t = true → 44 ∈ t → 44 ∈ w := by
  intro w
  induction w with
  | nil =>
    intro t h ht
    cases t with
    | nil => simp at ht
    | cons v vs => simp [matchFrom] at h
  | cons u us ih =>
    intro t h ht
    cases t with
    | nil => simp at ht
    | cons v vs =>
      simp only [matchFrom, Bool.and_eq_true, Bool.not_eq_true'] at h
      rcases List.mem_cons.mp ht with h2 | h2
      · rw [← h2] at h
        rw [charDiffers_comma cs u h.1]
        simp
      · exact List.mem_cons_of_mem _ (ih vs h.2 h2)

/-- The loop started at the first character of an alternative, with the word
cursor at 0, decides membership of the word among the remaining alternatives. -/
theorem compare_alts (cs : Nat) (rest : List Nat) (u : Nat) (wmore : List Nat) :
    ∀ (alts : List (List Nat)) (P t : List Nat), alts ≠ [] →
      (∀ alt ∈ alts, alt ≠ [] ∧ ∀ c ∈ alt, c ≠ 44 ∧ c ≠ 47 ∧ c ≠ 0) →
      t = P ++ List.intercalate [44] alts →
      cmpFinish t (u :: wmore).length
          (compareRun (u :: wmore ++ rest) (u :: wmore).length t t.length cs
            { a := 0, b := P.length, res := 1 }) =
        if alts.any (matchFrom cs (u :: wmore)) = true then 1 else 0 := by
  intro alts
  induction alts with
  | nil => intro P t h; exact absurd rfl h
  | cons a r ih =>
    intro P t _ hclean ht
    obtain ⟨hane, haclean⟩ := hclean a (by simp)
    obtain ⟨c, more, rfl⟩ : ∃ c more, a = c :: more := by
      cases a with
      | nil => exact absurd rfl hane
      | cons c more => exact ⟨c, more, rfl⟩
    have hc := haclean c (by simp)
    have hmore : ∀ x ∈ more, x ≠ 44 ∧ x ≠ 47 ∧ x ≠ 0 :=
      fun x hx => haclean x (List.mem_cons_of_mem _ hx)
    cases r with
    | nil =>
      rw [intercalate_single] at ht
      have key := compare_alternative cs rest [] (Or.inl rfl) more P [] u c wmore
        (u :: wmore ++ rest) t (u :: wmore).length hc hmore (by rw [ht]; simp) (by simp)
        (by simp; omega)
      simp only [List.length_nil] at key
      rw [key]
      simp
    | cons b r2 =>
      rw [intercalate_cons_cons] at ht
      have key := compare_alternative cs rest (44 :: List.intercalate [44] (b :: r2))
        (Or.inr ⟨_, rfl⟩) more P [] u c wmore
        (u :: wmore ++ rest) t (u :: wmore).length hc hmore (by rw [ht]; simp) (by simp)
        (by simp; omega)
      simp only [List.length_nil] at key
      rw [key]
      by_cases hm : matchFrom cs (u :: wmore) (c :: more) = true
      · simp [hm]
      · have hne : ¬ (44 :: List.intercalate [44] (b :: r2) = []) := by simp
        rw [if_neg hm, if_neg hne]
        obtain ⟨hbne, hbclean⟩ := hclean b (by simp)
        obtain ⟨c2, more2, rfl⟩ : ∃ c2 more2, b = c2 :: more2 := by
          cases b with
          | nil => exact absurd rfl hbne
          | cons c2 more2 => exact ⟨c2, more2, rfl⟩
        have hc2 := hbclean c2 (by simp)
        -- the comma round and the first round of the next alternative coincide
        have hlP : (P ++ c :: more).length = P.length + 1 + more.length := by simp; omega
        have hl2 : (P ++ (c :: more) ++ [44]).length = P.length + 1 + more.length + 1 := by
          simp; omega
        have ht2 : t = (P ++ c :: more) ++ 44 :: List.intercalate [44] ((c2 :: more2) :: r2) := by
          rw [ht]; simp
        have ht3 : t = (P ++ (c :: more) ++ [44]) ++ List.intercalate [44] ((c2 :: more2) :: r2) := by
          rw [ht]; simp
        have hhead : ∃ R, List.intercalate [44] ((c2 :: more2) :: r2) = c2 :: R := by
          cases r2 with
          | nil => exact ⟨more2, by rw [intercalate_single]⟩
          | cons d r3 => exact ⟨_, by rw [intercalate_cons_cons]; rfl⟩
        obtain ⟨R, hR⟩ := hhead
        have h44 : t.getD (P.length + 1 + more.length) 0 = 44 := by
          rw [← hlP, ht2]; exact getD_at _ _ _
        have hnext : t.getD (P.length + 1 + more.length + 1) 0 = c2 := by
          rw [← hl2, ht3, hR]; exact getD_at _ _ _
        have hlen : P.length + 1 + more.length + 1 < t.length := by
          rw [ht3, hR, ← hl2]; simp
        rw [compareRun_step _ _ t t.length cs { a := 0, b := P.length + 1 + more.length, res := 1 }
          ⟨by simp, by simp only; omega⟩]
        rw [compareBody_congr _ _ t t.length cs { a := 0, b := P.length + 1 + more.length, res := 1 }
          { a := 0, b := P.length + 1 + more.length + 1, res := 1 }
          (by
            rw [compareSkip_comma t _ h44, compareSkip_plain t _ (by simp only; rw [hnext]; exact hc2.1)
              (by simp only; rw [hnext]; exact hc2.2.1)])]
        rw [← compareRun_step _ _ t t.length cs
          { a := 0, b := P.length + 1 + more.length + 1, res := 1 } ⟨by simp, hlen⟩]
        have := ih (P ++ (c :: more) ++ [44]) t (by simp)
          (fun alt h => hclean alt (List.mem_cons_of_mem _ h)) ht3
        rw [hl2] at this
        rw [this]
        simp [hm]

/-- Value of `compare` on a comma-separated template. -/
theorem compare_alts_value (alts : List (List Nat)) (w rest : List Nat) (cs : Nat)
    (hne : alts ≠ [])
    (hclean : ∀ alt ∈ alts, alt ≠ [] ∧ ∀ c ∈ alt, c ≠ 44 ∧ c ≠ 47 ∧ c ≠ 0)
    (hw : 44 ∉ w) :
    compare (w ++ rest) w.length (List.intercalate [44] alts) cs =
      if ∃ alt ∈ alts, wordEq cs w alt then COMPARE_EQUAL else COMPARE_UNEQUAL := by
  have hnz : ∀ c ∈ List.intercalate [44] alts, c ≠ 0 := by
    intro c hc
    rcases mem_intercalate alts c hc with h | ⟨alt, h1, h2⟩
    · rw [h]; decide
    · exact ((hclean alt h1).2 c h2).2.2
  have hsl := strlen_eq_length _ hnz
  have hlen : ∀ alt ∈ alts, wordEq cs w alt → w.length ≤ (List.intercalate [44] alts).length := by
    intro alt h1 h2
    rw [matchFrom_length cs w alt ((matchFrom_iff_wordEq cs w alt).mpr h2)]
    exact length_le_intercalate alts alt h1
  rcases Nat.lt_trichotomy w.length (List.intercalate [44] alts).length with hlt | heq | hgt
  · -- the alias path
    rw [compare_lt _ _ _ _ (by rw [hsl]; exact hlt), hsl]
    cases w with
    | nil =>
      obtain ⟨a, r, rfl⟩ : ∃ a r, alts = a :: r := by
        cases alts with
        | nil => exact absurd rfl hne
        | cons a r => exact ⟨a, r, rfl⟩
      obtain ⟨hane, haclean⟩ := hclean a (by simp)
      obtain ⟨c, more, rfl⟩ : ∃ c more, a = c :: more := by
        cases a with
        | nil => exact absurd rfl hane
        | cons c more => exact ⟨c, more, rfl⟩
      have hc := haclean c (by simp)
      have hhead : (List.intercalate [44] ((c :: more) :: r)).getD 0 0 = c := by
        cases r with
        | nil => rw [intercalate_single]; rfl
        | cons d r3 => rw [intercalate_cons_cons]; rfl
      rw [compareRun_stop _ _ _ _ _ _ (by simp)]
      have hrhs : ¬ ∃ alt ∈ (c :: more) :: r, wordEq cs [] alt := by
        rintro ⟨alt, h1, h2⟩
        have := matchFrom_length cs [] alt ((matchFrom_iff_wordEq cs [] alt).mpr h2)
        have hnil : alt = [] := List.length_eq_zero.mp this.symm
        exact (hclean alt h1).1 hnil
      rw [if_neg hrhs]
      unfold cmpFinish
      rw [if_neg]
      rintro ⟨_, _, h⟩
      simp only [hhead] at h
      rcases h with h | h | h
      · exact hc.1 h
      · exact hc.2.1 h
      · exact hc.2.2 h
    | cons u wmore =>
      have key := compare_alts cs rest u wmore alts [] (List.intercalate [44] alts) hne hclean
        (by simp)
      simp only [List.length_nil] at key
      rw [key]
      have : (alts.any (matchFrom cs (u :: wmore)) = true) ↔
          ∃ alt ∈ alts, wordEq cs (u :: wmore) alt := by
        simp only [List.any_eq_true, matchFrom_iff_wordEq]
      by_cases h : ∃ alt ∈ alts, wordEq cs (u :: wmore) alt
      · rw [if_pos h, if_pos (this.mpr h)]; rfl
      · rw [if_neg h, if_neg (fun hh => h (this.mp hh))]; rfl
  · -- identical length: the literal comparison
    rw [compare_eq_len w rest _ cs (by rw [hsl]; exact heq), hsl, List.take_length]
    cases alts with
    | nil => exact absurd rfl hne
    | cons a r =>
      cases r with
      | nil =>
        rw [intercalate_single]
        have : (∃ alt ∈ [a], wordEq cs w alt) ↔ matchFrom cs w a = true := by
          simp [matchFrom_iff_wordEq]
        by_cases h : matchFrom cs w a = true
        · rw [if_pos h, if_pos (this.mpr h)]
        · rw [if_neg h, if_neg (fun hh => h (this.mp hh))]
      | cons b r2 =>
        have h1 : ¬ matchFrom cs w (List.intercalate [44] (a :: b :: r2)) = true := by
          intro h
          apply hw
          apply matchFrom_comma cs w _ h
          rw [intercalate_cons_cons]
          simp
        have h2 : ¬ ∃ alt ∈ a :: b :: r2, wordEq cs w alt := by
          rintro ⟨alt, hmem, hh⟩
          have := matchFrom_length cs w alt ((matchFrom_iff_wordEq cs w alt).mpr hh)
          have := length_lt_intercalate a b r2 alt hmem
          omega
        rw [if_neg h1, if_neg h2]
  · -- the word is longer than the template
    rw [compare_gt _ _ _ _ (by rw [hsl]; exact hgt)]
    have h2 : ¬ ∃ alt ∈ alts, wordEq cs w alt := by
      rintro ⟨alt, hmem, hh⟩
      have := hlen alt hmem hh
      omega
    rw [if_neg h2]

/-- C1: on a template that is a comma-separated list of one or more non-empty
alternatives free of `,`, `/` (and of NUL, as in every C string), and a word free
of `,`, `compare` returns EQUAL exactly when the word equals one of the
alternatives under the comparison mode, and UNEQUAL exactly otherwise; a
proper beginning of an alternative does not match: `EN` against `ENTER,ESC`
is UNEQUAL in every mode. -/
theorem compare_comma_alternatives (alts : List (List Nat)) (w rest : List Nat) (cs : Nat)
    (hne : alts ≠ [])
    (hclean : ∀ alt ∈ alts, alt ≠ [] ∧ ∀ c ∈ alt, c ≠ 44 ∧ c ≠ 47 ∧ c ≠ 0)
    (hw : 44 ∉ w) :
    (compare (w ++ rest) w.length (List.intercalate [44] alts) cs = COMPARE_EQUAL ↔
        ∃ alt ∈ alts, wordEq cs w alt) ∧
    (compare (w ++ rest) w.length (List.intercalate [44] alts) cs = COMPARE_UNEQUAL ↔
        ¬ ∃ alt ∈ alts, wordEq cs w alt) ∧
    compare (bytes "EN") 2 (bytes "ENTER,ESC") cs = COMPARE_UNEQUAL := by
  have hv := compare_alts_value alts w rest cs hne hclean hw
  refine ⟨?_, ?_, ?_⟩
  · rw [hv]
    by_cases h : ∃ alt ∈ alts, wordEq cs w alt
    · simp [h]
    · simp [h, COMPARE_EQUAL, COMPARE_UNEQUAL]
  · rw [hv]
    by_cases h : ∃ alt ∈ alts, wordEq cs w alt
    · simp [h, COMPARE_EQUAL, COMPARE_UNEQUAL]
    · simp [h]
  · have he := compare_alts_value [bytes "ENTER", bytes "ESC"] (bytes "EN") [] cs (by simp)
      (by decide) (by decide)
    have h1 : bytes "EN" ++ [] = bytes "EN" := by simp
    have h2 : (bytes "EN").length = 2 := by decide
    have h3 : List.intercalate [44] [bytes "ENTER", bytes "ESC"] = bytes "ENTER,ESC" := by decide
    rw [h1, h2, h3] at he
    rw [he, if_neg]
    rintro ⟨alt, hmem, hh⟩
    have hl := matchFrom_length cs _ alt ((matchFrom_iff_wordEq cs _ alt).mpr hh)
    simp only [List.mem_cons, List.mem_singleton, List.not_mem_nil, or_false] at hmem
    rcases hmem with h | h <;> rw [h] at hl <;> revert hl <;> decide

/-- Witness for C1: the word `ESC` against the template `ENTER,ESC`. -/
theorem compare_comma_alternatives_witness :
    (compare (bytes "ESC" ++ []) (bytes "ESC").length
        (List.intercalate [44] [bytes "ENTER", bytes "ESC"]) 1 = COMPARE_EQUAL ↔
        ∃ alt ∈ [bytes "ENTER", bytes "ESC"], wordEq 1 (bytes "ESC") alt) ∧
    (compare (bytes "ESC" ++ []) (bytes "ESC").length
        (List.intercalate [44] [bytes "ENTER", bytes "ESC"]) 1 = COMPARE_UNEQUAL ↔
        ¬ ∃ alt ∈ [bytes "ENTER", bytes "ESC"], wordEq 1 (bytes "ESC") alt) ∧
    compare (bytes "EN") 2 (bytes "ENTER,ESC") 1 = COMPARE_UNEQUAL :=
  compare_comma_alternatives [bytes "ENTER", bytes "ESC"] (bytes "ESC") [] 1
    (by simp) (by decide) (by decide)

/-- C2 (as stated, refuted): the spelling written after the slash does not
match on its own; `LEFT` against `LEFTARROW/LEFT` is not EQUAL. -/
theorem compare_slash_second_spelling_fails :
    compare (bytes "LEFT") 4 (bytes "LEFTARROW/LEFT") COMPARE_CASE_SENSETIVE ≠ COMPARE_EQUAL := by
  decide

theorem wordEq_refl (cs : Nat) (w : List Nat) : wordEq cs w w := by
  unfold wordEq
  split <;> rfl

/-- C3: when the word and the template (a C string, so free of NUL) have the
same length, `compare` returns EQUAL exactly when they agree character by
character under the comparison mode and UNEQUAL otherwise, separators in the
template being ordinary characters: `AB` matches `AB` and the literal text
`UP,DOWN` matches the template `UP,DOWN`, in every mode. -/
theorem compare_identical_length (w rest t : List Nat) (cs : Nat)
    (hnz : ∀ c ∈ t, c ≠ 0) (hlen : w.length = t.length) :
    (compare (w ++ rest) w.length t cs = COMPARE_EQUAL ↔ wordEq cs w t) ∧
    (compare (w ++ rest) w.length t cs = COMPARE_UNEQUAL ↔ ¬ wordEq cs w t) ∧
    compare (bytes "AB") 2 (bytes "AB") cs = COMPARE_EQUAL ∧
    compare (bytes "UP,DOWN") 7 (bytes "UP,DOWN") cs = COMPARE_EQUAL := by
  have hval : ∀ (w rest t : List Nat), (∀ c ∈ t, c ≠ 0) → w.length = t.length →
      compare (w ++ rest) w.length t cs =
        if wordEq cs w t then COMPARE_EQUAL else COMPARE_UNEQUAL := by
    intro w rest t hnz hlen
    have hsl := strlen_eq_length t hnz
    rw [compare_eq_len w rest t cs (by rw [hsl]; exact hlen), hsl, List.take_length]
    by_cases h : wordEq cs w t
    · rw [if_pos h, if_pos ((matchFrom_iff_wordEq cs w t).mpr h)]
    · rw [if_neg h, if_neg (fun hh => h ((matchFrom_iff_wordEq cs w t).mp hh))]
  refine ⟨?_, ?_, ?_, ?_⟩
  · rw [hval w rest t hnz hlen]
    by_cases h : wordEq cs w t
    · simp [h]
    · simp [h, COMPARE_EQUAL, COMPARE_UNEQUAL]
  · rw [hval w rest t hnz hlen]
    by_cases h : wordEq cs w t
    · simp [h, COMPARE_EQUAL, COMPARE_UNEQUAL]
    · simp [h]
  · have := hval (bytes "AB") [] (bytes "AB") (by decide) rfl
    rw [if_pos (wordEq_refl cs _)] at this
    exact this
  · have := hval (bytes "UP,DOWN") [] (bytes "UP,DOWN") (by decide) rfl
    rw [if_pos (wordEq_refl cs _)] at this
    exact this

/-- Witness for C3: `ab` against `AB`, case ignored. -/
theorem compare_identical_length_witness :
    (compare (bytes "ab" ++ []) (bytes "ab").length (bytes "AB") 0 = COMPARE_EQUAL ↔
      wordEq 0 (bytes "ab") (bytes "AB")) ∧
    (compare (bytes "ab" ++ []) (bytes "ab").length (bytes "AB") 0 = COMPARE_UNEQUAL ↔
      ¬ wordEq 0 (bytes "ab") (bytes "AB")) ∧
    compare (bytes "AB") 2 (bytes "AB") 0 = COMPARE_EQUAL ∧
    compare (bytes "UP,DOWN") 7 (bytes "UP,DOWN") 0 = COMPARE_EQUAL :=
  compare_identical_length (bytes "ab") [] (bytes "AB") 0 (by decide) (by decide)

/-! ## Tokenizer: words -/

/-- Invariants of a counting `for` loop. -/
theorem foldl_range_inv {σ : Type} (f : σ → Nat → σ) (P : σ → Nat → Prop) (bound : Nat)
    (hstep : ∀ s i, i < bound → P s i → P (f s i) (i + 1)) :
    ∀ (n i : Nat) (s : σ), i + n ≤ bound → P s i → P ((List.range' i n).foldl f s) (i + n) := by
  intro n
  induction n with
  | zero => intro i s _ h; simpa using h
  | succ n ih =>
    intro i s hb h
    rw [List.range'_succ, List.foldl_cons]
    have := ih (i + 1) (f s i) (by omega) (hstep s i (by omega) h)
    rw [show i + (n + 1) = i + 1 + n by omega]
    exact this

theorem parse_words_step_inv (str : List Nat) (len : Nat) (s : WordsState) (i : Nat)
    (h : WordsInv s i) : WordsInv (parse_words_step str len s i) (i + 1) := by
  obtain ⟨h1, h2, h3⟩ := h
  unfold parse_words_step
  split_ifs with c1 c2 c3 c4
  · exact ⟨Nat.le_succ_of_le h1, h2, h3⟩
  · exact ⟨Nat.le_succ_of_le h1, h2, h3⟩
  · dsimp only
    by_cases hk : i - s.j > 0
    · rw [if_pos hk]
      refine ⟨Nat.le_refl _, ?_, ?_⟩
      · intro w hw
        rcases List.mem_append.mp hw with hw | hw
        · have := h2 w hw
          dsimp only
          exact ⟨this.1, by omega⟩
        · simp only [List.mem_singleton] at hw
          subst hw
          dsimp only
          exact ⟨by omega, by omega⟩
      · rw [List.pairwise_append]
        refine ⟨h3, List.pairwise_singleton _ _, ?_⟩
        intro a ha b hb
        simp only [List.mem_singleton] at hb
        subst hb
        exact (h2 a ha).2
    · rw [if_neg hk]
      refine ⟨Nat.le_refl _, ?_, h3⟩
      intro w hw
      have := h2 w hw
      dsimp only
      exact ⟨this.1, by omega⟩
  · exact ⟨Nat.le_succ_of_le h1, h2, h3⟩
  · exact ⟨Nat.le_succ_of_le h1, h2, h3⟩

theorem parse_words_inv (str : List Nat) (len : Nat) :
    (∀ w ∈ parse_words str len, 1 ≤ w.len ∧ w.str + w.len ≤ len) ∧
      (parse_words str len).Pairwise (fun a b => a.str + a.len < b.str) := by
  unfold parse_words
  by_cases h0 : len = 0
  · rw [if_pos h0]
    exact ⟨fun w hw => by simp at hw, List.Pairwise.nil⟩
  · rw [if_neg h0, List.range_eq_range']
    have := foldl_range_inv (parse_words_step str len) WordsInv (len + 1)
      (fun s i _ h => parse_words_step_inv str len s i h) (len + 1) 0
      { j := 0, escaped := false, ignore_space := false, l := [] } (by omega)
      ⟨Nat.le_refl _, fun w hw => by simp at hw, List.Pairwise.nil⟩
    obtain ⟨h1, h2, h3⟩ := this
    refine ⟨fun w hw => ?_, h3⟩
    have := h2 w hw
    exact ⟨this.1, by omega⟩

/-- C5: the words returned by `parse_words` for any line span are non-empty,
lie inside the span, and each one ends strictly before every later one
starts; two consecutive spaces give no empty word (`a  b` has the two words
`a` at offset 0 and `b` at offset 3). -/
theorem parse_words_ordered_nonempty_disjoint (str : List Nat) (len : Nat) :
    (∀ w ∈ parse_words str len, 1 ≤ w.len ∧ w.str + w.len ≤ len) ∧
    (parse_words str len).Pairwise (fun a b => a.str + a.len < b.str) ∧
    parse_words (bytes "a  b") 4 = [{ str := 0, len := 1 }, { str := 3, len := 1 }] :=
  ⟨(parse_words_inv str len).1, (parse_words_inv str len).2, by decide⟩

theorem getD_headD (P R : List Nat) : (P ++ R).getD P.length 0 = R.headD 0 := by
  cases R with
  | nil => simp
  | cons c r => exact getD_at P c r

theorem spanText_length (str : List Nat) (j k : Nat) (h : j + k ≤ str.length) :
    (spanText str j k).length = k := by
  unfold spanText
  simp only [List.length_take, List.length_drop]
  omega

theorem spanText_snoc (pre : List Nat) (c : Nat) (R : List Nat) (j : Nat) (hj : j ≤ pre.length) :
    spanText (pre ++ c :: R) j (pre.length + 1 - j) =
      spanText (pre ++ c :: R) j (pre.length - j) ++ [c] := by
  unfold spanText
  rw [List.drop_append_of_le_length hj]
  have hl : (pre.drop j).length = pre.length - j := by simp
  have e1 : pre.length + 1 - j = (pre.drop j).length + 1 := by omega
  rw [e1, ← hl, List.take_append, List.take_left]
  simp

/-- The loop of `parse_words` from index `pre.length` on, in terms of the
characters still to be read. -/
theorem parse_words_fold (line rest : List Nat) :
    ∀ (sfx pre : List Nat) (s : WordsState), line = pre ++ sfx → s.j ≤ pre.length →
      ((List.range' pre.length (sfx.length + 1)).foldl
          (parse_words_step (line ++ rest) line.length) s).l.map (wordText (line ++ rest)) =
        s.l.map (wordText (line ++ rest)) ++
          wordsAux (rest.headD 0) s.escaped s.ignore_space
            (spanText (line ++ rest) s.j (pre.length - s.j)) sfx := by
  intro sfx
  induction sfx with
  | nil =>
    intro pre s hl hj
    have hpre : pre = line := by simpa using hl.symm
    subst hpre
    have hc : (pre ++ rest).getD pre.length 0 = rest.headD 0 := getD_headD pre rest
    have hlen := spanText_length (pre ++ rest) s.j (pre.length - s.j) (by simp; omega)
    have hnil : spanText (pre ++ rest) s.j (pre.length - s.j) = [] ↔ ¬ (pre.length - s.j > 0) := by
      rw [← List.length_eq_zero, hlen]; omega
    simp only [List.length_nil, Nat.zero_add, List.range'_one, List.foldl_cons, List.foldl_nil]
    unfold parse_words_step wordsAux
    rw [hc]
    by_cases c1 : rest.headD 0 = 92 ∧ s.escaped = false
    · rw [if_pos c1, if_pos ⟨Or.inl c1.1, c1.2⟩]
      simp
    · by_cases c2 : rest.headD 0 = 34 ∧ s.escaped = false
      · rw [if_neg c1, if_pos c2, if_pos ⟨Or.inr c2.1, c2.2⟩]
        simp
      · have c12 : ¬ ((rest.headD 0 = 92 ∨ rest.headD 0 = 34) ∧ s.escaped = false) := by
          rintro ⟨h | h, h2⟩
          · exact c1 ⟨h, h2⟩
          · exact c2 ⟨h, h2⟩
        rw [if_neg c1, if_neg c2, if_pos (Or.inl rfl), if_neg c12]
        dsimp only
        by_cases hk : pre.length - s.j > 0
        · rw [if_pos hk, if_neg (fun h => (hnil.mp h) hk)]
          simp [wordText]
        · rw [if_neg hk, if_pos (hnil.mpr hk)]
          simp
  | cons c r ih =>
    intro pre s hl hj
    have hstr : line ++ rest = pre ++ c :: (r ++ rest) := by rw [hl]; simp
    have hc : (line ++ rest).getD pre.length 0 = c := by rw [hstr]; exact getD_at _ _ _
    have hne : pre.length ≠ line.length := by rw [hl]; simp
    have hlen := spanText_length (line ++ rest) s.j (pre.length - s.j)
      (by rw [hstr]; simp; omega)
    have hnil : spanText (line ++ rest) s.j (pre.length - s.j) = [] ↔
        ¬ (pre.length - s.j > 0) := by
      rw [← List.length_eq_zero, hlen]; omega
    have hsnoc : spanText (line ++ rest) s.j (pre.length + 1 - s.j) =
        spanText (line ++ rest) s.j (pre.length - s.j) ++ [c] := by
      rw [hstr]; exact spanText_snoc pre c _ s.j hj
    have hl2 : line = (pre ++ [c]) ++ r := by rw [hl]; simp
    have hlen2 : (pre ++ [c]).length = pre.length + 1 := by simp
    rw [show (c :: r).length + 1 = (r.length + 1) + 1 from rfl, List.range'_succ,
      List.foldl_cons]
    have key := fun s2 hs2 => ih (pre ++ [c]) s2 hl2 hs2
    simp only [hlen2] at key
    rw [key _ (by
      unfold parse_words_step
      split_ifs <;> first | (dsimp only; omega) | omega)]
    unfold parse_words_step
    rw [hc]
    conv_rhs => unfold wordsAux
    by_cases c1 : c = 92 ∧ s.escaped = false
    · rw [if_pos c1, if_pos c1]
      dsimp only
      rw [hsnoc]
    · rw [if_neg c1, if_neg c1]
      by_cases c2 : c = 34 ∧ s.escaped = false
      · rw [if_pos c2, if_pos c2]
        dsimp only
        rw [hsnoc, c2.2]
      · rw [if_neg c2, if_neg c2]
        by_cases c3 : c = 32 ∧ s.ignore_space = false ∧ s.escaped = false
        · rw [if_pos (Or.inr c3), if_pos c3]
          dsimp only
          have hz : spanText (line ++ rest) (pre.length + 1) (pre.length + 1 - (pre.length + 1)) = [] := by
            simp [spanText]
          rw [hz, c3.2.2]
          by_cases hk : pre.length - s.j > 0
          · rw [if_pos hk, if_neg (fun h => (hnil.mp h) hk)]
            simp [wordText]
          · rw [if_neg hk, if_pos (hnil.mpr hk)]
            simp
        · have c3b : ¬ (pre.length = line.length ∨
              (c = 32 ∧ s.ignore_space = false ∧ s.escaped = false)) := by
            rintro (h | h)
            · exact hne h
            · exact c3 h
          rw [if_neg c3b, if_neg c3]
          by_cases c4 : s.escaped = true
          · rw [if_pos c4]
            dsimp only
            rw [hsnoc]
          · rw [if_neg c4]
            have : s.escaped = false := by simpa using c4
            rw [hsnoc, this]

/-- The word texts `parse_words` returns are those the list reading of its
loop collects. -/
theorem parse_words_texts (line rest : List Nat) :
    (parse_words (line ++ rest) line.length).map (wordText (line ++ rest)) =
      wordsAux (rest.headD 0) false false [] line := by
  unfold parse_words
  by_cases h0 : line.length = 0
  · rw [if_pos h0]
    have : line = [] := List.length_eq_zero.mp h0
    subst this
    unfold wordsAux
    simp
  · rw [if_neg h0, List.range_eq_range']
    have := parse_words_fold line rest line []
      { j := 0, escaped := false, ignore_space := false, l := [] } (by simp) (by simp)
    simpa [spanText] using this

/-- One character of the loop, in the words of the specification. -/
theorem wordsAux_cons (nxt : Nat) (e q : Bool) (cur : List Nat) (c : Nat) (r : List Nat) :
    wordsAux nxt e q cur (c :: r) =
      if specSplit c e q = true then
        (if cur = [] then [] else [cur]) ++
          wordsAux nxt (specEscaped c e) (specQuoted c e q) [] r
      else wordsAux nxt (specEscaped c e) (specQuoted c e q) (cur ++ [c]) r := by
  conv_lhs => unfold wordsAux
  unfold specSplit specEscaped specQuoted
  by_cases h92 : c = 92 <;> by_cases h34 : c = 34 <;> by_cases h32 : c = 32 <;>
    cases e <;> cases q <;> simp [h92, h34, h32] <;> rw [beq_false_of_ne h92]

theorem wordsAux_eq_runs (nxt : Nat) (h92 : nxt ≠ 92) (h34 : nxt ≠ 34) :
    ∀ (l : List Nat) (e q : Bool) (cur : List Nat),
      wordsAux nxt e q cur l = runsAcc cur (markSplit e q l) := by
  intro l
  induction l with
  | nil =>
    intro e q cur
    unfold wordsAux markSplit runsAcc
    rw [if_neg]
    rintro ⟨h | h, _⟩
    · exact h92 h
    · exact h34 h
  | cons c r ih =>
    intro e q cur
    rw [wordsAux_cons]
    unfold markSplit
    by_cases hs : specSplit c e q = true
    · rw [if_pos hs, hs, ih]
      rfl
    · have hs2 : specSplit c e q = false := by simpa using hs
      rw [if_neg hs, hs2, ih]
      rfl

theorem runsAcc_ne_nil : ∀ (m : List (Nat × Bool)) (cur : List Nat),
    cur ≠ [] → runsAcc cur m ≠ [] := by
  intro m
  induction m with
  | nil => intro cur h; simp [runsAcc, h]
  | cons x r ih =>
    intro cur h
    obtain ⟨d, b⟩ := x
    cases b with
    | true => simp [runsAcc, h]
    | false => simp only [runsAcc]; exact ih _ (by simp)

theorem intercalate_space_cons (a : List Nat) (L : List (List Nat)) :
    List.intercalate [32] (a :: L) =
      a ++ (if L = [] then [] else 32 :: List.intercalate [32] L) := by
  cases L with
  | nil => simp [List.intercalate, List.intersperse]
  | cons b L2 => simp [List.intercalate, List.intersperse]

theorem collapseGo_pending : ∀ (m : List (Nat × Bool)),
    collapseGo true true m =
      if runsAcc [] m = [] then [] else 32 :: collapseGo false false m := by
  intro m
  induction m with
  | nil => simp [collapseGo, runsAcc]
  | cons x r ih =>
    obtain ⟨d, b⟩ := x
    cases b with
    | true => simpa [collapseGo, runsAcc] using ih
    | false =>
      have := runsAcc_ne_nil r [d] (by simp)
      simp [collapseGo, runsAcc, this]

/-- Joining the runs with single spaces collapses the marked runs. -/
theorem intercalate_runsAcc : ∀ (m : List (Nat × Bool)) (cur : List Nat),
    List.intercalate [32] (runsAcc cur m) = cur ++ collapseGo (!cur.isEmpty) false m := by
  intro m
  induction m with
  | nil =>
    intro cur
    cases cur with
    | nil => simp [runsAcc, collapseGo, List.intercalate]
    | cons a as => simp [runsAcc, collapseGo, List.intercalate, List.intersperse]
  | cons x r ih =>
    intro cur
    obtain ⟨d, b⟩ := x
    cases b with
    | false =>
      have := ih (cur ++ [d])
      simp only [runsAcc, collapseGo]
      rw [this]
      cases cur <;> simp
    | true =>
      have h0 := ih []
      simp only [List.isEmpty_nil, Bool.not_true, List.nil_append] at h0
      cases cur with
      | nil =>
        simp only [runsAcc, collapseGo, if_true, List.nil_append, List.isEmpty_nil, Bool.not_true]
        exact h0
      | cons a as =>
        have hne : ¬ (a :: as = []) := by simp
        simp only [runsAcc, collapseGo, if_neg hne, List.isEmpty_cons, Bool.not_false,
          List.singleton_append]
        rw [intercalate_space_cons, collapseGo_pending, h0]

theorem flatten_runsAcc : ∀ (m : List (Nat × Bool)) (cur : List Nat),
    (runsAcc cur m).flatten = cur ++ (m.filter (fun x => !x.2)).map (fun x => x.1) := by
  intro m
  induction m with
  | nil =>
    intro cur
    cases cur <;> simp [runsAcc]
  | cons x r ih =>
    intro cur
    obtain ⟨d, b⟩ := x
    cases b with
    | false => simp [runsAcc, ih]
    | true => cases cur <;> simp [runsAcc, ih]

/-- C4: for a line whose following byte is CR, LF or NUL, the words of
`parse_words` joined with single spaces are the line with every maximal run
of split-point spaces collapsed to one space and the runs at both ends
dropped; and the concatenation of the word texts is the line with exactly the
split-point spaces removed (quotes and backslashes stay in the words). -/
theorem parse_words_join_collapse (line rest : List Nat)
    (hnext : rest.headD 0 = 13 ∨ rest.headD 0 = 10 ∨ rest.headD 0 = 0) :
    List.intercalate [32]
        ((parse_words (line ++ rest) line.length).map (wordText (line ++ rest))) =
      collapseSplit line ∧
    ((parse_words (line ++ rest) line.length).map (wordText (line ++ rest))).flatten =
      removeSplit line := by
  have h92 : rest.headD 0 ≠ 92 := by rcases hnext with h | h | h <;> rw [h] <;> decide
  have h34 : rest.headD 0 ≠ 34 := by rcases hnext with h | h | h <;> rw [h] <;> decide
  rw [parse_words_texts, wordsAux_eq_runs _ h92 h34]
  constructor
  · rw [intercalate_runsAcc]
    rfl
  · rw [flatten_runsAcc]
    rfl

/-- Witness for C4: the line `  a  "b c" d\ e ` followed by a line feed. -/
theorem parse_words_join_collapse_witness :
    List.intercalate [32]
        ((parse_words (bytes "  a  \"b c\" d\\ e " ++ [10])
            (bytes "  a  \"b c\" d\\ e ").length).map
          (wordText (bytes "  a  \"b c\" d\\ e " ++ [10]))) =
      collapseSplit (bytes "  a  \"b c\" d\\ e ") ∧
    ((parse_words (bytes "  a  \"b c\" d\\ e " ++ [10])
            (bytes "  a  \"b c\" d\\ e ").length).map
          (wordText (bytes "  a  \"b c\" d\\ e " ++ [10]))).flatten =
      removeSplit (bytes "  a  \"b c\" d\\ e ") :=
  parse_words_join_collapse (bytes "  a  \"b c\" d\\ e ") [10] (by decide)

/-- A second space next to a split-point space changes nothing for the loop. -/
theorem wordsAux_insert_space (nxt : Nat) :
    ∀ (l : List Nat) (p : Nat) (e q : Bool) (cur : List Nat),
      (markSplit e q l)[p]? = some (32, true) →
      wordsAux nxt e q cur (l.take p ++ 32 :: l.drop p) = wordsAux nxt e q cur l := by
  intro l
  induction l with
  | nil => intro p e q cur hp; simp [markSplit] at hp
  | cons c r ih =>
    intro p e q cur hp
    cases p with
    | zero =>
      simp only [markSplit, List.getElem?_cons_zero, Option.some.injEq, Prod.mk.injEq] at hp
      obtain ⟨hc, hs⟩ := hp
      subst hc
      have he : e = false := by
        cases e
        · rfl
        · simp [specSplit] at hs
      have hq : q = false := by
        cases q
        · rfl
        · simp [specSplit] at hs
      subst he hq
      simp only [List.take_zero, List.drop_zero, List.nil_append]
      rw [wordsAux_cons, wordsAux_cons nxt false false cur 32 r]
      have e1 : specSplit 32 false false = true := by decide
      have e2 : specEscaped 32 false = false := by decide
      have e3 : specQuoted 32 false false = false := by decide
      rw [e1, e2, e3, if_pos rfl, if_pos rfl, wordsAux_cons, e1, e2, e3, if_pos rfl]
      simp
    | succ p2 =>
      simp only [markSplit, List.getElem?_cons_succ] at hp
      simp only [List.take_succ_cons, List.drop_succ_cons, List.cons_append]
      rw [wordsAux_cons, wordsAux_cons nxt e q cur c r, ih p2 _ _ _ hp, ih p2 _ _ _ hp]

/-- C8: inserting one more space at a position of the line that holds a
split-point space leaves the sequence of word texts returned by `parse_words`
unchanged, hence the number of words as well (whatever byte follows the
line). -/
theorem parse_words_extra_space (line rest : List Nat) (p : Nat)
    (hp : (markSplit false false line)[p]? = some (32, true)) :
    (parse_words ((line.take p ++ 32 :: line.drop p) ++ rest)
        (line.take p ++ 32 :: line.drop p).length).map
        (wordText ((line.take p ++ 32 :: line.drop p) ++ rest)) =
      (parse_words (line ++ rest) line.length).map (wordText (line ++ rest)) ∧
    (parse_words ((line.take p ++ 32 :: line.drop p) ++ rest)
        (line.take p ++ 32 :: line.drop p).length).length =
      (parse_words (line ++ rest) line.length).length := by
  have h : (parse_words ((line.take p ++ 32 :: line.drop p) ++ rest)
        (line.take p ++ 32 :: line.drop p).length).map
        (wordText ((line.take p ++ 32 :: line.drop p) ++ rest)) =
      (parse_words (line ++ rest) line.length).map (wordText (line ++ rest)) := by
    rw [parse_words_texts, parse_words_texts]
    exact wordsAux_insert_space _ line p false false [] hp
  refine ⟨h, ?_⟩
  have := congrArg List.length h
  simpa using this

/-- Witness for C8: a second space between `a` and `b` in the line `a b "c d"`. -/
theorem parse_words_extra_space_witness :
    (parse_words (((bytes "a b \"c d\"").take 1 ++ 32 :: (bytes "a b \"c d\"").drop 1) ++ [10])
        ((bytes "a b \"c d\"").take 1 ++ 32 :: (bytes "a b \"c d\"").drop 1).length).map
        (wordText (((bytes "a b \"c d\"").take 1 ++ 32 :: (bytes "a b \"c d\"").drop 1) ++ [10])) =
      (parse_words (bytes "a b \"c d\"" ++ [10]) (bytes "a b \"c d\"").length).map
        (wordText (bytes "a b \"c d\"" ++ [10])) ∧
    (parse_words (((bytes "a b \"c d\"").take 1 ++ 32 :: (bytes "a b \"c d\"").drop 1) ++ [10])
        ((bytes "a b \"c d\"").take 1 ++ 32 :: (bytes "a b \"c d\"").drop 1).length).length =
      (parse_words (bytes "a b \"c d\"" ++ [10]) (bytes "a b \"c d\"").length).length :=
  parse_words_extra_space (bytes "a b \"c d\"") [10] 1 (by decide)

/-! ## Tokenizer: lines -/

/-- The loop of `parse_lines` from index `pre.length` on, for a buffer free of NUL. -/
theorem parse_lines_fold (buf rest : List Nat) (hnz : ∀ c ∈ buf, c ≠ 0) :
    ∀ (sfx pre : List Nat) (s : LinesState), buf = pre ++ sfx → s.ls ≤ pre.length →
      ((List.range' pre.length (sfx.length + 1)).foldl
          (parse_lines_step (buf ++ rest) buf.length) s).l.map (lineText (buf ++ rest)) =
        s.l.map (lineText (buf ++ rest)) ++
          runsAcc (spanText (buf ++ rest) s.ls (pre.length - s.ls)) (markBreak sfx) := by
  intro sfx
  induction sfx with
  | nil =>
    intro pre s hl hj
    have hpre : pre = buf := by simpa using hl.symm
    subst hpre
    have hlen := spanText_length (pre ++ rest) s.ls (pre.length - s.ls) (by simp; omega)
    have hnil : spanText (pre ++ rest) s.ls (pre.length - s.ls) = [] ↔
        ¬ (pre.length - s.ls > 0) := by
      rw [← List.length_eq_zero, hlen]; omega
    simp only [List.length_nil, Nat.zero_add, List.range'_one, List.foldl_cons, List.foldl_nil]
    unfold parse_lines_step markBreak runsAcc
    simp only [beq_self_eq_true, Bool.true_or, Bool.or_true, Bool.or_false, if_true, List.map_nil]
    by_cases hk : pre.length - s.ls > 0
    · rw [if_pos hk, if_neg (fun h => (hnil.mp h) hk)]
      simp [lineText]
    · rw [if_neg hk, if_pos (hnil.mpr hk)]
      simp
  | cons c r ih =>
    intro pre s hl hj
    have hstr : buf ++ rest = pre ++ c :: (r ++ rest) := by rw [hl]; simp
    have hc : (buf ++ rest).getD pre.length 0 = c := by rw [hstr]; exact getD_at _ _ _
    have hne : (pre.length == buf.length) = false := by
      rw [beq_eq_false_iff_ne, hl]; simp
    have hc0 : (c == 0) = false := by
      rw [beq_eq_false_iff_ne]; exact hnz c (by rw [hl]; simp)
    have hlen := spanText_length (buf ++ rest) s.ls (pre.length - s.ls)
      (by rw [hstr]; simp; omega)
    have hnil : spanText (buf ++ rest) s.ls (pre.length - s.ls) = [] ↔
        ¬ (pre.length - s.ls > 0) := by
      rw [← List.length_eq_zero, hlen]; omega
    have hsnoc : spanText (buf ++ rest) s.ls (pre.length + 1 - s.ls) =
        spanText (buf ++ rest) s.ls (pre.length - s.ls) ++ [c] := by
      rw [hstr]; exact spanText_snoc pre c _ s.ls hj
    have hl2 : buf = (pre ++ [c]) ++ r := by rw [hl]; simp
    have hlen2 : (pre ++ [c]).length = pre.length + 1 := by simp
    rw [show (c :: r).length + 1 = (r.length + 1) + 1 from rfl, List.range'_succ,
      List.foldl_cons]
    have key := fun s2 hs2 => ih (pre ++ [c]) s2 hl2 hs2
    simp only [hlen2] at key
    rw [key _ (by
      unfold parse_lines_step
      dsimp only
      split_ifs <;> first | (dsimp only; omega) | omega)]
    unfold parse_lines_step
    dsimp only
    rw [hc, hne, hc0]
    have hmark : markBreak (c :: r) = (c, isBreak c) :: markBreak r := rfl
    rw [hmark]
    by_cases hb : isBreak c = true
    · have hb2 : (c == 13 || c == 10) = true := hb
      rw [hb, hb2]
      simp only [Bool.not_false, Bool.true_and, Bool.or_false, if_true, runsAcc]
      have hz : spanText (buf ++ rest) (pre.length + 1) (pre.length + 1 - (pre.length + 1)) = [] := by
        simp [spanText]
      rw [hz]
      by_cases hk : pre.length - s.ls > 0
      · rw [if_pos hk, if_neg (fun h => (hnil.mp h) hk)]
        simp [lineText]
      · rw [if_neg hk, if_pos (hnil.mpr hk)]
        simp
    · have hb1 : isBreak c = false := by simpa using hb
      have hb2 : (c == 13 || c == 10) = false := hb1
      rw [hb1, hb2]
      simp only [Bool.not_false, Bool.true_and, Bool.or_false, Bool.false_eq_true, if_false,
        runsAcc]
      rw [hsnoc]

/-- The line texts `parse_lines` returns for a buffer free of NUL. -/
theorem parse_lines_texts (buf rest : List Nat) (hnz : ∀ c ∈ buf, c ≠ 0) :
    (parse_lines (buf ++ rest) buf.length).map (lineText (buf ++ rest)) =
      runsAcc [] (markBreak buf) := by
  unfold parse_lines
  by_cases h0 : buf.length = 0
  · rw [if_pos h0]
    have : buf = [] := List.length_eq_zero.mp h0
    subst this
    simp [markBreak, runsAcc]
  · rw [if_neg h0, List.range_eq_range']
    have := parse_lines_fold buf rest hnz buf [] { ls := 0, l := [] } (by simp) (by simp)
    simpa [spanText] using this

theorem runsAcc_markBreak_splitOnP : ∀ (buf cur : List Nat),
    runsAcc cur (markBreak buf) =
      (List.modifyHead (fun r => cur ++ r) (buf.splitOnP isBreak)).filter
        (fun r => !r.isEmpty) := by
  intro buf
  induction buf with
  | nil =>
    intro cur
    cases cur <;> simp [markBreak, runsAcc, List.splitOnP_nil]
  | cons c r ih =>
    intro cur
    have hmark : markBreak (c :: r) = (c, isBreak c) :: markBreak r := rfl
    rw [hmark, List.splitOnP_cons]
    by_cases hb : isBreak c = true
    · rw [hb, if_pos rfl]
      simp only [runsAcc, List.modifyHead_cons, List.append_nil]
      have h0 := ih []
      have hid : (fun r : List Nat => [] ++ r) = id := by funext r; simp
      rw [hid] at h0
      have hmod : ∀ L : List (List Nat), List.modifyHead id L = L := by
        intro L; cases L <;> rfl
      rw [hmod] at h0
      rw [h0]
      cases cur <;> simp
    · have hb1 : isBreak c = false := by simpa using hb
      rw [hb1, if_neg (by simp)]
      simp only [runsAcc, List.modifyHead_modifyHead]
      rw [ih]
      have : (fun r : List Nat => (cur ++ [c]) ++ r) =
          (fun r : List Nat => cur ++ r) ∘ List.cons c := by
        funext r; simp
      rw [this]

theorem runsAcc_mem : ∀ (m : List (Nat × Bool)) (cur t : List Nat),
    t ∈ runsAcc cur m → t ≠ [] ∧ ∀ c ∈ t, c ∈ cur ∨ (c, false) ∈ m := by
  intro m
  induction m with
  | nil =>
    intro cur t ht
    unfold runsAcc at ht
    by_cases hc : cur = []
    · rw [if_pos hc] at ht; simp at ht
    · rw [if_neg hc] at ht
      simp only [List.mem_singleton] at ht
      subst ht
      exact ⟨hc, fun c h => Or.inl h⟩
  | cons x r ih =>
    intro cur t ht
    obtain ⟨d, b⟩ := x
    cases b with
    | true =>
      simp only [runsAcc] at ht
      rcases List.mem_append.mp ht with h | h
      · by_cases hc : cur = []
        · rw [if_pos hc] at h; simp at h
        · rw [if_neg hc] at h
          simp only [List.mem_singleton] at h
          subst h
          exact ⟨hc, fun c h => Or.inl h⟩
      · obtain ⟨h1, h2⟩ := ih [] t h
        refine ⟨h1, fun c hc => ?_⟩
        rcases h2 c hc with h3 | h3
        · simp at h3
        · exact Or.inr (List.mem_cons_of_mem _ h3)
    | false =>
      simp only [runsAcc] at ht
      obtain ⟨h1, h2⟩ := ih (cur ++ [d]) t ht
      refine ⟨h1, fun c hc => ?_⟩
      rcases h2 c hc with h3 | h3
      · rcases List.mem_append.mp h3 with h4 | h4
        · exact Or.inl h4
        · simp only [List.mem_singleton] at h4
          subst h4
          exact Or.inr (by simp)
      · exact Or.inr (List.mem_cons_of_mem _ h3)

theorem markBreak_filter (buf : List Nat) :
    ((markBreak buf).filter (fun x => !x.2)).map (fun x => x.1) =
      buf.filter (fun c => !isBreak c) := by
  induction buf with
  | nil => rfl
  | cons c r ih =>
    have hmark : markBreak (c :: r) = (c, isBreak c) :: markBreak r := rfl
    rw [hmark]
    cases hb : isBreak c <;> simp [List.filter_cons, hb, ih]

/-- C6: for a buffer free of NUL, the line texts `parse_lines` returns are, in
order, the non-empty pieces obtained by cutting the buffer at every CR and
LF; every line is non-empty and free of CR and LF, and the concatenation of
the lines is the buffer with every CR and LF removed. -/
theorem parse_lines_maximal_runs (buf rest : List Nat) (hnz : ∀ c ∈ buf, c ≠ 0) :
    (parse_lines (buf ++ rest) buf.length).map (lineText (buf ++ rest)) =
      (buf.splitOnP isBreak).filter (fun r => !r.isEmpty) ∧
    (∀ t ∈ (parse_lines (buf ++ rest) buf.length).map (lineText (buf ++ rest)),
      t ≠ [] ∧ 13 ∉ t ∧ 10 ∉ t) ∧
    ((parse_lines (buf ++ rest) buf.length).map (lineText (buf ++ rest))).flatten =
      buf.filter (fun c => !isBreak c) := by
  rw [parse_lines_texts buf rest hnz]
  refine ⟨?_, ?_, ?_⟩
  · rw [runsAcc_markBreak_splitOnP]
    have hid : (fun r : List Nat => [] ++ r) = id := by funext r; simp
    have hmod : ∀ L : List (List Nat), List.modifyHead id L = L := by
      intro L; cases L <;> rfl
    rw [hid, hmod]
  · intro t ht
    obtain ⟨h1, h2⟩ := runsAcc_mem _ _ t ht
    have hno : ∀ c ∈ t, isBreak c = false := by
      intro c hc
      rcases h2 c hc with h3 | h3
      · simp at h3
      · unfold markBreak at h3
        simp only [List.mem_map, Prod.mk.injEq] at h3
        obtain ⟨a, _, ha1, ha2⟩ := h3
        rw [← ha1]; exact ha2
    refine ⟨h1, fun h => ?_, fun h => ?_⟩
    · have := hno 13 h
      simp [isBreak] at this
    · have := hno 10 h
      simp [isBreak] at this
  · rw [flatten_runsAcc, markBreak_filter]
    simp

/-- Witness for C6: the buffer `ab`, CR, LF, LF, `c`, LF. -/
theorem parse_lines_maximal_runs_witness :
    (parse_lines ([97, 98, 13, 10, 10, 99, 10] ++ []) [97, 98, 13, 10, 10, 99, 10].length).map
        (lineText ([97, 98, 13, 10, 10, 99, 10] ++ [])) =
      ([97, 98, 13, 10, 10, 99, 10].splitOnP isBreak).filter (fun r => !r.isEmpty) ∧
    (∀ t ∈ (parse_lines ([97, 98, 13, 10, 10, 99, 10] ++ [])
        [97, 98, 13, 10, 10, 99, 10].length).map (lineText ([97, 98, 13, 10, 10, 99, 10] ++ [])),
      t ≠ [] ∧ 13 ∉ t ∧ 10 ∉ t) ∧
    ((parse_lines ([97, 98, 13, 10, 10, 99, 10] ++ []) [97, 98, 13, 10, 10, 99, 10].length).map
        (lineText ([97, 98, 13, 10, 10, 99, 10] ++ []))).flatten =
      [97, 98, 13, 10, 10, 99, 10].filter (fun c => !isBreak c) :=
  parse_lines_maximal_runs [97, 98, 13, 10, 10, 99, 10] [] (by decide)

/-- C7 (failing input): the buffer made of one space and a line feed gives one
retained line of length 1 whose word list is empty. -/
theorem parse_lines_space_line_no_word :
    parse_lines (bytes " \n") 2 = [{ str := 0, len := 1, words := [] }] := by
  decide

/-! ## Numeric tokens -/

/-- A counting loop that reads `str[i]` over a token is a fold over the token. -/
theorem foldl_range_getD {σ : Type} (F : σ → Nat → σ) :
    ∀ (tok pre rest : List Nat) (v : σ),
      (List.range' pre.length tok.length).foldl
          (fun val i => F val ((pre ++ (tok ++ rest)).getD i 0)) v = tok.foldl F v := by
  intro tok
  induction tok with
  | nil => intro pre rest v; rfl
  | cons c r ih =>
    intro pre rest v
    rw [List.length_cons, List.range'_succ, List.foldl_cons, List.foldl_cons]
    have hc : (pre ++ (c :: r ++ rest)).getD pre.length 0 = c := getD_at pre c (r ++ rest)
    rw [hc]
    have := ih (pre ++ [c]) rest (F v c)
    have hl : (pre ++ [c]).length = pre.length + 1 := by simp
    have hs : (pre ++ [c]) ++ (r ++ rest) = pre ++ (c :: r ++ rest) := by simp
    rw [hl, hs] at this
    exact this

theorem decStep_mod (v c : Nat) :
    decStep (v % 2 ^ 32) c = (if 48 ≤ c ∧ c ≤ 57 then v * 10 + (c - 48) else v) % 2 ^ 32 := by
  unfold decStep
  split_ifs
  · norm_num
    omega
  · rfl

theorem foldl_decStep (tok : List Nat) : ∀ (v : Nat),
    tok.foldl decStep (v % 2 ^ 32) =
      ((tok.filter isDigit).map (fun c => c - 48)).foldl (fun a d => a * 10 + d) v % 2 ^ 32 := by
  induction tok with
  | nil => intro v; rfl
  | cons c r ih =>
    intro v
    rw [List.foldl_cons, decStep_mod]
    by_cases hd : 48 ≤ c ∧ c ≤ 57
    · have : isDigit c = true := by simp [isDigit, hd]
      rw [if_pos hd, ih, List.filter_cons, if_pos this]
      rfl
    · have : ¬ (isDigit c = true) := by simp [isDigit]; omega
      rw [if_neg hd, ih, List.filter_cons, if_neg this]

theorem foldl_digits_ofDigits (b : Nat) : ∀ (ds : List Nat) (v : Nat),
    ds.foldl (fun a d => a * b + d) v = v * b ^ ds.length + Nat.ofDigits b ds.reverse := by
  intro ds
  induction ds with
  | nil => intro v; simp
  | cons d r ih =>
    intro v
    rw [List.foldl_cons, ih, List.reverse_cons, Nat.ofDigits_append, Nat.ofDigits_singleton,
      List.length_reverse, List.length_cons]
    ring

/-- Value of `toInt` on the decimal path. -/
theorem toInt_decimal_value (tok rest : List Nat)
    (h : ¬ (tok.length > 2 ∧ tok.take 2 = [48, 120])) :
    toInt (tok ++ rest) tok.length = Nat.ofDigits 10 (decimalDigits tok).reverse % 2 ^ 32 := by
  have hpath : ¬ (tok.length > 2 ∧ (tok ++ rest).getD 0 0 = 48 ∧ (tok ++ rest).getD 1 0 = 120) := by
    rintro ⟨h1, h2, h3⟩
    apply h
    refine ⟨h1, ?_⟩
    match tok, h1, h2, h3 with
    | a :: b :: _ :: _, _, h2, h3 =>
      simp only [List.cons_append, List.getD_cons_zero, List.getD_cons_succ] at h2 h3
      simp [h2, h3]
  unfold toInt
  by_cases h0 : tok.length = 0
  · rw [if_pos h0]
    have : tok = [] := List.length_eq_zero.mp h0
    subst this
    simp [decimalDigits]
  · rw [if_neg h0, if_neg hpath, List.range_eq_range']
    have hf := foldl_range_getD decStep tok [] rest 0
    simp only [List.length_nil, List.nil_append] at hf
    rw [hf]
    have := foldl_decStep tok 0
    rw [Nat.zero_mod] at this
    rw [this, foldl_digits_ofDigits]
    simp [decimalDigits]

/-- C9: on every token that does not take the hexadecimal path, `toInt`
returns the base-10 value of the token's decimal digits, taken in order with
all other characters skipped, modulo 2^32; `10` gives 10, `12a` gives 12 and
the empty token gives 0. -/
theorem toInt_decimal (tok rest : List Nat)
    (h : ¬ (tok.length > 2 ∧ tok.take 2 = [48, 120])) :
    toInt (tok ++ rest) tok.length = Nat.ofDigits 10 (decimalDigits tok).reverse % 2 ^ 32 ∧
    toInt (bytes "10") 2 = 10 ∧ toInt (bytes "12a") 3 = 12 ∧ toInt (bytes "") 0 = 0 :=
  ⟨toInt_decimal_value tok rest h, by decide, by decide, by decide⟩

/-- Witness for C9: the token `12a` followed by a space. -/
theorem toInt_decimal_witness :
    toInt (bytes "12a" ++ [32]) (bytes "12a").length =
      Nat.ofDigits 10 (decimalDigits (bytes "12a")).reverse % 2 ^ 32 ∧
    toInt (bytes "10") 2 = 10 ∧ toInt (bytes "12a") 3 = 12 ∧ toInt (bytes "") 0 = 0 :=
  toInt_decimal (bytes "12a") [32] (by decide)

theorem hexNibble_lt (c : Nat) : hexNibble c % 16 =
    if isHexDigit (c % 256) = true then hexDigitValue (c % 256) else c % 16 := by
  unfold hexNibble isHexDigit hexDigitValue
  dsimp only
  split_ifs <;> simp at * <;> omega

/-- The hexadecimal loop body in arithmetic terms. -/
theorem hexStep_eq (v c : Nat) : hexStep v c = (v * 16) % 2 ^ 32 + hexNibble c % 16 := by
  unfold hexStep
  have h1 : hexNibble c &&& 15 = hexNibble c % 16 := Nat.and_pow_two_sub_one_eq_mod _ 4
  have h2 : (v <<< 4) % 2 ^ 32 = 2 ^ 4 * (v % 2 ^ 28) := by
    rw [Nat.shiftLeft_eq]
    norm_num
    omega
  rw [h1, h2, ← Nat.mul_add_lt_is_or (Nat.mod_lt _ (by norm_num))]
  norm_num
  omega

theorem hexDigitValue_lt (c : Nat) (h : isHexDigit c = true) : hexDigitValue c < 16 ∧ c < 256 := by
  unfold isHexDigit at h
  unfold hexDigitValue
  simp only [decide_eq_true_eq] at h
  split_ifs <;> omega

theorem foldl_hexStep : ∀ (ds : List Nat) (v : Nat),
    (∀ c ∈ ds, isHexDigit c = true) → (v + 1) * 16 ^ ds.length ≤ 2 ^ 32 →
    ds.foldl hexStep v = v * 16 ^ ds.length + Nat.ofDigits 16 (ds.map hexDigitValue).reverse := by
  intro ds
  induction ds with
  | nil => intro v _ _; simp
  | cons c r ih =>
    intro v hhex hb
    have hc := hexDigitValue_lt c (hhex c (by simp))
    have hP : 1 ≤ 16 ^ r.length := Nat.one_le_pow _ _ (by norm_num)
    rw [List.length_cons, pow_succ] at hb
    have hv : v * 16 < 2 ^ 32 := by nlinarith
    have hstep : hexStep v c = v * 16 + hexDigitValue c := by
      rw [hexStep_eq, hexNibble_lt, Nat.mod_eq_of_lt hc.2, if_pos (hhex c (by simp)),
        Nat.mod_eq_of_lt hv]
    rw [List.foldl_cons, hstep, ih _ (fun x hx => hhex x (List.mem_cons_of_mem _ hx))
      (by nlinarith)]
    rw [List.map_cons, List.reverse_cons, Nat.ofDigits_append, Nat.ofDigits_singleton,
      List.length_reverse, List.length_map, List.length_cons]
    ring

/-- The hexadecimal path of `toInt` as a fold over the characters after `0x`. -/
theorem toInt_hex_fold (cs rest : List Nat) (h : cs ≠ []) :
    toInt (48 :: 120 :: (cs ++ rest)) (cs.length + 2) = cs.foldl hexStep 0 := by
  unfold toInt
  have hlen : 0 < cs.length := List.length_pos.mpr h
  rw [if_neg (by omega), if_pos ⟨by omega, rfl, rfl⟩]
  have := foldl_range_getD hexStep cs [48, 120] rest 0
  simpa using this

/-- C10: on a token `0x` followed by one to eight hexadecimal digits `toInt`
returns the base-16 value of those digits (`0x1F` gives 31); a further
character that is not a hexadecimal digit is not rejected: it shifts the
value so far by four bits (within 32 bits) and adds the low four bits of its
byte value. -/
theorem toInt_hexadecimal (ds rest : List Nat)
    (hlen : 1 ≤ ds.length ∧ ds.length ≤ 8) (hhex : ∀ c ∈ ds, isHexDigit c = true) :
    toInt (48 :: 120 :: (ds ++ rest)) (ds.length + 2) =
      Nat.ofDigits 16 (ds.map hexDigitValue).reverse ∧
    toInt (bytes "0x1F") 4 = 31 ∧
    (∀ (cs : List Nat) (c : Nat) (rest2 : List Nat), c < 256 → isHexDigit c = false →
      toInt (48 :: 120 :: (cs ++ c :: rest2)) (cs.length + 3) =
        (toInt (48 :: 120 :: (cs ++ c :: rest2)) (cs.length + 2) * 16) % 2 ^ 32 + c % 16) := by
  refine ⟨?_, by decide, ?_⟩
  · have hne : ds ≠ [] := by
      intro h; rw [h] at hlen; simp at hlen
    rw [toInt_hex_fold ds rest hne, foldl_hexStep ds 0 hhex]
    · simp
    · have : 16 ^ ds.length ≤ 16 ^ 8 := Nat.pow_le_pow_right (by norm_num) hlen.2
      norm_num at this ⊢
      exact this
  · intro cs c rest2 hc hnh
    have h3 : toInt (48 :: 120 :: (cs ++ c :: rest2)) (cs.length + 3) =
        (cs ++ [c]).foldl hexStep 0 := by
      have := toInt_hex_fold (cs ++ [c]) rest2 (by simp)
      simpa using this
    have h2 : toInt (48 :: 120 :: (cs ++ c :: rest2)) (cs.length + 2) = cs.foldl hexStep 0 := by
      by_cases hcs : cs = []
      · subst hcs
        by_cases h120 : c = 120 <;> simp [toInt, decStep, List.range_succ] 
      · exact toInt_hex_fold cs (c :: rest2) hcs
    rw [h3, h2, List.foldl_append, List.foldl_cons, List.foldl_nil, hexStep_eq, hexNibble_lt,
      Nat.mod_eq_of_lt hc, if_neg (by simp [hnh])]

/-- Witness for C10: the token `0x1F`. -/
theorem toInt_hexadecimal_witness :
    toInt (48 :: 120 :: (bytes "1F" ++ [])) ((bytes "1F").length + 2) =
      Nat.ofDigits 16 ((bytes "1F").map hexDigitValue).reverse ∧
    toInt (bytes "0x1F") 4 = 31 ∧
    (∀ (cs : List Nat) (c : Nat) (rest2 : List Nat), c < 256 → isHexDigit c = false →
      toInt (48 :: 120 :: (cs ++ c :: rest2)) (cs.length + 3) =
        (toInt (48 :: 120 :: (cs ++ c :: rest2)) (cs.length + 2) * 16) % 2 ^ 32 + c % 16) :=
  toInt_hexadecimal (bytes "1F") [] (by decide) (by decide)

/-! ## Command dispatch -/

/-- Value of `compare` on a template without separators. -/
theorem compare_keyword (kw w rest : List Nat) (cs : Nat) (hne : kw ≠ [])
    (hclean : ∀ c ∈ kw, c ≠ 44 ∧ c ≠ 47 ∧ c ≠ 0) :
    compare (w ++ rest) w.length kw cs =
      if wordEq cs w kw then COMPARE_EQUAL else COMPARE_UNEQUAL := by
  have hsl := strlen_eq_length kw (fun c hc => (hclean c hc).2.2)
  have hiff := matchFrom_iff_wordEq cs w kw
  rcases Nat.lt_trichotomy w.length kw.length with hlt | heq | hgt
  · rw [compare_lt _ _ _ _ (by rw [hsl]; exact hlt), hsl]
    obtain ⟨c, more, rfl⟩ : ∃ c more, kw = c :: more := by
      cases kw with
      | nil => exact absurd rfl hne
      | cons c more => exact ⟨c, more, rfl⟩
    cases w with
    | nil =>
      rw [compareRun_stop _ _ _ _ _ _ (by simp)]
      have hrhs : ¬ wordEq cs [] (c :: more) := by
        intro h
        have := matchFrom_length cs [] _ (hiff.mpr h)
        simp at this
      rw [if_neg hrhs]
      unfold cmpFinish
      rw [if_neg]
      rintro ⟨_, _, h⟩
      have hc := hclean c (by simp)
      simp only [List.getD_cons_zero] at h
      rcases h with h | h | h
      · exact hc.1 h
      · exact hc.2.1 h
      · exact hc.2.2 h
    | cons u wmore =>
      have key := compare_alts cs rest u wmore [c :: more] [] (c :: more) (by simp)
        (by
          intro alt halt
          simp only [List.mem_singleton] at halt
          subst halt
          exact ⟨by simp, hclean⟩)
        (by rw [intercalate_single]; simp)
      simp only [List.length_nil] at key
      rw [key]
      simp only [List.any_cons, List.any_nil, Bool.or_false]
      by_cases h : wordEq cs (u :: wmore) (c :: more)
      · rw [if_pos h, if_pos (hiff.mpr h)]; rfl
      · rw [if_neg h, if_neg (fun hh => h (hiff.mp hh))]; rfl
  · rw [compare_eq_len w rest kw cs (by rw [hsl]; exact heq), hsl, List.take_length]
    by_cases h : wordEq cs w kw
    · rw [if_pos h, if_pos (hiff.mpr h)]
    · rw [if_neg h, if_neg (fun hh => h (hiff.mp hh))]
  · rw [compare_gt _ _ _ _ (by rw [hsl]; exact hgt)]
    have h2 : ¬ wordEq cs w kw := by
      intro hh
      have := matchFrom_length cs w kw (hiff.mpr hh)
      omega
    rw [if_neg h2]

/-- The test `compare(word, "KEYWORD", CASE_SENSETIVE)` of `parse` and `press`
holds exactly when the word and the keyword agree after lower-casing. -/
theorem cmp_lower (w rest : List Nat) (templ : String) (hne : bytes templ ≠ [])
    (hclean : ∀ c ∈ bytes templ, c ≠ 44 ∧ c ≠ 47 ∧ c ≠ 0) :
    cmp (w ++ rest) w.length templ =
      decide (w.map to_lower = (bytes templ).map to_lower) := by
  unfold cmp
  rw [compare_keyword (bytes templ) w rest CASE_SENSETIVE hne hclean]
  have hw : wordEq CASE_SENSETIVE w (bytes templ) ↔
      w.map to_lower = (bytes templ).map to_lower := by
    unfold wordEq CASE_SENSETIVE COMPARE_CASE_SENSETIVE
    simp
  by_cases h : w.map to_lower = (bytes templ).map to_lower
  · rw [if_pos (hw.mpr h)]
    simp [h, COMPARE_EQUAL]
  · rw [if_neg (fun hh => h (hw.mp hh))]
    simp [h, COMPARE_UNEQUAL]

/-- The same test for a word known up to letter case. -/
theorem cmp_of_lower (w rest L : List Nat) (hw : w.map to_lower = L) (templ : String)
    (hne : bytes templ ≠ []) (hclean : ∀ c ∈ bytes templ, c ≠ 44 ∧ c ≠ 47 ∧ c ≠ 0) :
    cmp (w ++ rest) w.length templ = decide (L = (bytes templ).map to_lower) := by
  rw [cmp_lower w rest templ hne hclean, hw]

/-- The branch taken for a first word that is a keyword up to letter case,
outside a comment and a string continuation. -/
theorem dispatch_table (w rest : List Nat) (p : String × Branch) (hp : p ∈ keywordTable)
    (hw : w.map to_lower = (bytes p.1).map to_lower) :
    dispatch false false (w ++ rest) w.length = p.2 := by
  have hREM := cmp_of_lower w rest _ hw "REM" (by decide) (by decide)
  have hLOCALE := cmp_of_lower w rest _ hw "LOCALE" (by decide) (by decide)
  have hDELAY := cmp_of_lower w rest _ hw "DELAY" (by decide) (by decide)
  have hDD := cmp_of_lower w rest _ hw "DEFAULTDELAY" (by decide) (by decide)
  have hD_D := cmp_of_lower w rest _ hw "DEFAULT_DELAY" (by decide) (by decide)
  have hREPEAT := cmp_of_lower w rest _ hw "REPEAT" (by decide) (by decide)
  have hREPLAY := cmp_of_lower w rest _ hw "REPLAY" (by decide) (by decide)
  have hSTRING := cmp_of_lower w rest _ hw "STRING" (by decide) (by decide)
  have hLED := cmp_of_lower w rest _ hw "LED" (by decide) (by decide)
  have hKEYCODE := cmp_of_lower w rest _ hw "KEYCODE" (by decide) (by decide)
  unfold dispatch
  rw [hREM, hLOCALE, hDELAY, hDD, hD_D, hREPEAT, hREPLAY, hSTRING, hLED, hKEYCODE]
  unfold keywordTable at hp
  simp only [List.mem_cons, List.mem_singleton, List.not_mem_nil, or_false] at hp
  rcases hp with h | h | h | h | h | h | h | h | h | h <;> subst h <;> decide

/-- C11 (as stated, refuted): the line `rem hello` is not handled by the
default key-press branch; it takes the `REM` branch and `parse` makes no call
at all. -/
theorem dispatch_rem_lowercase_is_comment :
    dispatch false false (bytes "rem hello\n") 3 ≠ Branch.KEYS ∧
    parse (bytes "rem hello\n") 10 RunState.init = some RunState.init := by
  decide

/-- C11 (amended): command dispatch ignores ASCII letter case
(`CASE_SENSETIVE` is `false`).  Outside a comment and a string continuation, a
first word that equals a keyword of the table up to letter case selects that
keyword's branch; `rem hello` is a comment and `string x` types `x`. -/
theorem dispatch_ignores_case (w rest : List Nat) (p : String × Branch)
    (hp : p ∈ keywordTable) (hw : w.map to_lower = (bytes p.1).map to_lower) :
    dispatch false false (w ++ rest) w.length = p.2 ∧
    dispatch false false (bytes "rem hello\n") 3 = Branch.REM ∧
    (parse (bytes "string x\n") 9 RunState.init).map (fun s => s.events) =
      some [Event.write (bytes "x"), Event.sleep 5] :=
  ⟨dispatch_table w rest p hp hw, by decide, by decide⟩

/-- Witness for C11: the first word `rem` of the line `rem hello`. -/
theorem dispatch_ignores_case_witness :
    dispatch false false (bytes "rem" ++ bytes " hello\n") (bytes "rem").length =
      (("REM", Branch.REM) : String × Branch).2 ∧
    dispatch false false (bytes "rem hello\n") 3 = Branch.REM ∧
    (parse (bytes "string x\n") 9 RunState.init).map (fun s => s.events) =
      some [Event.write (bytes "x"), Event.sleep 5] :=
  dispatch_ignores_case (bytes "rem") (bytes " hello\n") ("REM", Branch.REM)
    (by decide) (by decide)

/-! ## The statements after the chain -/

theorem finishLine_inString (s : RunState) (ig le : Bool) :
    (finishLine s ig le).inString = s.inString := by
  unfold finishLine
  dsimp only
  split_ifs <;> rfl

theorem finishLine_inComment (s : RunState) (ig le : Bool) :
    (finishLine s ig le).inComment = s.inComment := by
  unfold finishLine
  dsimp only
  split_ifs <;> rfl

theorem finishLine_defaultDelay (s : RunState) (ig le : Bool) :
    (finishLine s ig le).defaultDelay = s.defaultDelay := by
  unfold finishLine
  dsimp only
  split_ifs <;> rfl

theorem finishLine_processing (s : RunState) (ig le : Bool) :
    (finishLine s ig le).processing = s.processing := by
  unfold finishLine
  dsimp only
  split_ifs <;> rfl

theorem finishLine_events (s : RunState) (ig le : Bool) :
    (finishLine s ig le).events =
      if !s.inString && !s.inComment && !ig then
        s.events ++ [Event.sleep (asUnsigned s.defaultDelay)]
      else s.events := by
  unfold finishLine
  dsimp only
  split_ifs <;> rfl

theorem finishLine_repeatNum (s : RunState) (ig le : Bool) :
    (finishLine s ig le).repeatNum =
      if le && decide (s.repeatNum > 0) then s.repeatNum - 1 else s.repeatNum := by
  unfold finishLine
  dsimp only
  split_ifs <;> rfl

/-! ## Symbolic runs of the tokenizer -/

theorem range_split (i a b : Nat) :
    List.range' i (a + b) = List.range' i a ++ List.range' (i + a) b := by
  rw [List.range'_append_1, Nat.add_comm]

/-- Characters that are no space, backslash or quote leave the state of
`parse_words` alone while nothing is escaped. -/
theorem parse_words_fold_plain (str : List Nat) (len : Nat) :
    ∀ (n i : Nat) (s : WordsState), s.escaped = false →
      (∀ k, i ≤ k → k < i + n →
        k ≠ len ∧ str.getD k 0 ≠ 92 ∧ str.getD k 0 ≠ 34 ∧ str.getD k 0 ≠ 32) →
      (List.range' i n).foldl (parse_words_step str len) s = s := by
  intro n
  induction n with
  | zero => intro i s _ _; rfl
  | succ n ih =>
    intro i s he h
    rw [List.range'_succ, List.foldl_cons]
    obtain ⟨h1, h2, h3, h4⟩ := h i (Nat.le_refl _) (by omega)
    have hstep : parse_words_step str len s i = s := by
      unfold parse_words_step
      rw [if_neg (fun hh => h2 hh.1), if_neg (fun hh => h3 hh.1),
        if_neg (by rintro (hh | hh); exact h1 hh; exact h4 hh.1),
        if_neg (by rw [he]; simp)]
    rw [hstep]
    exact ih (i + 1) s he (fun k hk1 hk2 => h k (by omega) (by omega))

theorem parse_words_step_grows (str : List Nat) (len : Nat) (s : WordsState) (i : Nat) :
    ∃ ex, (parse_words_step str len s i).l = s.l ++ ex := by
  unfold parse_words_step
  split_ifs
  · exact ⟨[], by simp⟩
  · exact ⟨[], by simp⟩
  · dsimp only
    split_ifs
    · exact ⟨_, rfl⟩
    · exact ⟨[], by simp⟩
  · exact ⟨[], by simp⟩
  · exact ⟨[], by simp⟩

/-- The loop of `parse_words` only appends to its list. -/
theorem parse_words_fold_grows (str : List Nat) (len : Nat) :
    ∀ (L : List Nat) (s : WordsState),
      ∃ ex, (L.foldl (parse_words_step str len) s).l = s.l ++ ex := by
  intro L
  induction L with
  | nil => intro s; exact ⟨[], by simp⟩
  | cons i r ih =>
    intro s
    rw [List.foldl_cons]
    obtain ⟨e1, h1⟩ := parse_words_step_grows str len s i
    obtain ⟨e2, h2⟩ := ih (parse_words_step str len s i)
    exact ⟨e1 ++ e2, by rw [h2, h1, List.append_assoc]⟩

/-- A line that begins with a plain word followed by a space has that word as
its first word. -/
theorem parse_words_first_word (w tail : List Nat) (len : Nat) (hne : w ≠ [])
    (hplain : ∀ c ∈ w, c ≠ 92 ∧ c ≠ 34 ∧ c ≠ 32) (hlen : w.length < len) :
    ∃ ws, parse_words (w ++ 32 :: tail) len = { str := 0, len := w.length } :: ws := by
  have hpos : 0 < w.length := List.length_pos.mpr hne
  have hskip : (List.range' 0 w.length).foldl (parse_words_step (w ++ 32 :: tail) len)
      { j := 0, escaped := false, ignore_space := false, l := [] } =
      { j := 0, escaped := false, ignore_space := false, l := [] } := by
    apply parse_words_fold_plain _ _ _ _ _ rfl
    intro k _ hk
    have hk2 : k < w.length := by omega
    have hget : (w ++ 32 :: tail).getD k 0 = w.getD k 0 := List.getD_append _ _ _ _ hk2
    have hmem := hplain _ (getD_mem w k hk2)
    rw [hget]
    exact ⟨by omega, hmem.1, hmem.2.1, hmem.2.2⟩
  have hc : (w ++ 32 :: tail).getD w.length 0 = 32 := getD_at w 32 tail
  have hstep : parse_words_step (w ++ 32 :: tail) len
      { j := 0, escaped := false, ignore_space := false, l := [] } w.length =
      { j := w.length + 1, escaped := false, ignore_space := false,
        l := [{ str := 0, len := w.length }] } := by
    unfold parse_words_step
    rw [hc, if_neg (by decide), if_neg (by decide), if_pos (Or.inr ⟨rfl, rfl, rfl⟩)]
    simp [hpos]
  unfold parse_words
  rw [if_neg (by omega), List.range_eq_range',
    show len + 1 = w.length + ((len - w.length) + 1) by omega, range_split, List.foldl_append,
    hskip, Nat.zero_add, List.range'_succ, List.foldl_cons, hstep]
  obtain ⟨ex, hex⟩ := parse_words_fold_grows (w ++ 32 :: tail) len
    (List.range' (w.length + 1) (len - w.length))
    { j := w.length + 1, escaped := false, ignore_space := false,
      l := [{ str := 0, len := w.length }] }
  exact ⟨ex, by rw [hex]; rfl⟩

/-- Characters that are no line break and no NUL leave the state of
`parse_lines` alone. -/
theorem parse_lines_fold_skip (str : List Nat) (len : Nat) :
    ∀ (n i : Nat) (s : LinesState),
      (∀ k, i ≤ k → k < i + n →
        k ≠ len ∧ str.getD k 0 ≠ 13 ∧ str.getD k 0 ≠ 10 ∧ str.getD k 0 ≠ 0) →
      (List.range' i n).foldl (parse_lines_step str len) s = s := by
  intro n
  induction n with
  | zero => intro i s _; rfl
  | succ n ih =>
    intro i s h
    rw [List.range'_succ, List.foldl_cons]
    obtain ⟨h1, h2, h3, h4⟩ := h i (Nat.le_refl _) (by omega)
    have hstep : parse_lines_step str len s i = s := by
      unfold parse_lines_step
      dsimp only
      rw [beq_false_of_ne h1, beq_false_of_ne h2, beq_false_of_ne h3, beq_false_of_ne h4]
      rfl
    rw [hstep]
    exact ih (i + 1) s (fun k hk1 hk2 => h k (by omega) (by omega))

/-- A non-empty run of ordinary characters followed by a line break makes
one line. -/
theorem parse_lines_fold_line (pre line post : List Nat) (brk len : Nat) (s : LinesState)
    (hne : line ≠ []) (hclean : ∀ c ∈ line, c ≠ 13 ∧ c ≠ 10 ∧ c ≠ 0)
    (hbrk : brk = 13 ∨ brk = 10) (hls : s.ls = pre.length)
    (hlen : pre.length + line.length < len) :
    (List.range' pre.length (line.length + 1)).foldl
        (parse_lines_step (pre ++ (line ++ brk :: post)) len) s =
      { ls := pre.length + line.length + 1,
        l := s.l ++ [{ str := pre.length, len := line.length,
                       words := (parse_words (line ++ brk :: post) line.length).map
                         (fun w => { w with str := pre.length + w.str }) }] } := by
  have hpos : 0 < line.length := List.length_pos.mpr hne
  have hskip : (List.range' pre.length line.length).foldl
      (parse_lines_step (pre ++ (line ++ brk :: post)) len) s = s := by
    apply parse_lines_fold_skip
    intro k hk1 hk2
    obtain ⟨j, rfl⟩ : ∃ j, k = pre.length + j := ⟨k - pre.length, by omega⟩
    have hj : j < line.length := by omega
    have hget := getD_mid pre line (brk :: post) j hj
    have hmem := hclean _ (getD_mem line j hj)
    rw [hget]
    exact ⟨by omega, hmem.1, hmem.2.1, hmem.2.2⟩
  have hc : (pre ++ (line ++ brk :: post)).getD (pre.length + line.length) 0 = brk := by
    have := getD_at (pre ++ line) brk post
    simpa using this
  have hb : (brk == 13 || brk == 10) = true := by
    rcases hbrk with h | h <;> rw [h] <;> rfl
  rw [range_split, List.foldl_append, hskip, List.range'_one, List.foldl_cons, List.foldl_nil]
  unfold parse_lines_step
  dsimp only
  rw [hc, hls, List.drop_left, hb]
  simp only [Bool.not_false, Bool.true_and, Bool.true_or, if_true]
  rw [if_pos (by omega), Nat.add_sub_cancel_left]

/-- The lines of a buffer made of two non-empty lines, each ended by a line break. -/
theorem parse_lines_two (line1 line2 : List Nat) (b1 b2 : Nat)
    (hne1 : line1 ≠ []) (hne2 : line2 ≠ [])
    (hc1 : ∀ c ∈ line1, c ≠ 13 ∧ c ≠ 10 ∧ c ≠ 0) (hc2 : ∀ c ∈ line2, c ≠ 13 ∧ c ≠ 10 ∧ c ≠ 0)
    (hb1 : b1 = 13 ∨ b1 = 10) (hb2 : b2 = 13 ∨ b2 = 10) :
    parse_lines (line1 ++ b1 :: (line2 ++ [b2])) (line1 ++ b1 :: (line2 ++ [b2])).length =
      [{ str := 0, len := line1.length,
         words := (parse_words (line1 ++ b1 :: (line2 ++ [b2])) line1.length).map
           (fun w => { w with str := 0 + w.str }) },
       { str := line1.length + 1, len := line2.length,
         words := (parse_words (line2 ++ [b2]) line2.length).map
           (fun w => { w with str := line1.length + 1 + w.str }) }] := by
  have hlen : (line1 ++ b1 :: (line2 ++ [b2])).length = line1.length + line2.length + 2 := by
    simp; omega
  have h1 := parse_lines_fold_line [] line1 (line2 ++ [b2]) b1
    (line1.length + line2.length + 2) { ls := 0, l := [] } hne1 hc1 hb1 rfl (by simp; omega)
  have h2 := fun s hs => parse_lines_fold_line (line1 ++ [b1]) line2 [] b2
    (line1.length + line2.length + 2) s hne2 hc2 hb2 hs (by simp; omega)
  have e2 : (line1 ++ [b1]) ++ (line2 ++ [b2]) = line1 ++ b1 :: (line2 ++ [b2]) := by simp
  have l2 : (line1 ++ [b1]).length = line1.length + 1 := by simp
  simp only [List.nil_append, List.length_nil, Nat.zero_add] at h1
  rw [e2] at h2
  simp only [l2] at h2
  unfold parse_lines
  rw [hlen, if_neg (by omega), List.range_eq_range',
    show line1.length + line2.length + 2 + 1 = (line1.length + 1) + ((line2.length + 1) + 1)
      by omega,
    range_split 0 (line1.length + 1) ((line2.length + 1) + 1),
    range_split (0 + (line1.length + 1)) (line2.length + 1) 1,
    List.foldl_append, List.foldl_append, h1, Nat.zero_add, h2 _ rfl,
    List.range'_one, List.foldl_cons, List.foldl_nil]
  unfold parse_lines_step
  dsimp only
  have hidx : line1.length + 1 + (line2.length + 1) = line1.length + line2.length + 2 := by omega
  rw [hidx]
  simp
  omega

/-! ## The branches of `parse` -/

theorem parse_line_STRING (str : List Nat) (n : line_node) (s : RunState)
    (cmd : word_node) (args : List word_node) (hw : n.words = cmd :: args)
    (hd : dispatch s.inComment s.inString (str.drop cmd.str) cmd.len = Branch.STRING) :
    parse_line str n s =
      some (finishLine
        { s with
          events := s.events ++
            [Event.write (if s.inString then spanText str n.str n.len
              else spanText str (cmd.str + cmd.len + 1)
                ((n.len + 2 ^ 32 - cmd.len - 1) % 2 ^ 32))],
          inString := !(str.getD (n.str + n.len) 0 == 13 || str.getD (n.str + n.len) 0 == 10) }
        false (str.getD (n.str + n.len) 0 == 13 || str.getD (n.str + n.len) 0 == 10)) := by
  obtain ⟨nstr, nlen, nwords⟩ := n
  simp only at hw
  subst hw
  unfold parse_line
  dsimp only
  rw [hd]

theorem parse_line_KEYS (str : List Nat) (n : line_node) (s : RunState)
    (cmd : word_node) (args : List word_node) (hw : n.words = cmd :: args)
    (hd : dispatch s.inComment s.inString (str.drop cmd.str) cmd.len = Branch.KEYS) :
    parse_line str n s =
      some (finishLine
        { s with events := s.events ++
            (cmd :: args).map (fun w => press (str.drop w.str) w.len) ++
            (if (str.getD (n.str + n.len) 0 == 13 || str.getD (n.str + n.len) 0 == 10) = true
              then [Event.release] else []) }
        false (str.getD (n.str + n.len) 0 == 13 || str.getD (n.str + n.len) 0 == 10)) := by
  obtain ⟨nstr, nlen, nwords⟩ := n
  simp only at hw
  subst hw
  unfold parse_line
  dsimp only
  rw [hd]

theorem parse_line_LED (str : List Nat) (n : line_node) (s : RunState)
    (cmd : word_node) (args : List word_node) (hw : n.words = cmd :: args)
    (hd : dispatch s.inComment s.inString (str.drop cmd.str) cmd.len = Branch.LED) :
    parse_line str n s =
      some (finishLine
        { s with events := s.events ++
            [Event.setColor (asInt (argValue str args 0)) (asInt (argValue str args 1))
              (asInt (argValue str args 2))] }
        false (str.getD (n.str + n.len) 0 == 13 || str.getD (n.str + n.len) 0 == 10)) := by
  obtain ⟨nstr, nlen, nwords⟩ := n
  simp only at hw
  subst hw
  unfold parse_line
  dsimp only
  rw [hd]

theorem parse_line_KEYCODE (str : List Nat) (n : line_node) (s : RunState)
    (cmd : word_node) (args : List word_node) (hw : n.words = cmd :: args)
    (hd : dispatch s.inComment s.inString (str.drop cmd.str) cmd.len = Branch.KEYCODE) :
    parse_line str n s =
      match args with
      | [] => some (finishLine s false
          (str.getD (n.str + n.len) 0 == 13 || str.getD (n.str + n.len) 0 == 10))
      | _ :: _ =>
        some (finishLine
          { s with events := s.events ++
              [Event.send (argValue str args 0 % 256) 0
                ((List.range 6).map (fun i => argValue str args (i + 1) % 256)),
               Event.release] }
          false (str.getD (n.str + n.len) 0 == 13 || str.getD (n.str + n.len) 0 == 10)) := by
  obtain ⟨nstr, nlen, nwords⟩ := n
  simp only at hw
  subst hw
  unfold parse_line
  dsimp only
  rw [hd]
  cases args <;> rfl

theorem parse_line_REPEAT (str : List Nat) (n : line_node) (s : RunState)
    (cmd : word_node) (args : List word_node) (hw : n.words = cmd :: args)
    (hd : dispatch s.inComment s.inString (str.drop cmd.str) cmd.len = Branch.REPEAT) :
    parse_line str n s =
      some (finishLine
        { s with repeatNum := asInt ((toInt (str.drop (cmd.str + cmd.len + 1))
            ((n.len + 2 ^ 32 - cmd.len - 1) % 2 ^ 32) + 1) % 2 ^ 32) }
        true (str.getD (n.str + n.len) 0 == 13 || str.getD (n.str + n.len) 0 == 10)) := by
  obtain ⟨nstr, nlen, nwords⟩ := n
  simp only at hw
  subst hw
  unfold parse_line
  dsimp only
  rw [hd]

/-! ## End-to-end runs -/

theorem parseLoop_two (str : List Nat) (n1 n2 : line_node) (s sA sB : RunState)
    (h1 : parse_line str n1 s = some sA) (h2 : parse_line str n2 sA = some sB) :
    parseLoop str [n1, n2] s = some sB := by
  simp only [parseLoop, h1, h2]

/-- C12: for every text `t` free of CR, LF and NUL (the buffer fitting the
32-bit `size_t`), interpreting `STRING t`, line feed, `ENTER`, line feed from a
run state outside a comment and a string continuation makes exactly the calls
`write(t)`, `sleep(defaultDelay)`, `pressKey(KEY_ENTER)`, `release()`,
`sleep(defaultDelay)` in this order, and leaves `inString` false. -/
theorem parse_string_then_enter (t : List Nat) (s0 : RunState)
    (hclean : ∀ c ∈ t, c ≠ 13 ∧ c ≠ 10 ∧ c ≠ 0) (hsize : t.length + 14 < 2 ^ 32)
    (hS : s0.inString = false) (hC : s0.inComment = false) :
    ∃ s1, parse (bytes "STRING " ++ t ++ 10 :: (bytes "ENTER" ++ [10]))
        (bytes "STRING " ++ t ++ 10 :: (bytes "ENTER" ++ [10])).length s0 = some s1 ∧
      s1.events = s0.events ++
        [Event.write t, Event.sleep (asUnsigned s0.defaultDelay),
         Event.pressKey Key.KEY_ENTER, Event.release,
         Event.sleep (asUnsigned s0.defaultDelay)] ∧
      s1.inString = false := by
  obtain ⟨p0, iS, iC, dd, rn, ev⟩ := s0
  simp only at hS hC
  subst hS hC
  have hb7 : (bytes "STRING ").length = 7 := by decide
  have hS7 : ∀ c ∈ bytes "STRING ", c ≠ 13 ∧ c ≠ 10 ∧ c ≠ 0 := by decide
  have hsp : bytes "STRING " = bytes "STRING" ++ [32] := by decide
  have hl1 : (bytes "STRING " ++ t).length = 7 + t.length := by
    rw [List.length_append, hb7]
  have hne1 : bytes "STRING " ++ t ≠ [] := by
    intro h
    have := congrArg List.length h
    rw [hl1] at this
    simp at this
  have hc1 : ∀ c ∈ bytes "STRING " ++ t, c ≠ 13 ∧ c ≠ 10 ∧ c ≠ 0 := by
    intro c hc
    rcases List.mem_append.mp hc with h | h
    · exact hS7 c h
    · exact hclean c h
  have hlines := parse_lines_two (bytes "STRING " ++ t) (bytes "ENTER") 10 10 hne1 (by decide)
    hc1 (by decide) (Or.inr rfl) (Or.inr rfl)
  have hshape : bytes "STRING " ++ t ++ 10 :: (bytes "ENTER" ++ [10]) =
      bytes "STRING" ++ 32 :: (t ++ 10 :: (bytes "ENTER" ++ [10])) := by
    rw [hsp]; simp
  obtain ⟨ws, hws⟩ := parse_words_first_word (bytes "STRING")
    (t ++ 10 :: (bytes "ENTER" ++ [10])) (bytes "STRING " ++ t).length (by decide) (by decide)
    (by rw [hl1]; have : (bytes "STRING").length = 6 := by decide
        omega)
  rw [← hshape] at hws
  have hw2 : parse_words (bytes "ENTER" ++ [10]) (bytes "ENTER").length =
      [{ str := 0, len := 5 }] := by decide
  rw [hws, hw2] at hlines
  simp only [List.map_cons, List.map_nil] at hlines
  -- the first line
  have hd1 : dispatch false false
      (List.drop (0 + 0) (bytes "STRING " ++ t ++ 10 :: (bytes "ENTER" ++ [10])))
      (bytes "STRING").length = Branch.STRING := by
    rw [hshape]
    exact dispatch_table (bytes "STRING") _ ("STRING", Branch.STRING) (by decide) rfl
  have hend1 : (bytes "STRING " ++ t ++ 10 :: (bytes "ENTER" ++ [10])).getD
      (0 + (bytes "STRING " ++ t).length) 0 = 10 := by
    rw [Nat.zero_add]
    exact getD_at _ _ _
  have htext : spanText (bytes "STRING " ++ t ++ 10 :: (bytes "ENTER" ++ [10]))
      (0 + 0 + (bytes "STRING").length + 1)
      (((bytes "STRING " ++ t).length + 2 ^ 32 - (bytes "STRING").length - 1) % 2 ^ 32) = t := by
    have h6 : (bytes "STRING").length = 6 := by decide
    have hk : ((bytes "STRING " ++ t).length + 2 ^ 32 - (bytes "STRING").length - 1) % 2 ^ 32 =
        t.length := by
      rw [hl1, h6]
      norm_num at hsize ⊢
      omega
    rw [hk, h6]
    unfold spanText
    rw [List.append_assoc, show 0 + 0 + 6 + 1 = (bytes "STRING ").length from hb7.symm,
      List.drop_left, List.take_left]
  have hL1 := parse_line_STRING (bytes "STRING " ++ t ++ 10 :: (bytes "ENTER" ++ [10]))
    { str := 0, len := (bytes "STRING " ++ t).length,
      words := { str := 0 + 0, len := (bytes "STRING").length } ::
        ws.map (fun w => { w with str := 0 + w.str }) }
    { processing := true, inString := false, inComment := false, defaultDelay := dd,
      repeatNum := rn, events := ev } _ _ rfl hd1
  simp only [hend1, htext] at hL1
  -- the second line
  have hdrop : List.drop ((bytes "STRING " ++ t).length + 1 + 0)
      (bytes "STRING " ++ t ++ 10 :: (bytes "ENTER" ++ [10])) = bytes "ENTER" ++ [10] := by
    have e : bytes "STRING " ++ t ++ 10 :: (bytes "ENTER" ++ [10]) =
        (bytes "STRING " ++ t ++ [10]) ++ (bytes "ENTER" ++ [10]) := by simp
    have l : (bytes "STRING " ++ t).length + 1 + 0 = (bytes "STRING " ++ t ++ [10]).length := by
      simp
      omega
    rw [e, l, List.drop_left]
  have hend2 : (bytes "STRING " ++ t ++ 10 :: (bytes "ENTER" ++ [10])).getD
      ((bytes "STRING " ++ t).length + 1 + (bytes "ENTER").length) 0 = 10 := by
    have e : bytes "STRING " ++ t ++ 10 :: (bytes "ENTER" ++ [10]) =
        (bytes "STRING " ++ t ++ 10 :: bytes "ENTER") ++ 10 :: [] := by simp
    have l : (bytes "STRING " ++ t).length + 1 + (bytes "ENTER").length =
        (bytes "STRING " ++ t ++ 10 :: bytes "ENTER").length := by
      simp; omega
    rw [e, l]
    exact getD_at _ _ _
  have hd2 : dispatch false false (bytes "ENTER" ++ [10]) 5 = Branch.KEYS := by decide
  have hpress : press (bytes "ENTER" ++ [10]) 5 = Event.pressKey Key.KEY_ENTER := by decide
  have hL2 := fun (sA : RunState) (hA : sA.inComment = false) (hB : sA.inString = false) =>
    parse_line_KEYS (bytes "STRING " ++ t ++ 10 :: (bytes "ENTER" ++ [10]))
      { str := (bytes "STRING " ++ t).length + 1, len := (bytes "ENTER").length,
        words := [{ str := (bytes "STRING " ++ t).length + 1 + 0, len := 5 }] }
      sA _ _ rfl (by
        show dispatch sA.inComment sA.inString _ _ = Branch.KEYS
        rw [hA, hB, hdrop]; exact hd2)
  simp only [hend2, hdrop, hpress, List.map_cons, List.map_nil] at hL2
  unfold parse
  rw [hlines]
  rw [parseLoop_two _ _ _ _ _ _ hL1 (hL2 _ (by rw [finishLine_inComment])
    (by rw [finishLine_inString]; rfl))]
  refine ⟨_, rfl, ?_, ?_⟩
  · simp only [finishLine_events, finishLine_inString, finishLine_inComment,
      finishLine_defaultDelay]
    simp
  · simp only [finishLine_inString]
    rfl

/-- Witness for C12: the text `hello` from the initial run state. -/
theorem parse_string_then_enter_witness :
    ∃ s1, parse (bytes "STRING " ++ bytes "hello" ++ 10 :: (bytes "ENTER" ++ [10]))
        (bytes "STRING " ++ bytes "hello" ++ 10 :: (bytes "ENTER" ++ [10])).length
        RunState.init = some s1 ∧
      s1.events = RunState.init.events ++
        [Event.write (bytes "hello"), Event.sleep (asUnsigned RunState.init.defaultDelay),
         Event.pressKey Key.KEY_ENTER, Event.release,
         Event.sleep (asUnsigned RunState.init.defaultDelay)] ∧
      s1.inString = false :=
  parse_string_then_enter (bytes "hello") RunState.init (by decide) (by decide) rfl rfl

/-- A `sleep` of length 0 returns at once: no poll, no timestamp written. -/
theorem sleep_zero (clock : Nat → Nat) (fuel : Nat) (tm : Timer) :
    sleep clock fuel 0 tm = some tm := by
  unfold sleep
  simp

/-- C13 (failing input): interpreting `DEFAULTDELAY 0`, `CTRL ALT DELETE` from
the initial run state sets `defaultDelay` to 0 and presses the two modifiers,
but the key pressed for the word `DELETE` is `KEY_BACKSPACE`; then `release()`
and a `sleep(0)`, which polls nothing. -/
theorem parse_ctrl_alt_delete_presses_backspace :
    parse (bytes "DEFAULTDELAY 0\nCTRL ALT DELETE\n") 31 RunState.init =
      some { RunState.init with
        defaultDelay := 0,
        events := [Event.pressModifier Modifier.KEY_MOD_LCTRL,
                   Event.pressModifier Modifier.KEY_MOD_LALT,
                   Event.pressKey Key.KEY_BACKSPACE, Event.release, Event.sleep 0] } ∧
    press (bytes "DELETE") 6 = Event.pressKey Key.KEY_BACKSPACE ∧
    (∀ (clock : Nat → Nat) (fuel : Nat) (tm : Timer), sleep clock fuel 0 tm = some tm) :=
  ⟨by decide, by decide, sleep_zero⟩

/-! ## Lines by their first word -/

/-- The branch selected by a first word that reads as a keyword. -/
theorem dispatch_first_word (str : List Nat) (cmd : word_node) (w rest : List Nat)
    (p : String × Branch) (hcmd : str.drop cmd.str = w ++ rest) (hlen : cmd.len = w.length)
    (hp : p ∈ keywordTable) (hw : w.map to_lower = (bytes p.1).map to_lower) :
    dispatch false false (str.drop cmd.str) cmd.len = p.2 := by
  rw [hcmd, hlen]
  exact dispatch_table w rest p hp hw

theorem asInt_small (v : Nat) (h : v < 2 ^ 31) : asInt v = (v : Int) := by
  unfold asInt
  have h1 : v % 2 ^ 32 = v := Nat.mod_eq_of_lt (by omega)
  rw [h1, if_pos h]

theorem argValue_none (str : List Nat) (args : List word_node) (i : Nat)
    (h : args.length ≤ i) : argValue str args i = 0 := by
  unfold argValue
  rw [List.getElem?_eq_none h]

theorem argValue_some (str : List Nat) (args : List word_node) (i : Nat) (a : word_node)
    (h : args[i]? = some a) : argValue str args i = toInt (str.drop a.str) a.len := by
  unfold argValue
  rw [h]

/-- C14: for every line, outside a comment and a string continuation, whose
first word reads `LED`, `parse` makes exactly one `setColor` call, with the
`toInt` values (as `int`) of the first three words after `LED`, a missing word
giving 0 and further words being ignored, followed by the default delay; the
buffer `LED 10 0x1F 5` gives `setColor(10, 31, 5)`. -/
theorem parse_led_line (str : List Nat) (n : line_node) (s : RunState) (cmd : word_node)
    (args : List word_node) (w rest : List Nat)
    (hwords : n.words = cmd :: args) (hS : s.inString = false) (hC : s.inComment = false)
    (hcmd : str.drop cmd.str = w ++ rest) (hlen : cmd.len = w.length)
    (hled : w.map to_lower = (bytes "LED").map to_lower) :
    (∃ s1, parse_line str n s = some s1 ∧
      s1.events = s.events ++
        [Event.setColor (asInt (argValue str args 0)) (asInt (argValue str args 1))
          (asInt (argValue str args 2)),
         Event.sleep (asUnsigned s.defaultDelay)]) ∧
    (∀ i, args.length ≤ i → argValue str args i = 0) ∧
    (∀ i a, args[i]? = some a → argValue str args i = toInt (str.drop a.str) a.len) ∧
    (∀ v : Nat, v < 2 ^ 31 → asInt v = (v : Int)) ∧
    (parse (bytes "LED 10 0x1F 5\n") 14 RunState.init).map (fun s => s.events) =
      some [Event.setColor 10 31 5, Event.sleep 5] := by
  refine ⟨?_, argValue_none str args, argValue_some str args, asInt_small, by decide⟩
  have hd := dispatch_first_word str cmd w rest ("LED", Branch.LED) hcmd hlen (by decide) hled
  have hL := parse_line_LED str n s cmd args hwords (by rw [hS, hC]; exact hd)
  refine ⟨_, hL, ?_⟩
  rw [finishLine_events]
  simp [hS, hC]

/-- Witness for C14: the line of the buffer `LED 10 0x1F 5`. -/
theorem parse_led_line_witness :
    (∃ s1, parse_line ledBuffer ledLine RunState.init = some s1 ∧
      s1.events = RunState.init.events ++
        [Event.setColor (asInt (argValue ledBuffer ledLine.words.tail 0))
          (asInt (argValue ledBuffer ledLine.words.tail 1))
          (asInt (argValue ledBuffer ledLine.words.tail 2)),
         Event.sleep (asUnsigned RunState.init.defaultDelay)]) ∧
    (∀ i, ledLine.words.tail.length ≤ i → argValue ledBuffer ledLine.words.tail i = 0) ∧
    (∀ i a, ledLine.words.tail[i]? = some a →
      argValue ledBuffer ledLine.words.tail i = toInt (ledBuffer.drop a.str) a.len) ∧
    (∀ v : Nat, v < 2 ^ 31 → asInt v = (v : Int)) ∧
    (parse (bytes "LED 10 0x1F 5\n") 14 RunState.init).map (fun s => s.events) =
      some [Event.setColor 10 31 5, Event.sleep 5] :=
  parse_led_line ledBuffer ledLine RunState.init { str := 0, len := 3 } ledLine.words.tail
    (bytes "LED") (bytes " 10 0x1F 5\n") rfl rfl rfl (by decide) (by decide) (by decide)

/-- C15 (failing input): after the unterminated buffer `STRING abc` the flag
`inString` is set and `inComment` is not; the next buffer `DELAY 7` with its
line feed is then not typed: its first word is tested against `DELAY` before
`inString` is looked at, so the line sleeps 7 ms, nothing is written, and
`inString` stays set although the line ends on a line break. -/
theorem parse_string_continuation_runs_delay :
    parse (bytes "STRING abc") 10 RunState.init =
      some { RunState.init with inString := true, events := [Event.write (bytes "abc")] } ∧
    parse (bytes "DELAY 7\n") 8
        { RunState.init with inString := true, events := [Event.write (bytes "abc")] } =
      some { RunState.init with
        inString := true, events := [Event.write (bytes "abc"), Event.sleep 7] } ∧
    dispatch false true (bytes "DELAY 7\n") 5 = Branch.DELAY := by
  decide

/-- C16 (failing input): from the initial run state, the unterminated buffer
`STRING a` followed by the unterminated buffer `REM b` ends with `inString` and
`inComment` both set. -/
theorem parse_string_then_rem_sets_both_flags :
    parse (bytes "STRING a") 8 RunState.init =
      some { RunState.init with inString := true, events := [Event.write (bytes "a")] } ∧
    parse (bytes "REM b") 5
        { RunState.init with inString := true, events := [Event.write (bytes "a")] } =
      some { RunState.init with
        inString := true, inComment := true, events := [Event.write (bytes "a")] } := by
  decide

/-- C17 (as stated, refuted): a `KEYCODE` line without any argument sends no
report and makes no `release()` call; only the default delay follows. -/
theorem parse_keycode_alone_sends_nothing :
    parse (bytes "KEYCODE\n") 8 RunState.init =
      some { RunState.init with events := [Event.sleep 5] } := by
  decide

/-- A report byte of the `KEYCODE` branch: the `toInt` value mod 256 of the
argument word at that position, 0 when there is no such word. -/
theorem argValue_byte (str : List Nat) (args : List word_node) (i : Nat) :
    argValue str args i % 256 =
      (args.map (fun a => toInt (str.drop a.str) a.len % 256)).getD i 0 := by
  unfold argValue
  rw [List.getD_eq_getElem?_getD, List.getElem?_map]
  cases args[i]? <;> rfl

/-- C17 (amended): outside a comment and a string continuation (`inComment`
and `inString` both false), for every line whose first word reads `KEYCODE`:
with at least one argument word `parse` sends exactly one report and calls
`release()` right after.  Byte `i` of the report (0 the modifier byte, 1 to 6
the key bytes) is `toInt` of the `i`-th argument word mod 256, and 0 when the
line has no such word; the reserved byte is 0 and words after the seventh are
ignored.  With no argument word at all nothing is sent and nothing released.
The default delay follows in both cases.  `KEYCODE 0x102 10 300` sends the
modifier byte 2 and the keys 10, 44, 0, 0, 0, 0. -/
theorem parse_keycode_line (str : List Nat) (n : line_node) (s : RunState) (cmd : word_node)
    (args : List word_node) (w rest : List Nat)
    (hwords : n.words = cmd :: args) (hS : s.inString = false) (hC : s.inComment = false)
    (hcmd : str.drop cmd.str = w ++ rest) (hlen : cmd.len = w.length)
    (hkey : w.map to_lower = (bytes "KEYCODE").map to_lower) :
    (args ≠ [] → ∃ s1, parse_line str n s = some s1 ∧
      let b := fun i => (args.map (fun a => toInt (str.drop a.str) a.len % 256)).getD i 0
      s1.events = s.events ++
        [Event.send (b 0) 0 [b 1, b 2, b 3, b 4, b 5, b 6],
         Event.release, Event.sleep (asUnsigned s.defaultDelay)]) ∧
    (args = [] → ∃ s1, parse_line str n s = some s1 ∧
      s1.events = s.events ++ [Event.sleep (asUnsigned s.defaultDelay)]) ∧
    (parse (bytes "KEYCODE 1 2 3\n") 14 RunState.init).map (fun s => s.events) =
      some [Event.send 1 0 [2, 3, 0, 0, 0, 0], Event.release, Event.sleep 5] ∧
    (parse (bytes "KEYCODE 0x102 10 300\n") 21 RunState.init).map (fun s => s.events) =
      some [Event.send 2 0 [10, 44, 0, 0, 0, 0], Event.release, Event.sleep 5] ∧
    (parse (bytes "KEYCODE 11 12 13 14 15 16 17 18\n") 32 RunState.init).map
        (fun s => s.events) =
      some [Event.send 11 0 [12, 13, 14, 15, 16, 17], Event.release, Event.sleep 5] := by
  have hd := dispatch_first_word str cmd w rest ("KEYCODE", Branch.KEYCODE) hcmd hlen
    (by decide) hkey
  have hL := parse_line_KEYCODE str n s cmd args hwords (by rw [hS, hC]; exact hd)
  refine ⟨?_, ?_, by decide, by decide, by decide⟩
  · intro hne
    cases args with
    | nil => exact absurd rfl hne
    | cons a more =>
      refine ⟨_, hL, ?_⟩
      intro b
      rw [finishLine_events]
      have hb : ∀ i, argValue str (a :: more) i % 256 = b i := argValue_byte str (a :: more)
      simp only [hS, hC, List.range_succ, List.range_zero, List.nil_append, List.map_append,
        List.map_cons, List.map_nil, List.cons_append, hb]
      simp
  · intro hnil
    subst hnil
    refine ⟨_, hL, ?_⟩
    rw [finishLine_events]
    simp [hS, hC]

/-- Witness for C17: the line of the buffer `KEYCODE 0x102 10 300`. -/
theorem parse_keycode_line_witness :
    (keycodeLine.words.tail ≠ [] → ∃ s1, parse_line keycodeBuffer keycodeLine RunState.init =
        some s1 ∧
      let b := fun i => (keycodeLine.words.tail.map
        (fun a => toInt (keycodeBuffer.drop a.str) a.len % 256)).getD i 0
      s1.events = RunState.init.events ++
        [Event.send (b 0) 0 [b 1, b 2, b 3, b 4, b 5, b 6],
         Event.release, Event.sleep (asUnsigned RunState.init.defaultDelay)]) ∧
    (keycodeLine.words.tail = [] → ∃ s1, parse_line keycodeBuffer keycodeLine RunState.init =
        some s1 ∧
      s1.events = RunState.init.events ++
        [Event.sleep (asUnsigned RunState.init.defaultDelay)]) ∧
    (parse (bytes "KEYCODE 1 2 3\n") 14 RunState.init).map (fun s => s.events) =
      some [Event.send 1 0 [2, 3, 0, 0, 0, 0], Event.release, Event.sleep 5] ∧
    (parse (bytes "KEYCODE 0x102 10 300\n") 21 RunState.init).map (fun s => s.events) =
      some [Event.send 2 0 [10, 44, 0, 0, 0, 0], Event.release, Event.sleep 5] ∧
    (parse (bytes "KEYCODE 11 12 13 14 15 16 17 18\n") 32 RunState.init).map
        (fun s => s.events) =
      some [Event.send 11 0 [12, 13, 14, 15, 16, 17], Event.release, Event.sleep 5] :=
  parse_keycode_line keycodeBuffer keycodeLine RunState.init { str := 0, len := 7 }
    keycodeLine.words.tail (bytes "KEYCODE") (bytes " 0x102 10 300\n") rfl rfl rfl (by decide)
    (by decide) (by decide)

/-- C18 (failing input): `parse` dereferences a null pointer on a line made
only of spaces (no first word) and on a `LOCALE` line without a layout code
(no second word); an unrecognized layout code, in contrast, is absorbed
without any call. -/
theorem parse_faults_on_absent_word :
    parse (bytes " \n") 2 RunState.init = none ∧
    parse (bytes "LOCALE\n") 7 RunState.init = none ∧
    parse (bytes "LOCALE XX\n") 10 RunState.init = some RunState.init := by
  decide

/-- C19 (as stated, refuted): after the line `REPEAT 3` with its line feed,
from the initial run state, `getRepeats()` returns 3, not 4. -/
theorem parse_repeat_three_leaves_three :
    (parse (bytes "REPEAT 3\n") 9 RunState.init).map getRepeats = some 3 ∧
    (parse (bytes "REPEAT 3\n") 9 RunState.init).map getRepeats ≠ some 4 := by
  decide

/-- The lines of a buffer made of one non-empty line ended by a line break. -/
theorem parse_lines_one (line : List Nat) (b : Nat) (hne : line ≠ [])
    (hc : ∀ c ∈ line, c ≠ 13 ∧ c ≠ 10 ∧ c ≠ 0) (hb : b = 13 ∨ b = 10) :
    parse_lines (line ++ [b]) (line ++ [b]).length =
      [{ str := 0, len := line.length,
         words := (parse_words (line ++ [b]) line.length).map
           (fun w => { w with str := 0 + w.str }) }] := by
  have hlen : (line ++ [b]).length = line.length + 1 := by simp
  have h1 := parse_lines_fold_line [] line [] b (line.length + 1) { ls := 0, l := [] }
    hne hc hb rfl (by simp)
  simp only [List.nil_append, List.length_nil, Nat.zero_add] at h1
  unfold parse_lines
  rw [hlen, if_neg (by omega), List.range_eq_range',
    range_split 0 (line.length + 1) 1, List.foldl_append, h1, Nat.zero_add,
    List.range'_one, List.foldl_cons, List.foldl_nil]
  unfold parse_lines_step
  dsimp only
  simp

theorem parseLoop_one (str : List Nat) (n1 : line_node) (s sA : RunState)
    (h1 : parse_line str n1 s = some sA) : parseLoop str [n1] s = some sA := by
  simp only [parseLoop, h1]

/-- The `REPEAT` branch on a line whose first word is followed by a separator
and the argument text `t`, which fills the rest of the line's length. -/
theorem parse_line_repeat_value (str : List Nat) (n : line_node) (s : RunState)
    (cmd : word_node) (args : List word_node) (w rest t tail : List Nat)
    (hwords : n.words = cmd :: args) (hS : s.inString = false) (hC : s.inComment = false)
    (hcmd : str.drop cmd.str = w ++ rest) (hlen : cmd.len = w.length)
    (hrep : w.map to_lower = (bytes "REPEAT").map to_lower ∨
      w.map to_lower = (bytes "REPLAY").map to_lower)
    (harg : str.drop (cmd.str + cmd.len + 1) = t ++ tail)
    (hspan : n.len = cmd.len + 1 + t.length) (hsize : n.len < 2 ^ 32)
    (hsmall : toInt (t ++ tail) t.length + 1 < 2 ^ 31) :
    ∃ s1, parse_line str n s = some s1 ∧ s1.events = s.events ∧
      getRepeats s1 =
        if str.getD (n.str + n.len) 0 = 13 ∨ str.getD (n.str + n.len) 0 = 10 then
          (toInt (t ++ tail) t.length : Int)
        else (toInt (t ++ tail) t.length : Int) + 1 := by
  have hd : dispatch false false (str.drop cmd.str) cmd.len = Branch.REPEAT := by
    rcases hrep with h | h
    · exact dispatch_first_word str cmd w rest ("REPEAT", Branch.REPEAT) hcmd hlen
        (by decide) h
    · exact dispatch_first_word str cmd w rest ("REPLAY", Branch.REPEAT) hcmd hlen
        (by decide) h
  have hL := parse_line_REPEAT str n s cmd args hwords (by rw [hS, hC]; exact hd)
  have hlenarg : (n.len + 2 ^ 32 - cmd.len - 1) % 2 ^ 32 = t.length := by
    norm_num at hsize ⊢
    omega
  rw [hlenarg, harg] at hL
  generalize toInt (t ++ tail) t.length = v at hL hsmall ⊢
  have hmod : (v + 1) % 2 ^ 32 = v + 1 := Nat.mod_eq_of_lt (by omega)
  have hint : asInt ((v + 1) % 2 ^ 32) = ((v : Int) + 1) := by
    rw [hmod, asInt_small (v + 1) hsmall]
    push_cast
    rfl
  rw [hint] at hL
  refine ⟨_, hL, ?_, ?_⟩
  · rw [finishLine_events]
    simp
  · unfold getRepeats
    rw [finishLine_repeatNum]
    have hpos : ((v : Int) + 1 > 0) := by omega
    by_cases hle : str.getD (n.str + n.len) 0 = 13 ∨ str.getD (n.str + n.len) 0 = 10
    · rw [if_pos hle]
      have : (str.getD (n.str + n.len) 0 == 13 || str.getD (n.str + n.len) 0 == 10) = true := by
        simpa using hle
      rw [this]
      simp [hpos]
    · rw [if_neg hle]
      have : (str.getD (n.str + n.len) 0 == 13 || str.getD (n.str + n.len) 0 == 10) = false := by
        simpa using hle
      rw [this]
      simp

/-- The buffer `REPEAT t` or `REPLAY t` with its line feed, interpreted by
`parse` from a run state outside a comment and a string continuation. -/
theorem parse_repeat_buffer (kw t : List Nat) (s0 : RunState)
    (hkw : kw = bytes "REPEAT" ∨ kw = bytes "REPLAY")
    (hclean : ∀ c ∈ t, c ≠ 13 ∧ c ≠ 10 ∧ c ≠ 0) (hsize : t.length + 8 < 2 ^ 32)
    (hS : s0.inString = false) (hC : s0.inComment = false)
    (hsmall : toInt (t ++ [10]) t.length + 1 < 2 ^ 31) :
    ∃ s1, parse (kw ++ 32 :: t ++ [10]) (kw ++ 32 :: t ++ [10]).length s0 = some s1 ∧
      s1.events = s0.events ∧ getRepeats s1 = (toInt (t ++ [10]) t.length : Int) := by
  have hfacts : kw.length = 6 ∧ kw ≠ [] ∧ (∀ c ∈ kw, c ≠ 92 ∧ c ≠ 34 ∧ c ≠ 32) ∧
      (∀ c ∈ kw, c ≠ 13 ∧ c ≠ 10 ∧ c ≠ 0) ∧
      (kw.map to_lower = (bytes "REPEAT").map to_lower ∨
        kw.map to_lower = (bytes "REPLAY").map to_lower) := by
    rcases hkw with h | h <;> subst h <;> decide
  obtain ⟨hk6, hkne, hkplain, hkclean, hrep⟩ := hfacts
  have hll : (kw ++ 32 :: t).length = 7 + t.length := by
    rw [List.length_append, List.length_cons, hk6]
    omega
  have hne : kw ++ 32 :: t ≠ [] := by
    intro h
    have := congrArg List.length h
    rw [hll] at this
    simp at this
  have hc : ∀ c ∈ kw ++ 32 :: t, c ≠ 13 ∧ c ≠ 10 ∧ c ≠ 0 := by
    intro c hcm
    rcases List.mem_append.mp hcm with h | h
    · exact hkclean c h
    · rcases List.mem_cons.mp h with h | h
      · subst h
        decide
      · exact hclean c h
  have hlines := parse_lines_one (kw ++ 32 :: t) 10 hne hc (Or.inr rfl)
  have hshape : kw ++ 32 :: t ++ [10] = kw ++ 32 :: (t ++ [10]) := by simp
  obtain ⟨ws, hws⟩ := parse_words_first_word kw (t ++ [10]) (kw ++ 32 :: t).length hkne hkplain
    (by rw [hll, hk6]; omega)
  rw [← hshape] at hws
  rw [hws] at hlines
  simp only [List.map_cons] at hlines
  have hdrop : List.drop (0 + 0 + kw.length + 1) (kw ++ 32 :: t ++ [10]) = t ++ [10] := by
    have e : kw ++ 32 :: t ++ [10] = (kw ++ [32]) ++ (t ++ [10]) := by simp
    have l : 0 + 0 + kw.length + 1 = (kw ++ [32]).length := by simp
    rw [e, l, List.drop_left]
  have hend : (kw ++ 32 :: t ++ [10]).getD (0 + (kw ++ 32 :: t).length) 0 = 10 := by
    rw [Nat.zero_add]
    exact getD_at _ _ _
  obtain ⟨s1, hrun, hev, hrep1⟩ := parse_line_repeat_value (kw ++ 32 :: t ++ [10])
    { str := 0, len := (kw ++ 32 :: t).length,
      words := { str := 0 + 0, len := kw.length } ::
        ws.map (fun w => { w with str := 0 + w.str }) }
    { s0 with processing := true } { str := 0 + 0, len := kw.length } _ kw (32 :: (t ++ [10]))
    t [10] rfl hS hC (by rw [hshape]; rfl) rfl hrep hdrop
    (by show (kw ++ 32 :: t).length = kw.length + 1 + t.length
        rw [hll, hk6])
    (by show (kw ++ 32 :: t).length < 2 ^ 32
        rw [hll]; omega)
    hsmall
  dsimp only at hrep1
  rw [hend, if_pos (Or.inr rfl)] at hrep1
  unfold parse
  rw [hlines, parseLoop_one _ _ _ _ hrun]
  exact ⟨_, rfl, hev, hrep1⟩

/-- The text of a decimal numeral, most significant digit first, has the
numeral's value under `toInt`. -/
theorem toInt_numeral (ds rest : List Nat) (hd : ∀ d ∈ ds, d < 10) :
    toInt (ds.map (fun d => d + 48) ++ rest) (ds.map (fun d => d + 48)).length =
      Nat.ofDigits 10 ds.reverse % 2 ^ 32 := by
  have hdig : decimalDigits (ds.map (fun d => d + 48)) = ds := by
    unfold decimalDigits
    have hf : (ds.map (fun d => d + 48)).filter isDigit = ds.map (fun d => d + 48) := by
      rw [List.filter_eq_self]
      intro c hc
      obtain ⟨d, hdm, rfl⟩ := List.mem_map.mp hc
      have := hd d hdm
      simp [isDigit]
      omega
    rw [hf, List.map_map]
    have hid : ((fun c => c - 48) ∘ fun d => d + 48) = (id : Nat → Nat) := by
      funext d
      simp
    rw [hid, List.map_id]
  have hpath : ¬ ((ds.map (fun d => d + 48)).length > 2 ∧
      (ds.map (fun d => d + 48)).take 2 = [48, 120]) := by
    rintro ⟨_, h2⟩
    match ds, hd, h2 with
    | a :: b :: _, hd, h2 =>
      have hb := hd b (by simp)
      simp at h2
      omega
  rw [toInt_decimal_value _ rest hpath, hdig]

/-- The buffer `REPEAT n` or `REPLAY n` with its line feed, `n` written as a
decimal numeral. -/
theorem parse_repeat_numeral (kw ds : List Nat) (s0 : RunState)
    (hkw : kw = bytes "REPEAT" ∨ kw = bytes "REPLAY")
    (hd : ∀ d ∈ ds, d < 10) (hsize : ds.length + 8 < 2 ^ 32)
    (hS : s0.inString = false) (hC : s0.inComment = false)
    (hsmall : Nat.ofDigits 10 ds.reverse + 1 < 2 ^ 31) :
    ∃ s1, parse (kw ++ 32 :: ds.map (fun d => d + 48) ++ [10])
        (kw ++ 32 :: ds.map (fun d => d + 48) ++ [10]).length s0 = some s1 ∧
      s1.events = s0.events ∧ getRepeats s1 = ((Nat.ofDigits 10 ds.reverse : Nat) : Int) := by
  have hval := toInt_numeral ds [10] hd
  rw [Nat.mod_eq_of_lt (by omega)] at hval
  have hclean : ∀ c ∈ ds.map (fun d => d + 48), c ≠ 13 ∧ c ≠ 10 ∧ c ≠ 0 := by
    intro c hc
    obtain ⟨d, hdm, rfl⟩ := List.mem_map.mp hc
    omega
  have h := parse_repeat_buffer kw (ds.map (fun d => d + 48)) s0 hkw hclean
    (by rw [List.length_map]; exact hsize) hS hC (by rw [hval]; exact hsmall)
  rw [hval] at h
  exact h

/-- C19 (amended): outside a comment and a string continuation (`inComment`
and `inString` both false), for every line whose first word reads `REPEAT` or
`REPLAY` and is followed by a separator and an argument text `t` that fills the
rest of the line's length, with `toInt` value `v` and `v + 1 < 2^31`: `parse`
makes no call at all (no keystroke, no sleep), sets the counter to `v + 1` and,
when the line ends on a line break, itself decrements it once, so that
`getRepeats()` returns `v`; on a line not ended by a line break it returns
`v + 1`.  In particular, interpreting the single line `REPEAT t` (or
`REPLAY t`) with its line feed leaves `getRepeats()` at the `toInt` value of
the argument text `t`, which for a decimal numeral `n` with `n + 1 < 2^31` is
`n`: `REPEAT 3` leaves 3, not 4. -/
theorem parse_repeat_line (str : List Nat) (n : line_node) (s : RunState) (cmd : word_node)
    (args : List word_node) (w rest t tail : List Nat)
    (hwords : n.words = cmd :: args) (hS : s.inString = false) (hC : s.inComment = false)
    (hcmd : str.drop cmd.str = w ++ rest) (hlen : cmd.len = w.length)
    (hrep : w.map to_lower = (bytes "REPEAT").map to_lower ∨
      w.map to_lower = (bytes "REPLAY").map to_lower)
    (harg : str.drop (cmd.str + cmd.len + 1) = t ++ tail)
    (hspan : n.len = cmd.len + 1 + t.length) (hsize : n.len < 2 ^ 32)
    (hsmall : toInt (t ++ tail) t.length + 1 < 2 ^ 31) :
    (∃ s1, parse_line str n s = some s1 ∧ s1.events = s.events ∧
      getRepeats s1 =
        if str.getD (n.str + n.len) 0 = 13 ∨ str.getD (n.str + n.len) 0 = 10 then
          (toInt (t ++ tail) t.length : Int)
        else (toInt (t ++ tail) t.length : Int) + 1) ∧
    (∀ (kw u : List Nat) (s0 : RunState), (kw = bytes "REPEAT" ∨ kw = bytes "REPLAY") →
      (∀ c ∈ u, c ≠ 13 ∧ c ≠ 10 ∧ c ≠ 0) → u.length + 8 < 2 ^ 32 →
      s0.inString = false → s0.inComment = false →
      toInt (u ++ [10]) u.length + 1 < 2 ^ 31 →
      ∃ s1, parse (kw ++ 32 :: u ++ [10]) (kw ++ 32 :: u ++ [10]).length s0 = some s1 ∧
        s1.events = s0.events ∧ getRepeats s1 = (toInt (u ++ [10]) u.length : Int)) ∧
    (∀ (kw ds : List Nat) (s0 : RunState), (kw = bytes "REPEAT" ∨ kw = bytes "REPLAY") →
      (∀ d ∈ ds, d < 10) → ds.length + 8 < 2 ^ 32 →
      s0.inString = false → s0.inComment = false →
      Nat.ofDigits 10 ds.reverse + 1 < 2 ^ 31 →
      ∃ s1, parse (kw ++ 32 :: ds.map (fun d => d + 48) ++ [10])
          (kw ++ 32 :: ds.map (fun d => d + 48) ++ [10]).length s0 = some s1 ∧
        s1.events = s0.events ∧ getRepeats s1 = ((Nat.ofDigits 10 ds.reverse : Nat) : Int)) ∧
    parse (bytes "REPEAT 3\n") 9 RunState.init = some { RunState.init with repeatNum := 3 } ∧
    parse (bytes "REPLAY 12\n") 10 RunState.init = some { RunState.init with repeatNum := 12 } ∧
    parse (bytes "REPEAT 3") 8 RunState.init = some { RunState.init with repeatNum := 4 } :=
  ⟨parse_line_repeat_value str n s cmd args w rest t tail hwords hS hC hcmd hlen hrep harg
      hspan hsize hsmall,
    parse_repeat_buffer, parse_repeat_numeral, by decide, by decide, by decide⟩

/-- Witness for C19: the line of the buffer `REPEAT 3`. -/
theorem parse_repeat_line_witness :
    (∃ s1, parse_line repeatBuffer repeatLine RunState.init = some s1 ∧
      s1.events = RunState.init.events ∧
      getRepeats s1 =
        if repeatBuffer.getD (repeatLine.str + repeatLine.len) 0 = 13 ∨
            repeatBuffer.getD (repeatLine.str + repeatLine.len) 0 = 10 then
          (toInt (bytes "3" ++ [10]) (bytes "3").length : Int)
        else (toInt (bytes "3" ++ [10]) (bytes "3").length : Int) + 1) ∧
    (∀ (kw u : List Nat) (s0 : RunState), (kw = bytes "REPEAT" ∨ kw = bytes "REPLAY") →
      (∀ c ∈ u, c ≠ 13 ∧ c ≠ 10 ∧ c ≠ 0) → u.length + 8 < 2 ^ 32 →
      s0.inString = false → s0.inComment = false →
      toInt (u ++ [10]) u.length + 1 < 2 ^ 31 →
      ∃ s1, parse (kw ++ 32 :: u ++ [10]) (kw ++ 32 :: u ++ [10]).length s0 = some s1 ∧
        s1.events = s0.events ∧ getRepeats s1 = (toInt (u ++ [10]) u.length : Int)) ∧
    (∀ (kw ds : List Nat) (s0 : RunState), (kw = bytes "REPEAT" ∨ kw = bytes "REPLAY") →
      (∀ d ∈ ds, d < 10) → ds.length + 8 < 2 ^ 32 →
      s0.inString = false → s0.inComment = false →
      Nat.ofDigits 10 ds.reverse + 1 < 2 ^ 31 →
      ∃ s1, parse (kw ++ 32 :: ds.map (fun d => d + 48) ++ [10])
          (kw ++ 32 :: ds.map (fun d => d + 48) ++ [10]).length s0 = some s1 ∧
        s1.events = s0.events ∧ getRepeats s1 = ((Nat.ofDigits 10 ds.reverse : Nat) : Int)) ∧
    parse (bytes "REPEAT 3\n") 9 RunState.init = some { RunState.init with repeatNum := 3 } ∧
    parse (bytes "REPLAY 12\n") 10 RunState.init = some { RunState.init with repeatNum := 12 } ∧
    parse (bytes "REPEAT 3") 8 RunState.init = some { RunState.init with repeatNum := 4 } :=
  parse_repeat_line repeatBuffer repeatLine RunState.init { str := 0, len := 6 }
    repeatLine.words.tail (bytes "REPEAT") (bytes " 3\n") (bytes "3") [10] rfl rfl rfl
    (by decide) (by decide) (Or.inl (by decide)) (by decide) (by decide) (by decide) (by decide)

/-- C20 (failing input): with `interpretTime` 1000 and a clock that reads 1000
at both readings on entry, `sleep(5)` records the start 1000 and the deadline
1005; `getDelayTime()` then adds the start to the deadline again: at clock
value 1002 it returns 1003 (3 ms remain), at 1006 it returns 999 (the wait is
over). -/
theorem getDelayTime_adds_start_twice :
    sleep (fun k => 1000 + (k - 1)) 10 5
        { interpretTime := 1000, sleepStartTime := 0, sleepTime := 0, polls := 0 } =
      some { interpretTime := 1000, sleepStartTime := 1000, sleepTime := 1005, polls := 4 } ∧
    getDelayTime
        { interpretTime := 1000, sleepStartTime := 1000, sleepTime := 1005, polls := 4 } 1002
      = 1003 ∧
    getDelayTime
        { interpretTime := 1000, sleepStartTime := 1000, sleepTime := 1005, polls := 4 } 1006
      = 999 := by
  decide

/-- The example lines are what the tokenizer returns for the example buffers. -/
theorem example_lines_tokenized :
    parse_lines ledBuffer ledBuffer.length = [ledLine] ∧
    parse_lines keycodeBuffer keycodeBuffer.length = [keycodeLine] ∧
    parse_lines repeatBuffer repeatBuffer.length = [repeatLine] := by
  decide

/-! ## The matcher on a template with a slash -/

theorem matchOpt_iff (cs : Nat) (S : List Nat) :
    ∀ (P w : List Nat), matchOpt cs w P S = true ↔
      matchFrom cs w P = true ∨ matchFrom cs w (P ++ S) = true := by
  intro P
  induction P with
  | nil =>
    intro w
    cases w with
    | nil => simp [matchOpt, matchFrom]
    | cons u us => simp [matchOpt, matchFrom]
  | cons p ps ih =>
    intro w
    cases w with
    | nil => simp [matchOpt, matchFrom]
    | cons u us =>
      have := ih us
      simp only [matchOpt, matchFrom, List.cons_append, Bool.and_eq_true, this]
      tauto

theorem compareSkip_slash (t : List Nat) (s : CmpState) (h47 : t.getD s.b 0 = 47) :
    compareSkip t s = { a := s.a, b := s.b + 1, res := s.res } := by
  unfold compareSkip
  rw [if_pos h47]

theorem no_comma_from (t Pre M : List Nat) (ht : t = Pre ++ M) (hM : ∀ x ∈ M, x ≠ 44) :
    ∀ k, Pre.length ≤ k → k < t.length → t.getD k 0 ≠ 44 := by
  intro k hk1 hk2
  obtain ⟨j, rfl⟩ : ∃ j, k = Pre.length + j := ⟨k - Pre.length, by omega⟩
  have hj : j < M.length := by
    rw [ht, List.length_append] at hk2
    omega
  have hmid := getD_mid Pre M [] j hj
  rw [List.append_nil] at hmid
  rw [ht, hmid]
  exact hM _ (getD_mem M j hj)

/-- Abandoning an alternative after which the template has no comma ends the
loop with the word not consumed: UNEQUAL. -/
theorem compare_abandon_end (user : List Nat) (sl : Nat) (t : List Nat) (cs : Nat)
    (a b : Nat) (hb : b < t.length)
    (hnc : ∀ k, b ≤ k → k < t.length → t.getD k 0 ≠ 44) (ha : a < sl)
    (hbody : compareBody user sl t t.length cs { a := a, b := b, res := 1 } =
      { a := a, b := fastForward t t.length (t.length - b) b, res := 1 }) :
    cmpFinish t sl (compareRun user sl t t.length cs { a := a, b := b, res := 1 }) = 0 := by
  rw [compareRun_step user sl t t.length cs _ ⟨ha, hb⟩, hbody,
    fastForward_eq t t.length (t.length - b) b t.length (by omega) (Nat.le_refl _)
      (Nat.le_refl _) hnc (Or.inl rfl),
    compareRun_stop _ _ _ _ _ _ (by simp)]
  unfold cmpFinish
  rw [if_neg]
  · rfl
  · intro hh
    have := hh.2.1
    simp only at this
    omega

/-- Running the loop from inside the part before the slash of a template
`P/S`: EQUAL exactly when the rest of the word agrees with the rest of `P`, or
with the rest of `P` followed by `S`. -/
theorem compare_slash_alt (cs : Nat) (rest S : List Nat) (hS : S ≠ [])
    (hSc : ∀ x ∈ S, x ≠ 44 ∧ x ≠ 47 ∧ x ≠ 0) :
    ∀ (more Pre W : List Nat) (u c : Nat) (wmore user t : List Nat) (sl : Nat),
      (c ≠ 44 ∧ c ≠ 47 ∧ c ≠ 0) → (∀ x ∈ more, x ≠ 44 ∧ x ≠ 47 ∧ x ≠ 0) →
      t = Pre ++ c :: (more ++ 47 :: S) → user = W ++ u :: (wmore ++ rest) →
      sl = W.length + 1 + wmore.length →
      cmpFinish t sl (compareRun user sl t t.length cs
          { a := W.length, b := Pre.length, res := 1 }) =
        if matchOpt cs (u :: wmore) (c :: more) S = true then 1 else 0 := by
  obtain ⟨c3, more3, rfl⟩ : ∃ c3 more3, S = c3 :: more3 := by
    cases S with
    | nil => exact absurd rfl hS
    | cons c3 more3 => exact ⟨c3, more3, rfl⟩
  have hc3 := hSc c3 (by simp)
  have hmore3 : ∀ x ∈ more3, x ≠ 44 ∧ x ≠ 47 ∧ x ≠ 0 :=
    fun x hx => hSc x (List.mem_cons_of_mem _ hx)
  intro more
  induction more with
  | nil =>
    intro Pre W u c wmore user t sl hc _ ht hu hsl
    have htb : t.getD Pre.length 0 = c := by rw [ht]; exact getD_at _ _ _
    have hua : user.getD W.length 0 = u := by rw [hu]; exact getD_at _ _ _
    have hlen : Pre.length < t.length := by rw [ht]; simp
    have ha : W.length < sl := by omega
    have h44 : t.getD Pre.length 0 ≠ 44 := by rw [htb]; exact hc.1
    have h47 : t.getD Pre.length 0 ≠ 47 := by rw [htb]; exact hc.2.1
    have hnc := no_comma_from t Pre (c :: ([] ++ 47 :: c3 :: more3)) ht (by
      intro x hx
      simp only [List.nil_append, List.mem_cons] at hx
      rcases hx with h | h | h | h
      · rw [h]; exact hc.1
      · rw [h]; decide
      · rw [h]; exact hc3.1
      · exact (hmore3 x h).1)
    have htb1 : t.getD (Pre.length + 1) 0 = 47 := by rw [ht, getD_at_succ]; rfl
    by_cases hd : charDiffers cs u c = true
    · have hm : matchOpt cs (u :: wmore) [c] (c3 :: more3) = false := by
        simp [matchOpt, hd]
      rw [hm, if_neg (by simp)]
      apply compare_abandon_end user sl t cs _ _ hlen hnc ha
      apply compareBody_mismatch _ _ _ _ _ _ h44 h47
      show charDiffers cs (user.getD W.length 0) (t.getD Pre.length 0) = true
      rw [hua, htb]; exact hd
    · have hd2 : charDiffers cs u c = false := by simpa using hd
      have hadv : compareBody user sl t t.length cs
          { a := W.length, b := Pre.length, res := 1 } =
          { a := W.length + 1, b := Pre.length + 1, res := 1 } := by
        apply compareBody_advance _ _ _ _ _ _ h44 h47 _ rfl
        · right; right; left
          exact htb1
        · show charDiffers cs (user.getD W.length 0) (t.getD Pre.length 0) = false
          rw [hua, htb]; exact hd2
      rw [compareRun_step user sl t t.length cs _ ⟨ha, hlen⟩, hadv]
      cases wmore with
      | nil =>
        have hm : matchOpt cs [u] [c] (c3 :: more3) = true := by simp [matchOpt, hd2]
        rw [hm, if_pos rfl]
        have hsl2 : sl = W.length + 1 := by simpa using hsl
        rw [compareRun_stop _ _ _ _ _ _ (by simp [hsl2])]
        unfold cmpFinish
        rw [if_pos]
        · rfl
        · exact ⟨by simp, by simp [hsl2], Or.inr (Or.inl htb1)⟩
      | cons u2 wm =>
        have hm : matchOpt cs (u :: u2 :: wm) [c] (c3 :: more3) =
            matchFrom cs (u2 :: wm) (c3 :: more3) := by
          simp [matchOpt, hd2]
        rw [hm]
        have ha2 : W.length + 1 < sl := by simp at hsl; omega
        have hlen1 : Pre.length + 1 < t.length := by rw [ht]; simp
        have hlen2 : Pre.length + 1 + 1 < t.length := by rw [ht]; simp; omega
        have htb2 : t.getD (Pre.length + 1 + 1) 0 = c3 := by
          have e : t = (Pre ++ [c, 47]) ++ c3 :: more3 := by rw [ht]; simp
          have l : (Pre ++ [c, 47]).length = Pre.length + 1 + 1 := by simp
          rw [← l, e]
          exact getD_at _ _ _
        -- the round that skips the slash is the first round on the part after it
        rw [compareRun_step user sl t t.length cs
          { a := W.length + 1, b := Pre.length + 1, res := 1 } ⟨ha2, hlen1⟩]
        rw [compareBody_congr user sl t t.length cs
          { a := W.length + 1, b := Pre.length + 1, res := 1 }
          { a := W.length + 1, b := Pre.length + 1 + 1, res := 1 }
          (by
            rw [compareSkip_slash t _ htb1, compareSkip_plain t _
              (by simp only; rw [htb2]; exact hc3.1) (by simp only; rw [htb2]; exact hc3.2.1)])]
        rw [← compareRun_step user sl t t.length cs
          { a := W.length + 1, b := Pre.length + 1 + 1, res := 1 } ⟨ha2, hlen2⟩]
        have key := compare_alternative cs rest [] (Or.inl rfl) more3 (Pre ++ [c, 47])
          (W ++ [u]) u2 c3 wm user t sl hc3 hmore3 (by rw [ht]; simp) (by rw [hu]; simp)
          (by simp at hsl ⊢; omega)
        have e1 : (Pre ++ [c, 47]).length = Pre.length + 1 + 1 := by simp
        have e2 : (W ++ [u]).length = W.length + 1 := by simp
        rw [e1, e2] at key
        rw [key]
        simp
  | cons c2 more2 ih =>
    intro Pre W u c wmore user t sl hc hmore ht hu hsl
    have htb : t.getD Pre.length 0 = c := by rw [ht]; exact getD_at _ _ _
    have hua : user.getD W.length 0 = u := by rw [hu]; exact getD_at _ _ _
    have hlen : Pre.length < t.length := by rw [ht]; simp
    have ha : W.length < sl := by omega
    have h44 : t.getD Pre.length 0 ≠ 44 := by rw [htb]; exact hc.1
    have h47 : t.getD Pre.length 0 ≠ 47 := by rw [htb]; exact hc.2.1
    have hc2 : c2 ≠ 44 ∧ c2 ≠ 47 ∧ c2 ≠ 0 := hmore c2 (by simp)
    have htb1 : t.getD (Pre.length + 1) 0 = c2 := by rw [ht, getD_at_succ]; rfl
    have hnc := no_comma_from t Pre (c :: (c2 :: more2 ++ 47 :: c3 :: more3)) ht (by
      intro x hx
      simp only [List.mem_cons, List.mem_append] at hx
      rcases hx with h | (h | h) | h | h | h
      · rw [h]; exact hc.1
      · rw [h]; exact hc2.1
      · exact (hmore x (List.mem_cons_of_mem _ h)).1
      · rw [h]; decide
      · rw [h]; exact hc3.1
      · exact (hmore3 x h).1)
    by_cases hd : charDiffers cs u c = true
    · have hm : matchOpt cs (u :: wmore) (c :: c2 :: more2) (c3 :: more3) = false := by
        simp [matchOpt, hd]
      rw [hm, if_neg (by simp)]
      apply compare_abandon_end user sl t cs _ _ hlen hnc ha
      apply compareBody_mismatch _ _ _ _ _ _ h44 h47
      show charDiffers cs (user.getD W.length 0) (t.getD Pre.length 0) = true
      rw [hua, htb]; exact hd
    · have hd2 : charDiffers cs u c = false := by simpa using hd
      cases wmore with
      | nil =>
        have hm : matchOpt cs [u] (c :: c2 :: more2) (c3 :: more3) = false := by
          simp [matchOpt]
        rw [hm, if_neg (by simp)]
        apply compare_abandon_end user sl t cs _ _ hlen hnc ha
        apply compareBody_short _ _ _ _ _ _ h44 h47
        · show W.length = sl - 1
          simp at hsl; omega
        · show t.getD (Pre.length + 1) 0 ≠ 44 ∧ t.getD (Pre.length + 1) 0 ≠ 47 ∧
            t.getD (Pre.length + 1) 0 ≠ 0
          rw [htb1]; exact hc2
      | cons u2 wm =>
        have hadv : compareBody user sl t t.length cs
            { a := W.length, b := Pre.length, res := 1 } =
            { a := W.length + 1, b := Pre.length + 1, res := 1 } := by
          apply compareBody_advance _ _ _ _ _ _ h44 h47 _ rfl
          · left
            show W.length ≠ sl - 1
            simp at hsl; omega
          · show charDiffers cs (user.getD W.length 0) (t.getD Pre.length 0) = false
            rw [hua, htb]; exact hd2
        rw [compareRun_step user sl t t.length cs _ ⟨ha, hlen⟩, hadv]
        have hm : matchOpt cs (u :: u2 :: wm) (c :: c2 :: more2) (c3 :: more3) =
            matchOpt cs (u2 :: wm) (c2 :: more2) (c3 :: more3) := by
          simp [matchOpt, hd2]
        rw [hm]
        have key := ih (Pre ++ [c]) (W ++ [u]) u2 c2 wm user t sl hc2
          (fun x hx => hmore x (List.mem_cons_of_mem _ hx))
          (by rw [ht]; simp) (by rw [hu]; simp) (by simp at hsl ⊢; omega)
        have e2 : (Pre ++ [c]).length = Pre.length + 1 := by simp
        have e3 : (W ++ [u]).length = W.length + 1 := by simp
        rw [e2, e3] at key
        exact key

theorem wordEq_length (cs : Nat) (w x : List Nat) (h : wordEq cs w x) :
    w.length = x.length :=
  matchFrom_length cs w x ((matchFrom_iff_wordEq cs w x).mpr h)

/-- Value of `compare` on a template `P/S`. -/
theorem compare_slash_value (P S w rest : List Nat) (cs : Nat) (hP : P ≠ []) (hS : S ≠ [])
    (hPc : ∀ c ∈ P, c ≠ 44 ∧ c ≠ 47 ∧ c ≠ 0) (hSc : ∀ c ∈ S, c ≠ 44 ∧ c ≠ 47 ∧ c ≠ 0) :
    compare (w ++ rest) w.length (P ++ 47 :: S) cs =
      if wordEq cs w P ∨ wordEq cs w (P ++ S) ∨ wordEq cs w (P ++ 47 :: S)
      then COMPARE_EQUAL else COMPARE_UNEQUAL := by
  have hnz : ∀ c ∈ P ++ 47 :: S, c ≠ 0 := by
    intro c hc
    rcases List.mem_append.mp hc with h | h
    · exact (hPc c h).2.2
    · rcases List.mem_cons.mp h with h | h
      · rw [h]; decide
      · exact (hSc c h).2.2
  have hsl := strlen_eq_length _ hnz
  have hlt : (P ++ 47 :: S).length = P.length + 1 + S.length := by simp; omega
  have hSpos : 0 < S.length := List.length_pos.mpr hS
  have hPpos : 0 < P.length := List.length_pos.mpr hP
  have hPS : (P ++ S).length = P.length + S.length := by simp
  rcases Nat.lt_trichotomy w.length (P ++ 47 :: S).length with hl | he | hg
  · have h3 : ¬ wordEq cs w (P ++ 47 :: S) := fun h => by
      have := wordEq_length cs w _ h
      omega
    obtain ⟨c, more, rfl⟩ : ∃ c more, P = c :: more := by
      cases P with
      | nil => exact absurd rfl hP
      | cons c more => exact ⟨c, more, rfl⟩
    have hc := hPc c (by simp)
    rw [compare_lt _ _ _ _ (by rw [hsl]; exact hl), hsl]
    cases w with
    | nil =>
      rw [compareRun_stop _ _ _ _ _ _ (by simp)]
      have hrhs : ¬ (wordEq cs [] (c :: more) ∨ wordEq cs [] (c :: more ++ S) ∨
          wordEq cs [] (c :: more ++ 47 :: S)) := by
        rintro (h | h | h) <;> have := wordEq_length cs [] _ h <;> simp at this
      rw [if_neg hrhs]
      unfold cmpFinish
      rw [if_neg]
      rintro ⟨_, _, h⟩
      simp only [List.cons_append, List.getD_cons_zero] at h
      rcases h with h | h | h
      · exact hc.1 h
      · exact hc.2.1 h
      · exact hc.2.2 h
    | cons u wmore =>
      have key := compare_slash_alt cs rest S hS hSc more [] [] u c wmore
        (u :: wmore ++ rest) (c :: more ++ 47 :: S) (u :: wmore).length hc
        (fun x hx => hPc x (List.mem_cons_of_mem _ hx)) (by simp) (by simp) (by simp; omega)
      simp only [List.length_nil] at key
      rw [key]
      have hiff : matchOpt cs (u :: wmore) (c :: more) S = true ↔
          (wordEq cs (u :: wmore) (c :: more) ∨ wordEq cs (u :: wmore) (c :: more ++ S) ∨
            wordEq cs (u :: wmore) (c :: more ++ 47 :: S)) := by
        rw [matchOpt_iff, matchFrom_iff_wordEq, matchFrom_iff_wordEq]
        constructor
        · rintro (h | h)
          · exact Or.inl h
          · exact Or.inr (Or.inl h)
        · rintro (h | h | h)
          · exact Or.inl h
          · exact Or.inr h
          · exact absurd h h3
      by_cases h : matchOpt cs (u :: wmore) (c :: more) S = true
      · rw [if_pos h, if_pos (hiff.mp h)]; rfl
      · rw [if_neg h, if_neg (fun hh => h (hiff.mpr hh))]; rfl
  · rw [compare_eq_len w rest _ cs (by rw [hsl]; exact he), hsl, List.take_length]
    have hiff : matchFrom cs w (P ++ 47 :: S) = true ↔
        (wordEq cs w P ∨ wordEq cs w (P ++ S) ∨ wordEq cs w (P ++ 47 :: S)) := by
      rw [matchFrom_iff_wordEq]
      constructor
      · intro h; exact Or.inr (Or.inr h)
      · rintro (h | h | h)
        · have := wordEq_length cs w _ h
          omega
        · have := wordEq_length cs w _ h
          omega
        · exact h
    by_cases h : matchFrom cs w (P ++ 47 :: S) = true
    · rw [if_pos h, if_pos (hiff.mp h)]
    · rw [if_neg h, if_neg (fun hh => h (hiff.mpr hh))]
  · rw [compare_gt _ _ _ _ (by rw [hsl]; exact hg)]
    have hrhs : ¬ (wordEq cs w P ∨ wordEq cs w (P ++ S) ∨ wordEq cs w (P ++ 47 :: S)) := by
      rintro (h | h | h) <;> have := wordEq_length cs w _ h <;> omega
    rw [if_neg hrhs]

/-- C2 (amended): in a template `A/B`, with `A` and `B` non-empty and free of
`,`, `/` and NUL, the spelling `B` written after the slash matches on its own
only when it is also `A`: for a word that equals `B` under the comparison mode,
`compare` returns EQUAL exactly when the word equals `A` under that mode, and
UNEQUAL otherwise.  `LEFT` against `LEFTARROW/LEFT` is UNEQUAL in the
case-sensitive mode, and `left` is UNEQUAL in both modes. -/
theorem compare_slash_second_spelling_alone (A B w rest : List Nat) (cs : Nat)
    (hA : A ≠ []) (hB : B ≠ [])
    (hAc : ∀ c ∈ A, c ≠ 44 ∧ c ≠ 47 ∧ c ≠ 0) (hBc : ∀ c ∈ B, c ≠ 44 ∧ c ≠ 47 ∧ c ≠ 0)
    (hw : wordEq cs w B) :
    (compare (w ++ rest) w.length (A ++ 47 :: B) cs = COMPARE_EQUAL ↔ wordEq cs w A) ∧
    (compare (w ++ rest) w.length (A ++ 47 :: B) cs = COMPARE_UNEQUAL ↔ ¬ wordEq cs w A) ∧
    compare (bytes "LEFT") 4 (bytes "LEFTARROW/LEFT") COMPARE_CASE_SENSETIVE = COMPARE_UNEQUAL ∧
    compare (bytes "left") 4 (bytes "LEFTARROW/LEFT") COMPARE_CASE_INSENSETIVE = COMPARE_UNEQUAL ∧
    compare (bytes "left") 4 (bytes "LEFTARROW/LEFT") COMPARE_CASE_SENSETIVE
      = COMPARE_UNEQUAL := by
  have hv := compare_slash_value A B w rest cs hA hB hAc hBc
  have hlen := wordEq_length cs w B hw
  have hApos : 0 < A.length := List.length_pos.mpr hA
  have h2 : ¬ wordEq cs w (A ++ B) := fun h => by
    have := wordEq_length cs w _ h
    rw [List.length_append] at this
    omega
  have h3 : ¬ wordEq cs w (A ++ 47 :: B) := fun h => by
    have := wordEq_length cs w _ h
    rw [List.length_append, List.length_cons] at this
    omega
  have hiff : (wordEq cs w A ∨ wordEq cs w (A ++ B) ∨ wordEq cs w (A ++ 47 :: B)) ↔
      wordEq cs w A := by
    constructor
    · rintro (h | h | h)
      · exact h
      · exact absurd h h2
      · exact absurd h h3
    · exact Or.inl
  refine ⟨?_, ?_, by decide, by decide, by decide⟩
  · rw [hv]
    by_cases h : wordEq cs w A
    · rw [if_pos (hiff.mpr h)]
      simp [h]
    · rw [if_neg (fun hh => h (hiff.mp hh))]
      simp [h, COMPARE_EQUAL, COMPARE_UNEQUAL]
  · rw [hv]
    by_cases h : wordEq cs w A
    · rw [if_pos (hiff.mpr h)]
      simp [h, COMPARE_EQUAL, COMPARE_UNEQUAL]
    · rw [if_neg (fun hh => h (hiff.mp hh))]
      simp [h]

/-- Witness for C2: the word `left` is the spelling `LEFT` of the template
`LEFTARROW/LEFT` when case is ignored. -/
theorem compare_slash_second_spelling_alone_witness :
    (compare (bytes "left" ++ []) (bytes "left").length (bytes "LEFTARROW" ++ 47 :: bytes "LEFT")
        COMPARE_CASE_INSENSETIVE = COMPARE_EQUAL ↔
      wordEq COMPARE_CASE_INSENSETIVE (bytes "left") (bytes "LEFTARROW")) ∧
    (compare (bytes "left" ++ []) (bytes "left").length (bytes "LEFTARROW" ++ 47 :: bytes "LEFT")
        COMPARE_CASE_INSENSETIVE = COMPARE_UNEQUAL ↔
      ¬ wordEq COMPARE_CASE_INSENSETIVE (bytes "left") (bytes "LEFTARROW")) ∧
    compare (bytes "LEFT") 4 (bytes "LEFTARROW/LEFT") COMPARE_CASE_SENSETIVE = COMPARE_UNEQUAL ∧
    compare (bytes "left") 4 (bytes "LEFTARROW/LEFT") COMPARE_CASE_INSENSETIVE = COMPARE_UNEQUAL ∧
    compare (bytes "left") 4 (bytes "LEFTARROW/LEFT") COMPARE_CASE_SENSETIVE
      = COMPARE_UNEQUAL :=
  compare_slash_second_spelling_alone (bytes "LEFTARROW") (bytes "LEFT") (bytes "left") []
    COMPARE_CASE_INSENSETIVE (by decide) (by decide) (by decide) (by decide) (by decide)

/-- C23: on a template `P/S`, with `P` and `S` non-empty and free of `,`, `/`
(and of NUL, as in every C string), `compare` returns EQUAL exactly when the
word equals `P`, or `P` followed by `S`, or the literal text `P/S`, under the
comparison mode, and UNEQUAL otherwise: the slash marks `S` as an optional
suffix of `P`.  `UP` against `UP/DOWN` is EQUAL in every mode. -/
theorem compare_slash_optional_suffix (P S w rest : List Nat) (cs : Nat)
    (hP : P ≠ []) (hS : S ≠ [])
    (hPc : ∀ c ∈ P, c ≠ 44 ∧ c ≠ 47 ∧ c ≠ 0) (hSc : ∀ c ∈ S, c ≠ 44 ∧ c ≠ 47 ∧ c ≠ 0) :
    (compare (w ++ rest) w.length (P ++ 47 :: S) cs = COMPARE_EQUAL ↔
      wordEq cs w P ∨ wordEq cs w (P ++ S) ∨ wordEq cs w (P ++ 47 :: S)) ∧
    (compare (w ++ rest) w.length (P ++ 47 :: S) cs = COMPARE_UNEQUAL ↔
      ¬ (wordEq cs w P ∨ wordEq cs w (P ++ S) ∨ wordEq cs w (P ++ 47 :: S))) ∧
    compare (bytes "UP") 2 (bytes "UP/DOWN") cs = COMPARE_EQUAL := by
  have hv := compare_slash_value P S w rest cs hP hS hPc hSc
  refine ⟨?_, ?_, ?_⟩
  · rw [hv]
    by_cases h : wordEq cs w P ∨ wordEq cs w (P ++ S) ∨ wordEq cs w (P ++ 47 :: S)
    · simp [h]
    · simp [h, COMPARE_EQUAL, COMPARE_UNEQUAL]
  · rw [hv]
    by_cases h : wordEq cs w P ∨ wordEq cs w (P ++ S) ∨ wordEq cs w (P ++ 47 :: S)
    · simp [h, COMPARE_EQUAL, COMPARE_UNEQUAL]
    · simp [h]
  · have he := compare_slash_value (bytes "UP") (bytes "DOWN") (bytes "UP") [] cs
      (by decide) (by decide) (by decide) (by decide)
    have h1 : bytes "UP" ++ [] = bytes "UP" := by simp
    have h2 : (bytes "UP").length = 2 := by decide
    have h3 : bytes "UP" ++ 47 :: bytes "DOWN" = bytes "UP/DOWN" := by decide
    rw [h1, h2, h3] at he
    rw [he, if_pos (Or.inl (wordEq_refl cs _))]

/-- Witness for C23: the word `updown` against `UP/DOWN`, case ignored. -/
theorem compare_slash_optional_suffix_witness :
    (compare (bytes "updown" ++ []) (bytes "updown").length (bytes "UP" ++ 47 :: bytes "DOWN") 0
        = COMPARE_EQUAL ↔
      wordEq 0 (bytes "updown") (bytes "UP") ∨
        wordEq 0 (bytes "updown") (bytes "UP" ++ bytes "DOWN") ∨
        wordEq 0 (bytes "updown") (bytes "UP" ++ 47 :: bytes "DOWN")) ∧
    (compare (bytes "updown" ++ []) (bytes "updown").length (bytes "UP" ++ 47 :: bytes "DOWN") 0
        = COMPARE_UNEQUAL ↔
      ¬ (wordEq 0 (bytes "updown") (bytes "UP") ∨
        wordEq 0 (bytes "updown") (bytes "UP" ++ bytes "DOWN") ∨
        wordEq 0 (bytes "updown") (bytes "UP" ++ 47 :: bytes "DOWN"))) ∧
    compare (bytes "UP") 2 (bytes "UP/DOWN") 0 = COMPARE_EQUAL :=
  compare_slash_optional_suffix (bytes "UP") (bytes "DOWN") (bytes "updown") [] 0
    (by decide) (by decide) (by decide) (by decide)

/-! ## Sleep scheduler -/

/-- The wait loop polls once for every reading below the deadline and returns
at the first reading that has reached it. -/
theorem sleepWait_reach (clock : Nat → Nat) (d : Nat) :
    ∀ (p fuel k polls : Nat), (∀ j, j < p → clock (k + j) % 2 ^ 32 < d) →
      ¬ (clock (k + p) % 2 ^ 32 < d) → p < fuel →
      sleepWait clock d fuel k polls = some (polls + p) := by
  intro p
  induction p with
  | zero =>
    intro fuel k polls _ hstop hf
    cases fuel with
    | zero => omega
    | succ f =>
      unfold sleepWait
      rw [if_neg (by simpa using hstop)]
      rfl
  | succ p ih =>
    intro fuel k polls hbelow hstop hf
    cases fuel with
    | zero => omega
    | succ f =>
      unfold sleepWait
      rw [if_pos (by simpa using hbelow 0 (by omega))]
      have := ih f (k + 1) (polls + 1)
        (fun j hj => by
          have := hbelow (j + 1) (by omega)
          rwa [show k + (j + 1) = k + 1 + j by omega] at this)
        (by rwa [show k + (p + 1) = k + 1 + p by omega] at hstop)
        (by omega)
      rw [this]
      congr 1
      omega

/-- While every reading stays below the deadline the wait loop goes on. -/
theorem sleepWait_waiting (clock : Nat → Nat) (d : Nat) :
    ∀ (fuel k polls : Nat), (∀ j, j < fuel → clock (k + j) % 2 ^ 32 < d) →
      sleepWait clock d fuel k polls = none := by
  intro fuel
  induction fuel with
  | zero => intro k polls _; rfl
  | succ f ih =>
    intro k polls hbelow
    unfold sleepWait
    rw [if_pos (by simpa using hbelow 0 (by omega))]
    exact ih (k + 1) (polls + 1) (fun j hj => by
      have := hbelow (j + 1) (by omega)
      rwa [show k + (j + 1) = k + 1 + j by omega] at this)

/-- C21: let `now` be the clock value read on entry of `sleep(requested)` and
`e = now - interpretTime`.  If `e >= requested`, `sleep` returns at once with
the timer unchanged (no poll, `sleepStartTime` and the deadline as before).
Otherwise it records the start `now` and the deadline `now + requested - e`
(in 32-bit arithmetic) and polls once for every later clock reading below the
deadline: it returns at the first reading that has reached the deadline, and
does not return while the readings stay below it. -/
theorem sleep_compensates (clock : Nat → Nat) (tm : Timer) (requested now : Nat)
    (h0 : clock 0 = now) (h1 : clock 1 = now) (hnow : now < 2 ^ 32)
    (hit : tm.interpretTime ≤ now) :
    (requested ≤ now - tm.interpretTime → ∀ fuel, sleep clock fuel requested tm = some tm) ∧
    (now - tm.interpretTime < requested → ∀ p fuel,
      (∀ j, j < p →
        clock (2 + j) % 2 ^ 32 < (now + requested - (now - tm.interpretTime)) % 2 ^ 32) →
      (now + requested - (now - tm.interpretTime)) % 2 ^ 32 ≤ clock (2 + p) % 2 ^ 32 →
      p < fuel →
      sleep clock fuel requested tm =
        some { tm with
          sleepStartTime := now,
          sleepTime := (now + requested - (now - tm.interpretTime)) % 2 ^ 32,
          polls := tm.polls + p }) ∧
    (now - tm.interpretTime < requested → ∀ fuel,
      (∀ j, j < fuel →
        clock (2 + j) % 2 ^ 32 < (now + requested - (now - tm.interpretTime)) % 2 ^ 32) →
      sleep clock fuel requested tm = none) ∧
    sleep (fun k => 1000 + (k - 1)) 10 5
        { interpretTime := 998, sleepStartTime := 0, sleepTime := 0, polls := 0 } =
      some { interpretTime := 998, sleepStartTime := 1000, sleepTime := 1003, polls := 2 } ∧
    sleep (fun k => 1000 + (k - 1)) 10 2
        { interpretTime := 998, sleepStartTime := 7, sleepTime := 8, polls := 0 } =
      some { interpretTime := 998, sleepStartTime := 7, sleepTime := 8, polls := 0 } := by
  have hoff : (clock 0 % 2 ^ 32 + 2 ^ 32 - tm.interpretTime) % 2 ^ 32 =
      now - tm.interpretTime := by
    rw [h0]
    norm_num at hnow ⊢
    omega
  have hstart : clock 1 % 2 ^ 32 = now := by
    rw [h1]; exact Nat.mod_eq_of_lt hnow
  have hdead : ∀ (hlt : now - tm.interpretTime < requested),
      (requested - (now - tm.interpretTime) + now) % 2 ^ 32 =
        (now + requested - (now - tm.interpretTime)) % 2 ^ 32 := by
    intro hlt
    congr 1
    omega
  refine ⟨?_, ?_, ?_, by decide, by decide⟩
  · intro hge fuel
    unfold sleep
    dsimp only
    rw [hoff, if_neg (by omega)]
  · intro hlt p fuel hbelow hreach hf
    unfold sleep
    dsimp only
    rw [hoff, if_pos hlt, hstart, hdead hlt,
      sleepWait_reach clock _ p fuel 2 0 hbelow (by omega) hf]
    simp
  · intro hlt fuel hbelow
    unfold sleep
    dsimp only
    rw [hoff, if_pos hlt, hstart, hdead hlt, sleepWait_waiting clock _ fuel 2 0 hbelow]

/-- Witness for C21: `interpretTime` 998, clock 1000 on entry, `sleep(5)`. -/
theorem sleep_compensates_witness :
    (5 ≤ 1000 - (Timer.mk 998 0 0 0).interpretTime → ∀ fuel,
      sleep (fun k => 1000 + (k - 1)) fuel 5 (Timer.mk 998 0 0 0) =
        some (Timer.mk 998 0 0 0)) ∧
    (1000 - (Timer.mk 998 0 0 0).interpretTime < 5 → ∀ p fuel,
      (∀ j, j < p → (fun k => 1000 + (k - 1)) (2 + j) % 2 ^ 32 <
        (1000 + 5 - (1000 - (Timer.mk 998 0 0 0).interpretTime)) % 2 ^ 32) →
      (1000 + 5 - (1000 - (Timer.mk 998 0 0 0).interpretTime)) % 2 ^ 32 ≤
        (fun k => 1000 + (k - 1)) (2 + p) % 2 ^ 32 →
      p < fuel →
      sleep (fun k => 1000 + (k - 1)) fuel 5 (Timer.mk 998 0 0 0) =
        some { Timer.mk 998 0 0 0 with
          sleepStartTime := 1000,
          sleepTime := (1000 + 5 - (1000 - (Timer.mk 998 0 0 0).interpretTime)) % 2 ^ 32,
          polls := (Timer.mk 998 0 0 0).polls + p }) ∧
    (1000 - (Timer.mk 998 0 0 0).interpretTime < 5 → ∀ fuel,
      (∀ j, j < fuel → (fun k => 1000 + (k - 1)) (2 + j) % 2 ^ 32 <
        (1000 + 5 - (1000 - (Timer.mk 998 0 0 0).interpretTime)) % 2 ^ 32) →
      sleep (fun k => 1000 + (k - 1)) fuel 5 (Timer.mk 998 0 0 0) = none) ∧
    sleep (fun k => 1000 + (k - 1)) 10 5
        { interpretTime := 998, sleepStartTime := 0, sleepTime := 0, polls := 0 } =
      some { interpretTime := 998, sleepStartTime := 1000, sleepTime := 1003, polls := 2 } ∧
    sleep (fun k => 1000 + (k - 1)) 10 2
        { interpretTime := 998, sleepStartTime := 7, sleepTime := 8, polls := 0 } =
      some { interpretTime := 998, sleepStartTime := 7, sleepTime := 8, polls := 0 } :=
  sleep_compensates (fun k => 1000 + (k - 1)) (Timer.mk 998 0 0 0) 5 1000 rfl rfl
    (by decide) (by decide)

/-! ## The argument span of a command line -/

/-- The four branches that take the rest of the line as their argument are
handed the span (`line_str`, `line_str_len`). -/
theorem parse_line_argument_span (str : List Nat) (n : line_node) (s : RunState)
    (cmd : word_node) (args : List word_node) (hw : n.words = cmd :: args) :
    (dispatch s.inComment s.inString (str.drop cmd.str) cmd.len = Branch.DELAY →
      parse_line str n s = some (finishLine
        { s with events := s.events ++
            [Event.sleep (toInt (str.drop (line_str cmd)) (line_str_len n cmd))] }
        true (str.getD (n.str + n.len) 0 == 13 || str.getD (n.str + n.len) 0 == 10))) ∧
    (dispatch s.inComment s.inString (str.drop cmd.str) cmd.len = Branch.DEFAULTDELAY →
      parse_line str n s = some (finishLine
        { s with defaultDelay := asInt (toInt (str.drop (line_str cmd)) (line_str_len n cmd)) }
        true (str.getD (n.str + n.len) 0 == 13 || str.getD (n.str + n.len) 0 == 10))) ∧
    (dispatch s.inComment s.inString (str.drop cmd.str) cmd.len = Branch.REPEAT →
      parse_line str n s = some (finishLine
        { s with repeatNum :=
            asInt ((toInt (str.drop (line_str cmd)) (line_str_len n cmd) + 1) % 2 ^ 32) }
        true (str.getD (n.str + n.len) 0 == 13 || str.getD (n.str + n.len) 0 == 10))) ∧
    (dispatch s.inComment s.inString (str.drop cmd.str) cmd.len = Branch.STRING →
      s.inString = false →
      parse_line str n s = some (finishLine
        { s with
          events := s.events ++ [Event.write (spanText str (line_str cmd) (line_str_len n cmd))],
          inString := !(str.getD (n.str + n.len) 0 == 13 || str.getD (n.str + n.len) 0 == 10) }
        false (str.getD (n.str + n.len) 0 == 13 || str.getD (n.str + n.len) 0 == 10))) := by
  obtain ⟨nstr, nlen, nwords⟩ := n
  simp only at hw
  subst hw
  refine ⟨?_, ?_, ?_, ?_⟩
  · intro hd
    unfold parse_line line_str line_str_len
    dsimp only
    rw [hd]
  · intro hd
    unfold parse_line line_str line_str_len
    dsimp only
    rw [hd]
  · intro hd
    unfold parse_line line_str line_str_len
    dsimp only
    rw [hd]
  · intro hd hS
    unfold parse_line line_str line_str_len
    dsimp only
    rw [hd, hS]
    rfl

/-- When the first word starts the line and the line goes on after it, the
argument span ends exactly where the line ends. -/
theorem argument_span_inside (n : line_node) (cmd : word_node)
    (hstart : cmd.str = n.str) (hmore : cmd.len < n.len) (hsize : n.len < 2 ^ 32) :
    line_str_len n cmd = n.len - cmd.len - 1 ∧
    line_str cmd + line_str_len n cmd = n.str + n.len := by
  unfold line_str line_str_len
  norm_num at hsize ⊢
  omega

/-- C22 (failing inputs): the line `REPEAT` alone has argument length
`6 - 6 - 1`, which wraps to 2^32 - 1; the line ` STRING ab` with one leading
space has its argument span start at offset 8 with length 3, ending at 11, one
past the end of the line at 10, and `parse` types `ab` followed by the line
feed; with two leading spaces the typed text runs into the next line. -/
theorem argument_span_leaves_line :
    parse_lines (bytes "REPEAT\n") 7 =
      [{ str := 0, len := 6, words := [{ str := 0, len := 6 }] }] ∧
    line_str_len { str := 0, len := 6, words := [{ str := 0, len := 6 }] }
      { str := 0, len := 6 } = 2 ^ 32 - 1 ∧
    parse_lines (bytes " STRING ab\n") 11 =
      [{ str := 0, len := 10, words := [{ str := 1, len := 6 }, { str := 8, len := 2 }] }] ∧
    line_str { str := 1, len := 6 } = 8 ∧
    line_str_len
      { str := 0, len := 10, words := [{ str := 1, len := 6 }, { str := 8, len := 2 }] }
      { str := 1, len := 6 } = 3 ∧
    (parse (bytes " STRING ab\n") 11 RunState.init).map (fun s => s.events) =
      some [Event.write (bytes "ab\n"), Event.sleep 5] ∧
    (parse (bytes "  STRING ab\nX\n") 14 RunState.init).map (fun s => s.events.head?) =
      some (some (Event.write (bytes "ab\nX"))) := by
  decide

end duckparser
